import Mathlib

/-!
# libed2k: session and transfer engine

A shallow embedding of `src/src/transfer.cpp` and `src/src/session_impl.cpp`, and of the
endpoint encoding of `src/include/libed2k/socket_io.hpp`.

* Objects that C++ mutates in place are passed and returned explicitly: a method of
  `transfer` that reaches into its session through `m_ses` takes the transfer and the
  session and returns both.
* `std::map<md4_hash, shared_ptr<transfer>>` is a list of key/value pairs in ascending
  key order; `std::set<peer_connection*>` is a list of peer values.
* Calls that leave the two translation units (storage requests, peer disconnects,
  alerts) are recorded in trace fields of the session so that "nothing was issued"
  can be stated as "the trace did not grow".
* Dereferencing a null `m_picker` or `m_storage` is undefined behaviour in the source;
  the functions that can do so return `Option` and yield `none` there.
* What the environment decides for a connection attempt (no peer, an exception while
  queueing, a failed allocation) is an explicit argument of `connect_new_peers`, one
  decision per call of `try_connect_peer`; the loop records its iterations in a trace.
* An iterator of a `std::set` is the identity of the element it points at; using it
  after the element has been erased is undefined behaviour and has its own outcome.
* An `int` is an `Int`; the queue position that `add_transfer` computes as `pos + 1` can
  pass the largest `int` and is wrapped to 32 bits (`to_int`).
-/

namespace libed2k

/-! ## Plain data -/

/-- An MD4 digest. Only equality and the ordering used by the transfer map matter. -/
abbrev md4_hash := Nat

/-- Modelled from the spec: `PIECE_SIZE` of `constants.hpp`, which is not among the
sources; the spec gives the protocol value 9,728,000 bytes per piece. -/
def PIECE_SIZE : Nat := 9728000

/-- Modelled from the spec: `div_ceil` of `util.hpp`, which is not among the sources;
the spec describes it as the ceiling of the quotient. -/
def div_ceil (a b : Nat) : Nat := (a + b - 1) / b

/-- The value that an `int` variable holds when the arithmetic result `x` is stored in
it: `int` has 32 bits and a result outside of its range wraps around (two's
complement). -/
def to_int (x : Int) : Int := (x + 2147483648) % 4294967296 - 2147483648

/-- The members of `errors::` that the two translation units mention. -/
inductive error_code
  | no_error
  | session_is_closing
  | duplicate_transfer
  | transfer_aborted
  | transfer_paused
  | transfer_finished
  | transfer_removed
  | stopping_transfer
  deriving DecidableEq, Repr

/-- The members of `transfer_status::state_t` that the two translation units mention. -/
inductive state_t
  | queued_for_checking
  | checking_files
  | downloading
  | finished
  | seeding
  | checking_resume_data
  deriving DecidableEq, Repr

/-- Alerts handed to `m_alerts.post_alert_should`. The handle an alert carries is
represented by the hash of the transfer that posted it. -/
inductive alert
  | added_transfer_alert (h : md4_hash)
  | paused_transfer_alert (h : md4_hash)
  | resumed_transfer_alert (h : md4_hash)
  | state_changed_alert (h : md4_hash) (new_state old_state : state_t)
  | deleted_transfer_alert (h : md4_hash)
  | delete_failed_transfer_alert (h : md4_hash)
  deriving DecidableEq, Repr

/-- The completion handler bound into an asynchronous storage request. -/
inductive disk_callback
  | on_transfer_aborted
  | on_files_released
  | on_transfer_paused
  | on_files_deleted
  deriving DecidableEq, Repr

/-- A request issued to the storage (`piece_manager`) of the transfer with hash `owner`. -/
inductive storage_request
  | abort_disk_jobs (owner : md4_hash)
  | async_release_files (owner : md4_hash) (cb : disk_callback)
  | async_clear_read_cache (owner : md4_hash)
  | async_delete_files (owner : md4_hash) (cb : disk_callback)
  deriving DecidableEq, Repr

/-! ## Piece picker -/

/-- Per-block download state kept by the picker. -/
inductive block_state
  | state_none
  | state_requested
  | state_writing
  | state_finished
  deriving DecidableEq, Repr

/-- A block address: piece index and block index inside the piece. -/
structure piece_block where
  piece_index : Nat
  block_index : Nat
  deriving DecidableEq, Repr

/-- An entry of the picker's download queue: a partially downloaded piece. -/
structure downloading_piece where
  index : Nat
  info : List block_state
  deriving DecidableEq, Repr

/-- Number of blocks of a queued piece that are written to disk. -/
def downloading_piece.finished (d : downloading_piece) : Nat :=
  d.info.count block_state.state_finished

/-- What the picker knows about one piece. -/
structure piece_pos where
  m_have : Bool
  peer_count : Nat
  priority : Nat
  deriving DecidableEq, Repr

/-- Modelled from the spec: `libtorrent::piece_picker` (the spec's PieceTracker), whose
source is not among the sources. It holds one ownership bit, one interest count and one
priority per piece, and a queue of in-progress pieces with per-block state. -/
structure piece_picker where
  m_piece_map : List piece_pos := []
  m_downloads : List downloading_piece := []
  m_blocks_per_piece : Nat := 0
  m_blocks_in_last_piece : Nat := 0
  deriving DecidableEq, Repr

namespace piece_picker

/-- Modelled from the spec: `piece_picker::init`; every piece starts not owned, with no
interested peer and default priority, and the download queue is empty. -/
def init (_p : piece_picker) (blocks_per_piece blocks_in_last_piece total_num_pieces : Nat) :
    piece_picker :=
  { m_piece_map := List.replicate total_num_pieces
      { m_have := false, peer_count := 0, priority := 1 }
    m_downloads := []
    m_blocks_per_piece := blocks_per_piece
    m_blocks_in_last_piece := blocks_in_last_piece }

/-- The length of the ownership bitfield. -/
def num_pieces (p : piece_picker) : Nat := p.m_piece_map.length

/-- The number of owned pieces: the population count of the ownership bits. -/
def num_have (p : piece_picker) : Nat := p.m_piece_map.countP (fun x => x.m_have)

/-- The ownership bit of one piece; false outside the bitfield. -/
def have_piece (p : piece_picker) (index : Nat) : Bool :=
  match p.m_piece_map[index]? with
  | some x => x.m_have
  | none => false

/-- The priority of one piece; 0 means the piece is not wanted. -/
def piece_priority (p : piece_picker) (index : Nat) : Nat :=
  match p.m_piece_map[index]? with
  | some x => x.priority
  | none => 0

/-- The block count of the last piece, as given to `init`. -/
def blocks_in_last_piece (p : piece_picker) : Nat := p.m_blocks_in_last_piece

/-- The block count of a piece: the last piece may be shorter. -/
def blocks_in_piece (p : piece_picker) (index : Nat) : Nat :=
  if index + 1 = p.num_pieces then p.m_blocks_in_last_piece else p.m_blocks_per_piece

/-- The queue of in-progress pieces. -/
def get_download_queue (p : piece_picker) : List downloading_piece := p.m_downloads

/-- The queue entry of a piece, if the piece is in progress. -/
def find_dl_piece (p : piece_picker) (index : Nat) : Option downloading_piece :=
  p.m_downloads.find? (fun d => d.index == index)

/-- Modelled from the spec: a piece is "locally complete" when it is in the download
queue and all of its blocks are written. -/
def is_piece_finished (p : piece_picker) (index : Nat) : Bool :=
  match p.find_dl_piece index with
  | none => false
  | some d => decide (p.blocks_in_piece index ≤ d.finished)

/-- Whether one block is written: true for every block of an owned piece. -/
def is_finished (p : piece_picker) (b : piece_block) : Bool :=
  if p.have_piece b.piece_index then true
  else
    match p.find_dl_piece b.piece_index with
    | none => false
    | some d => decide (d.info[b.block_index]? = some block_state.state_finished)

/-- Modelled from the spec: `mark_have`; sets the ownership bit and takes the piece out
of the download queue; doing it again changes nothing. -/
def we_have (p : piece_picker) (index : Nat) : piece_picker :=
  { p with
    m_piece_map := p.m_piece_map.modify (fun x => { x with m_have := true }) index
    m_downloads := p.m_downloads.filter (fun d => d.index != index) }

/-- Modelled from the spec: takes a piece out of the download queue so that it can be
downloaded again. -/
def restore_piece (p : piece_picker) (index : Nat) : piece_picker :=
  { p with m_downloads := p.m_downloads.filter (fun d => d.index != index) }

/-- Decrements the interest count of every piece; the count never goes below zero. -/
def dec_refcount_all (p : piece_picker) : piece_picker :=
  { p with m_piece_map := p.m_piece_map.map (fun x => { x with peer_count := x.peer_count - 1 }) }

/-- Walks the piece map and a peer bitfield side by side, decrementing where the bit is set. -/
def dec_where_set : List piece_pos → List Bool → List piece_pos
  | [], _ => []
  | x :: xs, [] => x :: xs
  | x :: xs, b :: bs =>
    (if b then { x with peer_count := x.peer_count - 1 } else x) :: dec_where_set xs bs

/-- Decrements the interest count of the pieces set in `bitfield`. -/
def dec_refcount (p : piece_picker) (bitfield : List Bool) : piece_picker :=
  { p with m_piece_map := dec_where_set p.m_piece_map bitfield }

end piece_picker

/-! ## Peers -/

/-- What `peer_connection::downloading_piece_progress` reports. -/
structure piece_block_progress where
  piece_index : Nat
  block_index : Nat
  bytes_downloaded : Int
  full_block_bytes : Int
  deriving DecidableEq, Repr

/-- Modelled from the spec: the part of `peer_connection` (its source is not among the
sources) that the transfer reads: identity, the disconnecting and connecting flags,
whether the remote side is a seed, the pieces it advertises and its live progress. -/
structure peer_connection where
  m_id : Nat
  m_disconnecting : Bool := false
  m_connecting : Bool := false
  m_seed : Bool := false
  m_remote_pieces : List Bool := []
  m_progress : Option piece_block_progress := none
  deriving DecidableEq, Repr

/-- A known peer endpoint and the connection attached to it, if any. -/
structure peer where
  endpoint : Nat
  connection : Option Nat := none
  deriving DecidableEq, Repr

/-- Modelled from the spec: the policy object (its source is not among the sources),
"tracking known peer endpoints not yet connected (connect candidates) and
already-connected peers". -/
structure policy where
  m_peers : List peer := []
  deriving DecidableEq, Repr

namespace policy

/-- Modelled from the spec: the number of known peer endpoints. -/
def num_peers (p : policy) : Nat := p.m_peers.length

/-- Modelled from the spec: the connect candidates, the known endpoints that are not
connected. -/
def num_connect_candidates (p : policy) : Nat :=
  p.m_peers.countP (fun x => x.connection.isNone)

/-- Modelled from the spec: the endpoint that was served by connection `c` becomes
unconnected again. -/
def connection_closed (p : policy) (c : peer_connection) : policy :=
  { m_peers := p.m_peers.map (fun x =>
      if x.connection = some c.m_id then { x with connection := none } else x) }

end policy

/-! ## Transfer and session state -/

/-- The piece hashes of a transfer: one slot per piece, empty until the digest is known.
Modelled from the spec: `hash_set` is not among the sources; the spec calls it the
"ordered list of per-piece digests". -/
abbrev hash_set := List (Option md4_hash)

/-- The fields of `add_transfer_params` that the constructor of `transfer` and
`add_transfer` read. -/
structure add_transfer_params where
  file_hash : md4_hash
  piece_hash : hash_set := []
  file_path : String := ""
  file_size : Nat := 0
  storage_mode : Nat := 0
  seed_mode : Bool := false
  duplicate_is_error : Bool := false
  peer_list : List Nat := []
  m_accepted : Nat := 0
  m_requested : Nat := 0
  m_transferred : Nat := 0
  m_priority : Nat := 0
  deriving DecidableEq, Repr

/-- The data members of `transfer`. `m_owning_storage` and `m_storage` record whether the
pointer is non-null. -/
structure transfer where
  m_obsolete : Bool := false
  m_announced : Bool := false
  m_abort : Bool := false
  m_paused : Bool := false
  m_sequential_download : Bool := false
  m_sequence_number : Int := 0
  m_filehash : md4_hash
  m_hashset : hash_set := []
  m_filepath : String := ""
  m_filesize : Nat := 0
  m_storage_mode : Nat := 0
  m_state : state_t := state_t.checking_resume_data
  m_seed_mode : Bool := false
  m_policy : policy := {}
  m_picker : Option piece_picker := none
  m_connections : List peer_connection := []
  m_owning_storage : Bool := false
  m_storage : Bool := false
  m_accepted : Nat := 0
  m_requested : Nat := 0
  m_transferred : Nat := 0
  m_priority : Nat := 0
  deriving DecidableEq, Repr

/-- A `transfer_handle` wraps a `boost::weak_ptr<transfer>`. It is represented by what
`lock()` yields when the handle is used: `none` for an empty or expired pointer, the
transfer object otherwise. -/
structure transfer_handle where
  m_transfer : Option transfer
  deriving DecidableEq, Repr

/-- Modelled from the spec: `cyclic_iterator` of `session_impl.hpp`, which is not among
the sources: "a rotating iterator over transfers". A map iterator is the key of the node
it points at; `none` is `end()`. -/
structure cyclic_iterator where
  m_current : Option md4_hash := none
  deriving DecidableEq, Repr

/-- Modelled from the spec: `libtorrent::connection_queue`, the "half-open budget: bounded
counter of allowed concurrent outbound connection attempts"; its source is not among the
sources. It holds the limit and the attempts that are queued or in flight. -/
structure connection_queue where
  m_half_open_limit : Int := 0
  m_queue : List Nat := []
  deriving DecidableEq, Repr

namespace connection_queue

/-- Modelled from the spec: the half-open limit. -/
def limit (q : connection_queue) : Int := q.m_half_open_limit

/-- Modelled from the spec: the number of attempts that are queued or in flight. -/
def size (q : connection_queue) : Int := q.m_queue.length

/-- Modelled from the spec: the free slots, the limit minus the attempts that are queued or
in flight (negative when more are queued than the limit allows). A limit of 0 stands for
"no limit", as the constructor of the session uses it; the free slots are then the
largest `int`. -/
def free_slots (q : connection_queue) : Int :=
  if q.m_half_open_limit = 0 then 2147483647 else q.m_half_open_limit - q.m_queue.length

/-- Modelled from the spec: one more attempt is queued. -/
def enqueue (q : connection_queue) (id : Nat) : connection_queue :=
  { q with m_queue := q.m_queue ++ [id] }

end connection_queue

/-- The data members of `aux::session_impl` that the embedded functions touch, followed
by three traces: the alerts handed to the alert manager, the requests issued to
storages, and the calls of `peer_connection::disconnect`. -/
structure session_impl where
  m_abort : Bool := false
  m_paused : Bool := false
  m_transfers : List (md4_hash × transfer) := []
  m_next_connect_transfer : cyclic_iterator := {}
  m_connections : List Nat := []
  m_max_connections : Int := 200
  m_half_open : connection_queue := {}
  m_alerts : List alert := []
  m_storage_requests : List storage_request := []
  m_disconnects : List (Nat × error_code) := []
  deriving DecidableEq, Repr

namespace session_impl

/-- Modelled from the spec: the accessor `is_aborted` of `session_impl.hpp`, which is not
among the sources: the abort flag of the session. -/
def is_aborted (s : session_impl) : Bool := s.m_abort

/-- Modelled from the spec: the accessor `is_paused` of `session_impl.hpp`, which is not
among the sources: the session-wide pause flag. -/
def is_paused (s : session_impl) : Bool := s.m_paused

/-- The call `m_alerts.post_alert_should(a)`. The alert manager and its mask are outside
the two translation units; the trace keeps every alert that is handed over. -/
def post_alert_should (s : session_impl) (a : alert) : session_impl :=
  { s with m_alerts := s.m_alerts ++ [a] }

/-- Records one request to a storage. -/
def storage_call (s : session_impl) (r : storage_request) : session_impl :=
  { s with m_storage_requests := s.m_storage_requests ++ [r] }

/-- The function `session_impl::close_connection`: erases the connection from the global set. -/
def close_connection (s : session_impl) (p : peer_connection) (_ec : error_code) :
    session_impl :=
  { s with m_connections := s.m_connections.erase p.m_id }

end session_impl

/-! ## transfer.cpp -/

/-- Modelled from the spec: the accessor `transfer::hash` of `transfer.hpp`, which is not
among the sources: the content hash that identifies the transfer. -/
def transfer.hash (t : transfer) : md4_hash := t.m_filehash

/-- Modelled from the spec: the accessor `transfer::filesize` of `transfer.hpp`. -/
def transfer.filesize (t : transfer) : Nat := t.m_filesize

/-- Modelled from the spec: the accessor `transfer::is_aborted` of `transfer.hpp`: the
aborted flag. -/
def transfer.is_aborted (t : transfer) : Bool := t.m_abort

/-- Modelled from the spec: the accessor `transfer::is_obsolete` of `transfer.hpp`: the
obsolete flag. -/
def transfer.is_obsolete (t : transfer) : Bool := t.m_obsolete

/-- Modelled from the spec: the accessor `transfer::queue_position` of `transfer.hpp`: the
sequence number the constructor received. -/
def transfer.queue_position (t : transfer) : Int := t.m_sequence_number

/-- Modelled from the spec: the accessor `transfer::has_picker` of `transfer.hpp`: whether
the picker pointer is set. -/
def transfer.has_picker (t : transfer) : Bool := t.m_picker.isSome

/-- The function `transfer::num_pieces`. -/
def transfer.num_pieces (t : transfer) : Nat := div_ceil t.m_filesize PIECE_SIZE

/-- Modelled from the spec: `transfer::num_have` of `transfer.hpp`, which is not among
the sources: the picker's population count, and every piece once the picker is gone. -/
def transfer.num_have (t : transfer) : Nat :=
  match t.m_picker with
  | some p => p.num_have
  | none => t.num_pieces

/-- The ownership bits of a transfer, the "have-set": the picker's bits, and every piece
once the picker is gone. -/
def transfer.have_set (t : transfer) : List Bool :=
  match t.m_picker with
  | some p => p.m_piece_map.map (fun x => x.m_have)
  | none => List.replicate t.num_pieces true

/-- Modelled from the spec: `transfer::is_seed` of `transfer.hpp`, which is not among the
sources: a seed "possesses 100% of pieces", and the picker is "absent once seeding". -/
def transfer.is_seed (t : transfer) : Bool :=
  match t.m_picker with
  | none => true
  | some p => p.num_have == p.num_pieces

/-- Modelled from the spec: `transfer::is_finished` of `transfer.hpp`, which is not among
the sources: "all wanted pieces owned"; a piece of priority 0 is not wanted. -/
def transfer.is_finished (t : transfer) : Bool :=
  if t.is_seed then true
  else
    match t.m_picker with
    | none => true
    | some p => p.m_piece_map.all (fun x => x.m_have || x.priority == 0)

/-- Modelled from the spec: `transfer::ready_for_connections` of `transfer.hpp`, which is
not among the sources; the spec puts no condition on the bookkeeping of `remove_peer`. -/
def transfer.ready_for_connections (_t : transfer) : Bool := true

/-- The constructor `transfer::transfer`. -/
def transfer.ctor (seq : Int) (p : add_transfer_params) : transfer :=
  let t : transfer :=
    { m_obsolete := false
      m_announced := false
      m_abort := false
      m_paused := false
      m_sequential_download := false
      m_sequence_number := seq
      m_filehash := p.file_hash
      m_hashset := p.piece_hash
      m_filepath := p.file_path
      m_filesize := p.file_size
      m_storage_mode := p.storage_mode
      m_state := state_t.checking_resume_data
      m_seed_mode := p.seed_mode
      m_policy := { m_peers := p.peer_list.map (fun e => { endpoint := e }) }
      m_accepted := p.m_accepted
      m_requested := p.m_requested
      m_transferred := p.m_transferred
      m_priority := p.m_priority }
  if t.m_hashset.length = 0 then
    { t with m_hashset := List.replicate (div_ceil t.m_filesize PIECE_SIZE) none }
  else t

/-- The function `transfer::handle`. -/
def transfer.handle (t : transfer) : transfer_handle := { m_transfer := some t }

/-- The function `transfer::set_state`. -/
def transfer.set_state (t : transfer) (s : session_impl) (st : state_t) :
    transfer × session_impl :=
  if t.m_state = st then (t, s)
  else
    ({ t with m_state := st },
      s.post_alert_should (alert.state_changed_alert t.hash st t.m_state))

/-- The function `transfer::set_obsolete`. -/
def transfer.set_obsolete (t : transfer) (obsolete : Bool) : transfer :=
  if t.is_finished then { t with m_obsolete := obsolete } else t

/-- The function `transfer::want_more_peers`. -/
def transfer.want_more_peers (t : transfer) : Bool :=
  !t.is_finished && t.m_policy.num_peers == 0

/-- The function `transfer::is_paused`. -/
def transfer.is_paused (t : transfer) (s : session_impl) : Bool :=
  t.m_paused || s.is_paused

/-- The function `transfer::want_more_connections`. -/
def transfer.want_more_connections (t : transfer) (s : session_impl) : Bool :=
  !t.m_abort && !t.is_paused s && !t.is_seed && decide (t.m_policy.num_connect_candidates > 0)

/-- The function `transfer::remove_peer`. A connection that is not attached is left alone
(the source asserts and returns). -/
def transfer.remove_peer (t : transfer) (c : peer_connection) : transfer :=
  match t.m_connections.find? (fun x => x.m_id == c.m_id) with
  | none => t
  | some _ =>
    let picker :=
      if t.ready_for_connections then
        if c.m_seed then t.m_picker.map (fun p => p.dec_refcount_all)
        else
          t.m_picker.map (fun p =>
            if c.m_remote_pieces.length > 0 then p.dec_refcount c.m_remote_pieces else p)
      else t.m_picker
    { t with
      m_picker := picker
      m_policy := t.m_policy.connection_closed c
      m_connections := t.m_connections.filter (fun x => x.m_id != c.m_id) }

/-- Modelled from the spec: `peer_connection::disconnect`, whose source is not among the
sources. A peer that is disconnecting already is left alone; otherwise the peer is
unlinked "from both the local set and the global set": `transfer::remove_peer` and
`session_impl::close_connection` run, and the call is recorded. -/
def peer_connection.disconnect (p : peer_connection) (ec : error_code) (t : transfer)
    (s : session_impl) : transfer × session_impl :=
  if p.m_disconnecting then (t, s)
  else
    (t.remove_peer p,
      { s.close_connection p ec with m_disconnects := s.m_disconnects ++ [(p.m_id, ec)] })

/-- The loop of `transfer::disconnect_all`, one iteration per unit of fuel. -/
def transfer.disconnect_all_loop (ec : error_code) :
    Nat → transfer → session_impl → transfer × session_impl
  | 0, t, s => (t, s)
  | fuel + 1, t, s =>
    match t.m_connections with
    | [] => (t, s)
    | p :: rest =>
      if p.m_disconnecting then
        transfer.disconnect_all_loop ec fuel { t with m_connections := rest } s
      else
        let r := p.disconnect ec t s
        transfer.disconnect_all_loop ec fuel r.1 r.2

/-- The function `transfer::disconnect_all`. Every iteration takes at least the first
connection out of the set, so one unit of fuel per attached connection is enough. -/
def transfer.disconnect_all (t : transfer) (s : session_impl) (ec : error_code) :
    transfer × session_impl :=
  transfer.disconnect_all_loop ec t.m_connections.length t s

/-- The function `transfer::abort`. -/
def transfer.abort (t : transfer) (s : session_impl) : transfer × session_impl :=
  if t.m_abort then (t, s)
  else
    let t1 := { t with m_abort := true }
    let r := t1.disconnect_all s error_code.transfer_aborted
    let s2 :=
      if r.1.m_owning_storage then
        (r.2.storage_call (storage_request.abort_disk_jobs r.1.hash)).storage_call
          (storage_request.async_release_files r.1.hash disk_callback.on_transfer_aborted)
      else r.2
    let r3 :=
      if r.1.m_state = state_t.checking_files then
        r.1.set_state s2 state_t.queued_for_checking
      else (r.1, s2)
    ({ r3.1 with m_owning_storage := false }, r3.2)

/-- The function `transfer::we_have`; `none` when there is no picker to dereference. -/
def transfer.we_have (t : transfer) (index : Nat) (hash : md4_hash) : Option transfer :=
  match t.m_picker with
  | none => none
  | some p =>
    some { t with m_picker := some (p.we_have index), m_hashset := t.m_hashset.set index (some hash) }

/-- The function `transfer::completed`. -/
def transfer.completed (t : transfer) (s : session_impl) : transfer × session_impl :=
  transfer.set_state { t with m_picker := none } s state_t.seeding

/-- The function `transfer::finished`; `none` when the storage request at the end would
dereference a null `m_storage`. -/
def transfer.finished (t : transfer) (s : session_impl) : Option (transfer × session_impl) :=
  let r1 := t.set_state s state_t.finished
  let r2 := if r1.1.is_seed then r1.1.completed r1.2 else r1
  let seeds := r2.1.m_connections.filter
    (fun p => decide ((p.m_remote_pieces.count true : Int) = (r2.1.num_have : Int)))
  let r3 := seeds.foldl
    (fun acc p => p.disconnect error_code.transfer_finished acc.1 acc.2) r2
  if r3.1.m_abort then some r3
  else if r3.1.m_storage then
    some (r3.1, r3.2.storage_call
      (storage_request.async_release_files r3.1.hash disk_callback.on_files_released))
  else none

/-- The function `transfer::piece_passed`. -/
def transfer.piece_passed (t : transfer) (s : session_impl) (index : Nat) (hash : md4_hash) :
    Option (transfer × session_impl) :=
  let was_finished := t.num_have == t.num_pieces
  match t.we_have index hash with
  | none => none
  | some t1 =>
    if !was_finished && t1.is_finished then t1.finished s else some (t1, s)

/-- The function `transfer::piece_failed`: an empty body. -/
def transfer.piece_failed (t : transfer) (_index : Nat) : transfer := t

/-- The function `transfer::restore_piece_state`: an empty body. -/
def transfer.restore_piece_state (t : transfer) (_index : Nat) : transfer := t

/-- The function `transfer::piece_finished`; `passed_hash_check` is 0 for success, -1 for a
disk failure and -2 for a failed hash check. `none` when there is no picker to
dereference. -/
def transfer.piece_finished (t : transfer) (s : session_impl) (index : Nat) (hash : md4_hash)
    (passed_hash_check : Int) : Option (transfer × session_impl) :=
  match t.m_picker with
  | none => none
  | some p =>
    if !p.is_piece_finished index then some (t, s)
    else if passed_hash_check = 0 then t.piece_passed s index hash
    else if passed_hash_check = -2 then some (t.piece_failed index, s)
    else
      some (transfer.restore_piece_state
        { t with m_picker := some (p.restore_piece index) } index, s)

/-- The function `transfer::pause`. -/
def transfer.pause (t : transfer) (s : session_impl) : transfer × session_impl :=
  if t.m_paused then (t, s)
  else
    let t1 := { t with m_paused := true }
    if s.is_paused then (t1, s)
    else
      let s1 :=
        if t1.m_owning_storage then
          (s.storage_call
            (storage_request.async_release_files t1.hash disk_callback.on_transfer_paused)).storage_call
            (storage_request.async_clear_read_cache t1.hash)
        else s.post_alert_should (alert.paused_transfer_alert t1.hash)
      t1.disconnect_all s1 error_code.transfer_paused

/-- The function `transfer::resume`. -/
def transfer.resume (t : transfer) (s : session_impl) : transfer × session_impl :=
  if !t.m_paused then (t, s)
  else
    ({ t with m_paused := false }, s.post_alert_should (alert.resumed_transfer_alert t.hash))

/-- The function `transfer::delete_files`. -/
def transfer.delete_files (t : transfer) (s : session_impl) : transfer × session_impl :=
  let r := t.disconnect_all s error_code.transfer_removed
  if r.1.m_owning_storage then
    (r.1, r.2.storage_call
      (storage_request.async_delete_files r.1.hash disk_callback.on_files_deleted))
  else r

/-- The function `transfer::set_sequential_download`. -/
def transfer.set_sequential_download (t : transfer) (sd : Bool) : transfer :=
  { t with m_sequential_download := sd }

/-- The callback `transfer::on_files_released`: does nothing. -/
def transfer.on_files_released (t : transfer) (s : session_impl) (_ret : Int) :
    transfer × session_impl := (t, s)

/-- The callback `transfer::on_transfer_aborted`: does nothing. -/
def transfer.on_transfer_aborted (t : transfer) (s : session_impl) (_ret : Int) :
    transfer × session_impl := (t, s)

/-- The callback `transfer::on_files_deleted`. -/
def transfer.on_files_deleted (t : transfer) (s : session_impl) (ret : Int) :
    transfer × session_impl :=
  if ret ≠ 0 then (t, s.post_alert_should (alert.delete_failed_transfer_alert t.hash))
  else (t, s.post_alert_should (alert.deleted_transfer_alert t.hash))

/-- The callback `transfer::on_transfer_paused`. -/
def transfer.on_transfer_paused (t : transfer) (s : session_impl) (_ret : Int) :
    transfer × session_impl :=
  (t, s.post_alert_should (alert.paused_transfer_alert t.hash))

/-- The function `transfer::init`. `BLOCK_SIZE` belongs to `constants.hpp`, which is not
among the sources, and is taken as a parameter. -/
def transfer.init (BLOCK_SIZE : Nat) (t : transfer) (s : session_impl) :
    transfer × session_impl :=
  let t1 := { t with m_owning_storage := true, m_storage := true }
  let t2 :=
    match t1.m_picker with
    | some p =>
      { t1 with
        m_picker := some (p.init (div_ceil PIECE_SIZE BLOCK_SIZE)
          (div_ceil (t1.m_filesize % PIECE_SIZE) BLOCK_SIZE) t1.num_pieces) }
    | none => t1
  if !t2.is_seed then t2.set_state s state_t.downloading else (t2, s)

/-- The function `transfer::start`. -/
def transfer.start (BLOCK_SIZE : Nat) (t : transfer) (s : session_impl) :
    transfer × session_impl :=
  let t1 := if !t.m_seed_mode then { t with m_picker := some {} } else t
  t1.init BLOCK_SIZE s

/-- The function `transfer::attach_peer`. The policy is not among the sources: its
`new_connection`, which accepts or rejects the connection and updates the policy, is the
argument `new_connection`. -/
def transfer.attach_peer (new_connection : policy → peer_connection → Bool × policy)
    (t : transfer) (s : session_impl) (p : peer_connection) : Bool × transfer :=
  if !s.m_connections.contains p.m_id then (false, t)
  else if s.is_aborted then (false, t)
  else
    let r := new_connection t.m_policy p
    if !r.1 then (false, { t with m_policy := r.2 })
    else
      (true,
        { t with
          m_policy := r.2
          m_connections :=
            if t.m_connections.any (fun x => x.m_id == p.m_id) then t.m_connections
            else t.m_connections ++ [p] })

/-- How `transfer::second_tick` ends: it returns (with the peers whose `second_tick` was
called, in order, and whether more peers were requested), or it steps an iterator of
`m_connections` whose element has been erased, which is undefined behaviour, or the
fuel of the model runs out. -/
inductive tick_outcome
  | returned (t : transfer) (s : session_impl) (ticked : List Nat) (requested_peers : Bool)
  | invalid_iterator
  | out_of_fuel
  deriving DecidableEq, Repr

/-- The operator `++i` on an iterator of `std::set<peer_connection*>` that points at the
connection with identity `id`: the following element, or `end()` (the inner `none`)
after the last one. When the set holds no such element the iterator has been
invalidated by an erase and there is no result. -/
def connections_next : List peer_connection → Nat → Option (Option Nat)
  | [], _ => none
  | p :: rest, id =>
    if p.m_id = id then some (rest.head?.map (fun x => x.m_id)) else connections_next rest id

/-- The loop of `transfer::second_tick`, one iteration per unit of fuel. The iterator `i`
is the identity of the connection it points at, `none` for `end()`; `throws` tells for
which peers `peer_connection::second_tick` raises a `std::exception`. -/
def transfer.second_tick_loop (throws : Nat → Bool) :
    Nat → Option Nat → transfer → session_impl → List Nat → Bool → tick_outcome
  | 0, _, _, _, _, _ => tick_outcome.out_of_fuel
  | _ + 1, none, t, s, ticked, rq => tick_outcome.returned t s ticked rq
  | fuel + 1, some id, t, s, ticked, rq =>
    match t.m_connections.find? (fun x => x.m_id == id) with
    | none => tick_outcome.invalid_iterator
    | some p =>
      let r := if throws id then p.disconnect error_code.no_error t s else (t, s)
      match connections_next r.1.m_connections id with
      | none => tick_outcome.invalid_iterator
      | some i => transfer.second_tick_loop throws fuel i r.1 r.2 (ticked ++ [id]) rq

/-- The function `transfer::second_tick`. The request for more peers goes to the server
connection, which is outside the embedded state; the outcome records whether it was
made. The iterator visits every connection at most once, so one unit of fuel per
connection and one for `end()` are enough. -/
def transfer.second_tick (throws : Nat → Bool) (t : transfer) (s : session_impl) :
    tick_outcome :=
  transfer.second_tick_loop throws (t.m_connections.length + 1)
    (t.m_connections.head?.map (fun x => x.m_id)) t s [] t.want_more_peers

/-! ### Status reporting -/

/-- The fields of `transfer_status` that `transfer::status` fills in. -/
structure transfer_status where
  seed_mode : Bool := false
  paused : Bool := false
  total_wanted : Int := 0
  total_done : Int := 0
  total_wanted_done : Int := 0
  num_peers : Nat := 0
  list_peers : Nat := 0
  connect_candidates : Nat := 0
  num_connections : Nat := 0
  state : state_t := state_t.queued_for_checking
  deriving DecidableEq, Repr

/-- The inner loop of `bytes_done` over the blocks of one queued piece: the bytes of the
blocks that are being written or are written. -/
def transfer.dl_piece_bytes (block_bytes_wanted : piece_block → Int) (blocks_per_piece : Nat)
    (d : downloading_piece) : Int :=
  (List.range blocks_per_piece).foldl
    (fun corr j =>
      match d.info[j]? with
      | some block_state.state_writing =>
        corr + block_bytes_wanted { piece_index := d.index, block_index := j }
      | some block_state.state_finished =>
        corr + block_bytes_wanted { piece_index := d.index, block_index := j }
      | _ => corr)
    0

/-- The update of the local `std::map<piece_block, int> downloading_piece` for one report:
keep the larger byte count when the block is present, insert otherwise. -/
def transfer.note_progress :
    List (piece_block × Int) → piece_block → Int → List (piece_block × Int)
  | [], b, bytes => [(b, bytes)]
  | (k, v) :: rest, b, bytes =>
    if k = b then (k, if v < bytes then bytes else v) :: rest
    else (k, v) :: transfer.note_progress rest b bytes

/-- The function `transfer::bytes_done`. `BLOCK_SIZE` and `block_bytes_wanted` are declared
in headers that are not among the sources and are taken as parameters. -/
def transfer.bytes_done (BLOCK_SIZE : Nat) (block_bytes_wanted : piece_block → Int)
    (t : transfer) (st : transfer_status) : transfer_status :=
  let total_wanted : Int := t.filesize
  let total_done : Int := min ((t.num_have * PIECE_SIZE : Nat) : Int) total_wanted
  let st1 := { st with
    total_wanted := total_wanted, total_done := total_done, total_wanted_done := total_done }
  match t.m_picker with
  | none => st1
  | some picker =>
    let last_piece := t.num_pieces - 1
    let st2 :=
      if picker.have_piece last_piece then
        let corr : Int := ((t.filesize % PIECE_SIZE : Nat) : Int) - (PIECE_SIZE : Int)
        { st1 with
          total_done := st1.total_done + corr
          total_wanted_done :=
            if picker.piece_priority last_piece ≠ 0 then st1.total_wanted_done + corr
            else st1.total_wanted_done }
      else st1
    let blocks_per_piece := div_ceil PIECE_SIZE BLOCK_SIZE
    let st3 := picker.get_download_queue.foldl
      (fun (acc : transfer_status) d =>
        if picker.have_piece d.index then acc
        else
          let corr := transfer.dl_piece_bytes block_bytes_wanted blocks_per_piece d
          { acc with
            total_done := acc.total_done + corr
            total_wanted_done :=
              if picker.piece_priority d.index > 0 then acc.total_wanted_done + corr
              else acc.total_wanted_done })
      st2
    let downloading_piece := t.m_connections.foldl
      (fun (acc : List (piece_block × Int)) pc =>
        match pc.m_progress with
        | none => acc
        | some p =>
          if picker.have_piece p.piece_index then acc
          else
            let block : piece_block :=
              { piece_index := p.piece_index, block_index := p.block_index }
            if picker.is_finished block then acc
            else transfer.note_progress acc block p.bytes_downloaded)
      []
    downloading_piece.foldl
      (fun (acc : transfer_status) e =>
        let done := min (block_bytes_wanted e.1) e.2
        { acc with
          total_done := acc.total_done + done
          total_wanted_done :=
            if picker.piece_priority e.1.piece_index ≠ 0 then acc.total_wanted_done + done
            else acc.total_wanted_done })
      st3

/-- The function `transfer::status`. -/
def transfer.status (BLOCK_SIZE : Nat) (block_bytes_wanted : piece_block → Int)
    (t : transfer) : transfer_status :=
  let st : transfer_status := {}
  let st1 := { st with seed_mode := t.m_seed_mode, paused := t.m_paused }
  let st2 := t.bytes_done BLOCK_SIZE block_bytes_wanted st1
  { st2 with
    num_peers := t.m_connections.countP (fun c => !c.m_connecting)
    list_peers := t.m_policy.num_peers
    connect_candidates := t.m_policy.num_connect_candidates
    num_connections := t.m_connections.length
    state := t.m_state }

/-! ## session_impl.cpp -/

/-- The type `session_impl::transfer_map`: the entries in ascending key order. -/
abbrev transfer_map := List (md4_hash × transfer)

/-- The well-formedness of a transfer map: keys strictly ascending, hence unique. -/
def transfer_map.ok (m : transfer_map) : Prop :=
  m.Pairwise (fun a b => a.1 < b.1)

instance (m : transfer_map) : Decidable (transfer_map.ok m) := by
  unfold transfer_map.ok
  infer_instance

/-- The keys of a transfer map, in map order. -/
def transfer_map.keys (m : transfer_map) : List md4_hash := m.map Prod.fst

/-- The key that follows `k` in cyclic map order: the next key, and the first key after
the last one. Stated by position, independently of the iterator functions. -/
def transfer_map.cyclic_successor (m : transfer_map) (k : md4_hash) : Option md4_hash :=
  (transfer_map.keys m)[((transfer_map.keys m).indexOf k + 1) % (transfer_map.keys m).length]?

/-- The member `std::map::find`, followed by reading the mapped value. -/
def transfer_map.find (m : transfer_map) (k : md4_hash) : Option transfer :=
  (m.find? (fun e => e.1 == k)).map Prod.snd

/-- The member `std::map::insert`: keeps the order, and keeps the old entry when the key
is present. -/
def transfer_map.insert : transfer_map → md4_hash → transfer → transfer_map
  | [], k, t => [(k, t)]
  | (k1, t1) :: rest, k, t =>
    if k < k1 then (k, t) :: (k1, t1) :: rest
    else if k = k1 then (k1, t1) :: rest
    else (k1, t1) :: transfer_map.insert rest k t

/-- The member `std::map::erase` at the node with key `k`. -/
def transfer_map.erase (m : transfer_map) (k : md4_hash) : transfer_map :=
  m.filter (fun e => e.1 != k)

/-- The iterator `begin()`: the first key, or `end()` for an empty map. -/
def transfer_map.begin (m : transfer_map) : Option md4_hash := m.head?.map Prod.fst

/-- The iterator that follows the node with key `k`. -/
def transfer_map.next : transfer_map → md4_hash → Option md4_hash
  | [], _ => none
  | (k1, _) :: rest, k => if k1 = k then transfer_map.begin rest else transfer_map.next rest k

/-- Modelled from the spec: `cyclic_iterator::inc`, a plain step to the following node;
stepping from `end()` is left where it is. -/
def cyclic_iterator.inc (c : cyclic_iterator) (m : transfer_map) : cyclic_iterator :=
  match c.m_current with
  | none => c
  | some k => { m_current := transfer_map.next m k }

/-- Modelled from the spec: `cyclic_iterator::validate`, the wrap-around: a cursor at
`end()` goes back to `begin()`. -/
def cyclic_iterator.validate (c : cyclic_iterator) (m : transfer_map) : cyclic_iterator :=
  match c.m_current with
  | none => { m_current := transfer_map.begin m }
  | some _ => c

/-- Modelled from the spec: `cyclic_iterator::operator++`, "advancing by one each step
(wrap-around)". -/
def cyclic_iterator.advance (c : cyclic_iterator) (m : transfer_map) : cyclic_iterator :=
  (c.inc m).validate m

/-- Modelled from the spec: `session::delete_files` of `session.hpp`, which is not among
the sources: the option bit that asks `remove_transfer` to delete the files. -/
def session.delete_files : Nat := 1

/-- The function `session_impl::find_transfer(const md4_hash&)`. -/
def session_impl.find_transfer (s : session_impl) (hash : md4_hash) : transfer_handle :=
  { m_transfer := transfer_map.find s.m_transfers hash }

/-- The loop of `session_impl::get_transfers`; `ret` is the vector built so far. -/
def session_impl.get_transfers_loop : transfer_map → List transfer_handle → List transfer_handle
  | [], ret => ret
  | e :: rest, ret =>
    if e.2.is_aborted then session_impl.get_transfers_loop rest ret
    else session_impl.get_transfers_loop rest (ret ++ [e.2.handle])

/-- The function `session_impl::get_transfers`. -/
def session_impl.get_transfers (s : session_impl) : List transfer_handle :=
  session_impl.get_transfers_loop s.m_transfers []

/-- What `add_transfer` leaves behind: the returned handle, the error code parameter and
the session. -/
structure add_transfer_result where
  handle : transfer_handle
  ec : error_code
  ses : session_impl
  deriving DecidableEq, Repr

/-- The function `session_impl::add_transfer`. The call of `update_pendings` is left out:
it only touches the pending collections and the file monitor, which are not part of the
embedded state. The local `queue_pos` and `pos` are `int`s, so `pos + 1` is the sum as
an `int` holds it (`to_int`). -/
def session_impl.add_transfer (BLOCK_SIZE : Nat) (s : session_impl)
    (params : add_transfer_params) (ec : error_code) : add_transfer_result :=
  if s.is_aborted then
    { handle := { m_transfer := none }, ec := error_code.session_is_closing, ses := s }
  else
    match (s.find_transfer params.file_hash).m_transfer with
    | some transfer_ptr =>
      if !params.duplicate_is_error then
        { handle := { m_transfer := some transfer_ptr }, ec := ec, ses := s }
      else
        { handle := { m_transfer := none }, ec := error_code.duplicate_transfer, ses := s }
    | none =>
      let queue_pos : Int := s.m_transfers.foldl
        (fun qp e => if e.2.queue_position ≥ qp then to_int (e.2.queue_position + 1) else qp) 0
      let r := (transfer.ctor queue_pos params).start BLOCK_SIZE s
      let s1 := { r.2 with m_transfers := transfer_map.insert r.2.m_transfers params.file_hash r.1 }
      { handle := r.1.handle
        ec := ec
        ses := s1.post_alert_should (alert.added_transfer_alert r.1.hash) }

/-- The function `session_impl::remove_transfer`. -/
def session_impl.remove_transfer (s : session_impl) (h : transfer_handle) (options : Nat) :
    session_impl :=
  match h.m_transfer with
  | none => s
  | some tptr =>
    match transfer_map.find s.m_transfers tptr.hash with
    | none => s
    | some t =>
      let r1 := if options &&& session.delete_files ≠ 0 then t.delete_files s else (t, s)
      let r2 := r1.1.abort r1.2
      let s2 := r2.2
      let cursor :=
        if s2.m_next_connect_transfer.m_current = some tptr.hash then
          s2.m_next_connect_transfer.inc s2.m_transfers
        else s2.m_next_connect_transfer
      let transfers := transfer_map.erase s2.m_transfers tptr.hash
      { s2 with
        m_transfers := transfers
        m_next_connect_transfer := cursor.validate transfers }

/-! ### Handing out connection attempts -/

/-- Modelled from the spec: the inline accessor `num_connections` of `session_impl.hpp`,
which is not among the sources: the size of the global connection set. -/
def session_impl.num_connections (s : session_impl) : Int := s.m_connections.length

/-- An identity for a connection object that is created now: one that no connection of
the global set carries. -/
def session_impl.fresh_connection_id (s : session_impl) : Nat :=
  s.m_connections.foldl (fun acc x => max acc (x + 1)) 0

/-- Modelled from the spec: the position of the first connect candidate among the known
endpoints, if there is one. -/
def policy.first_candidate : List peer → Option Nat
  | [] => none
  | x :: rest =>
    if x.connection.isNone then some 0 else (policy.first_candidate rest).map (fun i => i + 1)

/-- Modelled from the spec: `policy::set_connection`: the endpoint at position `peerinfo`
is served by connection `c` from now on. -/
def policy.set_connection (p : policy) (peerinfo : Nat) (c : peer_connection) : policy :=
  { m_peers := p.m_peers.modify (fun x => { x with connection := some c.m_id }) peerinfo }

/-- The function `transfer::connect_to_peer`. The argument `peerinfo` is the position of
the endpoint in the policy (the source passes a pointer to it); `enqueue_throws` tells
whether queueing the attempt on the half-open budget raises an exception. The position
is within the list whenever the policy makes the call. -/
def transfer.connect_to_peer (enqueue_throws : Bool) (t : transfer) (s : session_impl)
    (peerinfo : Nat) : Bool × transfer × session_impl :=
  let c : peer_connection := { m_id := s.fresh_connection_id, m_connecting := true }
  let t1 : transfer := { t with m_connections := t.m_connections ++ [c], m_policy := t.m_policy.set_connection peerinfo c }
  let s1 : session_impl := { s with m_connections := s.m_connections ++ [c.m_id] }
  if enqueue_throws then
    let t2 : transfer := { t1 with m_connections := t1.m_connections.filter (fun x => x.m_id != c.m_id) }
    let r := c.disconnect error_code.no_error t2 s1
    (false, r.1, r.2)
  else
    let s2 : session_impl := { s1 with m_half_open := s1.m_half_open.enqueue c.m_id }
    (((t1.m_policy.m_peers[peerinfo]?).bind (fun x => x.connection)).isSome, t1, s2)

/-- Modelled from the spec: `policy::connect_one_peer` (the policy is not among the
sources): the policy picks a connect candidate and has the transfer connect to it with
`transfer::connect_to_peer`; without a candidate nothing is connected. -/
def transfer.connect_one_peer (enqueue_throws : Bool) (t : transfer) (s : session_impl) :
    Bool × transfer × session_impl :=
  match policy.first_candidate t.m_policy.m_peers with
  | none => (false, t, s)
  | some peerinfo => t.connect_to_peer enqueue_throws s peerinfo

/-- What the environment decides for one call of `try_connect_peer`. -/
inductive connect_fate
  /-- Nothing fails. -/
  | proceed
  /-- The policy declines to connect any of its candidates. -/
  | no_peer
  /-- Queueing the attempt raises an exception, which `connect_to_peer` catches. -/
  | enqueue_throws
  /-- An allocation fails and `std::bad_alloc` leaves `try_connect_peer`. -/
  | bad_alloc
  deriving DecidableEq, Repr

/-- How one call of `try_connect_peer` ends. -/
inductive try_result
  | connected
  | not_connected
  | threw_bad_alloc
  deriving DecidableEq, Repr

/-- The function `transfer::try_connect_peer`: it returns what `connect_one_peer`
returns, unless the environment makes the call fail. -/
def transfer.try_connect_peer (fate : connect_fate) (t : transfer) (s : session_impl) :
    try_result × transfer × session_impl :=
  match fate with
  | connect_fate.bad_alloc => (try_result.threw_bad_alloc, t, s)
  | connect_fate.no_peer => (try_result.not_connected, t, s)
  | connect_fate.proceed =>
    let r := t.connect_one_peer false s
    (if r.1 then try_result.connected else try_result.not_connected, r.2.1, r.2.2)
  | connect_fate.enqueue_throws =>
    let r := t.connect_one_peer true s
    (if r.1 then try_result.connected else try_result.not_connected, r.2.1, r.2.2)

/-- Writing through the reference `*m_next_connect_transfer->second`: the transfer stored
under key `k` becomes `t`. -/
def transfer_map.store (m : transfer_map) (k : md4_hash) (t : transfer) : transfer_map :=
  m.map (fun e => if e.1 = k then (e.1, t) else e)

/-- One iteration of the loop of `connect_new_peers`, as it is observed: the transfer the
cursor pointed at, what `want_more_connections` answered, and how the call of
`try_connect_peer` ended if it was made. -/
structure connect_step where
  hash : md4_hash
  wanted : Bool
  attempt : Option try_result
  deriving DecidableEq, Repr

/-- The variables of the loop of `connect_new_peers`: the session, the three locals, the
decisions of the environment still to come, and the iterations made so far. -/
structure connect_loop where
  ses : session_impl
  max_connections_per_second : Int
  free_slots : Int
  steps_since_last_connect : Int
  fates : List connect_fate
  steps : List connect_step
  deriving DecidableEq, Repr

/-- How `connect_new_peers` ends: it returns, or it dereferences a cursor that points at
no transfer, or the fuel of the model runs out. -/
inductive connect_outcome
  | returned (l : connect_loop)
  | invalid_cursor
  | out_of_fuel
  deriving DecidableEq, Repr

/-- The first half of the body of the loop of `connect_new_peers`, for the transfer `t`
stored under key `k`: the test of `want_more_connections` and the `try` block. -/
def session_impl.connect_try (k : md4_hash) (t : transfer) (l : connect_loop) : connect_loop :=
  let wanted := t.want_more_connections l.ses
  if wanted then
    let r := t.try_connect_peer (l.fates.headD connect_fate.proceed) l.ses
    let s1 : session_impl := { r.2.2 with m_transfers := transfer_map.store r.2.2.m_transfers k r.2.1 }
    match r.1 with
    | try_result.connected =>
      { ses := s1
        max_connections_per_second := l.max_connections_per_second - 1
        free_slots := l.free_slots - 1
        steps_since_last_connect := 0
        fates := l.fates.tail
        steps := l.steps ++ [⟨k, wanted, some try_result.connected⟩] }
    | try_result.not_connected =>
      { l with
        ses := s1
        fates := l.fates.tail
        steps := l.steps ++ [⟨k, wanted, some try_result.not_connected⟩] }
    | try_result.threw_bad_alloc =>
      { l with
        ses := { s1 with m_max_connections := if s1.num_connections < 2 then 2 else s1.num_connections }
        fates := l.fates.tail
        steps := l.steps ++ [⟨k, wanted, some try_result.threw_bad_alloc⟩] }
  else { l with steps := l.steps ++ [⟨k, wanted, none⟩] }

/-- The two increments in the body of the loop of `connect_new_peers`:
`++m_next_connect_transfer` and `++steps_since_last_connect`. -/
def session_impl.connect_advance (l : connect_loop) : connect_loop :=
  let cursor := l.ses.m_next_connect_transfer.advance l.ses.m_transfers
  { l with
    ses := { l.ses with m_next_connect_transfer := cursor }
    steps_since_last_connect := l.steps_since_last_connect + 1 }

/-- The body of the loop of `connect_new_peers`; the flag tells whether one of the four
`break`s is taken. Dereferencing a cursor that points at no transfer has no result. -/
def session_impl.connect_body (num_transfers : Int) (l : connect_loop) :
    Option (connect_loop × Bool) :=
  match l.ses.m_next_connect_transfer.m_current with
  | none => none
  | some k =>
    match transfer_map.find l.ses.m_transfers k with
    | none => none
    | some t =>
      let l1 := session_impl.connect_try k t l
      let l2 : connect_loop := session_impl.connect_advance l1
      some (l2,
        decide (l2.steps_since_last_connect > num_transfers * 2) ||
        decide (l2.free_slots ≤ - l2.ses.m_half_open.limit) ||
        decide (l2.max_connections_per_second = 0) ||
        decide (l2.ses.num_connections ≥ l2.ses.m_max_connections))

/-- The loop `for (;;)` of `connect_new_peers`, one iteration per unit of fuel. -/
def session_impl.connect_loop_run (num_transfers : Int) : Nat → connect_loop → connect_outcome
  | 0, _ => connect_outcome.out_of_fuel
  | fuel + 1, l =>
    match session_impl.connect_body num_transfers l with
    | none => connect_outcome.invalid_cursor
    | some (l2, true) => connect_outcome.returned l2
    | some (l2, false) => session_impl.connect_loop_run num_transfers fuel l2

/-- The function `session_impl::connect_new_peers`. The list `fates` holds what the
environment decides for the calls of `try_connect_peer`, in order. The loop makes at
most `2 * num_transfers + 1` iterations between two connections and at most ten
connections, which bounds the fuel. -/
def session_impl.connect_new_peers (fates : List connect_fate) (s : session_impl) :
    connect_outcome :=
  let free_slots := s.m_half_open.free_slots
  if !s.m_transfers.isEmpty && decide (free_slots > - s.m_half_open.limit) &&
      decide (s.num_connections < s.m_max_connections) && !s.m_abort then
    let num_transfers : Int := s.m_transfers.length
    let s1 : session_impl := { s with m_next_connect_transfer := s.m_next_connect_transfer.validate s.m_transfers }
    session_impl.connect_loop_run num_transfers (11 * (2 * s.m_transfers.length + 2))
      { ses := s1
        max_connections_per_second := 10
        free_slots := free_slots
        steps_since_last_connect := 0
        fates := fates
        steps := [] }
  else
    connect_outcome.returned
      { ses := s
        max_connections_per_second := 10
        free_slots := free_slots
        steps_since_last_connect := 0
        fates := fates
        steps := [] }

/-! ### Sequences of calls on the session -/

/-- The calls on a session that change its transfer map or the transfers in it. -/
inductive session_call
  | add_transfer (params : add_transfer_params)
  | remove_transfer (h : transfer_handle) (options : Nat)
  | connect_new_peers (fates : List connect_fate)

/-- The session after one call. A `connect_new_peers` that does not return leaves no state
to go on with; the session is then kept as it was. -/
def session_impl.call (BLOCK_SIZE : Nat) (s : session_impl) : session_call → session_impl
  | session_call.add_transfer params =>
    (s.add_transfer BLOCK_SIZE params error_code.no_error).ses
  | session_call.remove_transfer h options => s.remove_transfer h options
  | session_call.connect_new_peers fates =>
    match s.connect_new_peers fates with
    | connect_outcome.returned l => l.ses
    | connect_outcome.invalid_cursor => s
    | connect_outcome.out_of_fuel => s

/-- The session after a sequence of calls. -/
def session_impl.calls (BLOCK_SIZE : Nat) (s : session_impl) (cs : List session_call) :
    session_impl :=
  cs.foldl (session_impl.call BLOCK_SIZE) s

/-- The queue positions of the transfers in the map, in map order. -/
def session_impl.queue_positions (s : session_impl) : List Int :=
  s.m_transfers.map (fun e => e.2.queue_position)

/-! ## socket_io.hpp -/

/-- The part of `tcp::endpoint` that goes over the wire: an IPv4 address as a 32-bit
number and a 16-bit port. -/
structure tcp_endpoint where
  address : Nat
  port : Nat
  deriving DecidableEq, Repr

namespace detail

/-- Modelled from the spec: `detail::write_uint32` of `io.hpp`, which is not among the
sources: the four bytes of the value, most significant first, go to the output. -/
def write_uint32 (val : Nat) (out : List Nat) : List Nat :=
  out ++ [val / 16777216 % 256, val / 65536 % 256, val / 256 % 256, val % 256]

/-- Modelled from the spec: `detail::write_uint16` of `io.hpp`, which is not among the
sources: the two bytes of the value, most significant first, go to the output. -/
def write_uint16 (val : Nat) (out : List Nat) : List Nat :=
  out ++ [val / 256 % 256, val % 256]

/-- Modelled from the spec: `detail::read_uint32` of `io.hpp`, which is not among the
sources: takes four bytes from the input, most significant first. Reading past the end
of the input has no result. -/
def read_uint32 : List Nat → Option (Nat × List Nat)
  | b0 :: b1 :: b2 :: b3 :: rest =>
    some (((b0 % 256 * 256 + b1 % 256) * 256 + b2 % 256) * 256 + b3 % 256, rest)
  | _ => none

/-- Modelled from the spec: `detail::read_uint16` of `io.hpp`, which is not among the
sources: takes two bytes from the input, most significant first. -/
def read_uint16 : List Nat → Option (Nat × List Nat)
  | b0 :: b1 :: rest => some (b0 % 256 * 256 + b1 % 256, rest)
  | _ => none

/-- The function `detail::write_address` for an IPv4 address `a.to_v4().to_ulong()`. -/
def write_address (a : Nat) (out : List Nat) : List Nat :=
  write_uint32 a out

/-- The function `detail::read_v4_address`. -/
def read_v4_address (inp : List Nat) : Option (Nat × List Nat) :=
  read_uint32 inp

/-- The function `detail::write_endpoint`. -/
def write_endpoint (e : tcp_endpoint) (out : List Nat) : List Nat :=
  write_uint16 e.port (write_address e.address out)

/-- The function `detail::read_v4_endpoint`. The port is read into an `int` and handed to
the constructor of the endpoint, which takes an `unsigned short`. -/
def read_v4_endpoint (inp : List Nat) : Option (tcp_endpoint × List Nat) :=
  match read_v4_address inp with
  | none => none
  | some (addr, in1) =>
    match read_uint16 in1 with
    | none => none
    | some (port, in2) => some ({ address := addr, port := port % 65536 }, in2)

end detail

/-! ## Auxiliary predicates -/

/-- Two pickers that differ at most in the interest counts of their pieces. -/
def piece_picker.same_pieces (p q : piece_picker) : Prop :=
  q.m_downloads = p.m_downloads ∧
  q.m_blocks_per_piece = p.m_blocks_per_piece ∧
  q.m_blocks_in_last_piece = p.m_blocks_in_last_piece ∧
  q.m_piece_map.map (fun x => (x.m_have, x.priority)) =
    p.m_piece_map.map (fun x => (x.m_have, x.priority))

/-- The picker pointer is null on both sides, or set on both sides to pickers that differ
at most in the interest counts. -/
def picker_kept : Option piece_picker → Option piece_picker → Prop
  | none, none => True
  | some p, some q => p.same_pieces q
  | _, _ => False

/-- The condition of the `assert` that ends the constructor of `transfer`: the hash-set has
one entry per piece. -/
def transfer.ctor_assert (t : transfer) : Bool := t.m_hashset.length == t.num_pieces

/-! ## Following the wording of the specification: byte accounting -/

/-- The true byte length of piece `i` of a file, in the words of the spec: "every piece is
PIECE_SIZE bytes long except the last, which is file_size - (num_pieces-1)*PIECE_SIZE
bytes long". -/
def spec_piece_length (file_size i : Nat) : Nat :=
  if i + 1 = div_ceil file_size PIECE_SIZE then
    file_size - (div_ceil file_size PIECE_SIZE - 1) * PIECE_SIZE
  else PIECE_SIZE

/-- The sum of the true byte lengths of the pieces a picker marks as owned. -/
def spec_bytes_owned (file_size : Nat) (p : piece_picker) : Int :=
  (((List.range p.num_pieces).filter (fun i => p.have_piece i)).map
    (fun i => (spec_piece_length file_size i : Int))).sum

/-- The progress reports that count in `bytes_done`: block and byte count of every
attached peer that reports progress on a block which is neither in an owned piece nor
already finished. -/
def spec_reports (picker : piece_picker) (conns : List peer_connection) :
    List (piece_block × Int) :=
  conns.filterMap (fun pc =>
    match pc.m_progress with
    | none => none
    | some p =>
      if picker.have_piece p.piece_index then none
      else if picker.is_finished { piece_index := p.piece_index, block_index := p.block_index }
      then none
      else some ({ piece_index := p.piece_index, block_index := p.block_index },
        p.bytes_downloaded))

/-- The largest byte count that any report gives for block `b` (0 without a report). -/
def spec_max_bytes (reports : List (piece_block × Int)) (b : piece_block) : Int :=
  match (reports.filter (fun e => e.1 = b)).map Prod.snd with
  | [] => 0
  | v :: vs => vs.foldl max v

/-- The contribution of the live progress reports in the words of the spec: for each
distinct reported block, once, the smaller of the bytes wanted of the block and the
largest reported byte count. -/
def spec_progress_done (block_bytes_wanted : piece_block → Int) (picker : piece_picker)
    (conns : List peer_connection) : Int :=
  Finset.sum ((spec_reports picker conns).map Prod.fst).toFinset
    (fun b => min (block_bytes_wanted b) (spec_max_bytes (spec_reports picker conns) b))

/-- The same for `total_wanted_done`: only blocks of wanted pieces count. -/
def spec_progress_wanted_done (block_bytes_wanted : piece_block → Int) (picker : piece_picker)
    (conns : List peer_connection) : Int :=
  Finset.sum ((spec_reports picker conns).map Prod.fst).toFinset
    (fun b =>
      if picker.piece_priority b.piece_index ≠ 0 then
        min (block_bytes_wanted b) (spec_max_bytes (spec_reports picker conns) b)
      else 0)

/-- What the local map of `bytes_done` has to satisfy after the reports `R` were noted:
one entry per reported block, holding the largest byte count reported for that block. -/
def progress_inv (M R : List (piece_block × Int)) : Prop :=
  (M.map Prod.fst).Nodup ∧
  (∀ b, b ∈ M.map Prod.fst ↔ b ∈ R.map Prod.fst) ∧
  (∀ b v, (b, v) ∈ M → IsGreatest {x | (b, x) ∈ R} v)

/-! ## Following the wording of the specification: round-robin scheduling -/

/-- The loop variables with which `connect_new_peers` returned, if it did. -/
def connect_outcome.result : connect_outcome → Option connect_loop
  | connect_outcome.returned l => some l
  | connect_outcome.invalid_cursor => none
  | connect_outcome.out_of_fuel => none

/-- A transfer that goes on wanting connections for `c` attempts: it is not aborted, not
paused, not a seed, and has at least `c` connect candidates. -/
def transfer.eager (t : transfer) (c : Nat) : Prop :=
  t.m_abort = false ∧ t.m_paused = false ∧ t.is_seed = false ∧
    c ≤ t.m_policy.num_connect_candidates

instance (t : transfer) (c : Nat) : Decidable (t.eager c) := by
  unfold transfer.eager
  infer_instance

/-- A session in which `c` attempts can be handed out without meeting a limit: the map
is well formed, the session is neither paused nor closing, there is no half-open limit,
the connection cap leaves room for `c` more connections, and every transfer goes on
wanting connections for `c` attempts. -/
def session_impl.all_eager (s : session_impl) (c : Nat) : Prop :=
  transfer_map.ok s.m_transfers ∧ s.m_paused = false ∧ s.m_abort = false ∧
    s.m_half_open.limit = 0 ∧ s.num_connections + (c : Int) ≤ s.m_max_connections ∧
    ∀ e ∈ s.m_transfers, e.2.eager c

instance (s : session_impl) (c : Nat) : Decidable (s.all_eager c) := by
  unfold session_impl.all_eager
  infer_instance

/-- The steps that hand out `count` successful attempts "in cyclic map order", starting
at position `i0` of the keys and "advancing the cursor by exactly one transfer per
step". -/
def spec_round_robin (keys : List md4_hash) (i0 count : Nat) : List connect_step :=
  (List.range count).map
    (fun j => ⟨keys.getD ((i0 + j) % keys.length) 0, true, some try_result.connected⟩)

/-! ## Following the wording of the specification: the last piece -/

/-- The number of blocks of the last piece in the words of the spec: "the number of
BLOCK_SIZE blocks needed to cover the last piece's true byte length
(file_size - (num_pieces-1)*PIECE_SIZE)". -/
def spec_blocks_in_last_piece (BLOCK_SIZE file_size : Nat) : Nat :=
  div_ceil (file_size - (div_ceil file_size PIECE_SIZE - 1) * PIECE_SIZE) BLOCK_SIZE

/-- The interest counts ("refcounts") of the pieces, in piece order. -/
def piece_picker.refcounts (p : piece_picker) : List Nat :=
  p.m_piece_map.map (fun x => x.peer_count)

/-- Whether a peer advertises piece `i`: a seed advertises every piece, another peer the
pieces whose bit is set in its bitfield. -/
def peer_connection.advertises (c : peer_connection) (i : Nat) : Bool :=
  c.m_seed || c.m_remote_pieces[i]? == some true

/-! ## Concrete states used to exercise the theorems -/

/-- A picker for a one-piece file whose only piece is completely written and waits for
its hash check. -/
def example_picker : piece_picker :=
  { m_piece_map := [{ m_have := false, peer_count := 1, priority := 1 }]
    m_downloads := [{ index := 0, info := [block_state.state_finished] }]
    m_blocks_per_piece := 1
    m_blocks_in_last_piece := 1 }

/-- A started, downloading transfer of a 100-byte file with hash 7 and one attached peer. -/
def example_transfer : transfer :=
  { m_filehash := 7
    m_filesize := 100
    m_hashset := [none]
    m_state := state_t.downloading
    m_policy := { m_peers := [{ endpoint := 40, connection := some 3 }, { endpoint := 41 }] }
    m_picker := some example_picker
    m_connections := [{ m_id := 3, m_remote_pieces := [true] }]
    m_owning_storage := true
    m_storage := true }

/-- A running session that holds `example_transfer` and its peer connection. -/
def example_session : session_impl :=
  { m_transfers := [(7, example_transfer)]
    m_next_connect_transfer := { m_current := some 7 }
    m_connections := [3] }

/-- Parameters that name the hash of `example_transfer` and ask for an error on a
duplicate. -/
def example_duplicate_params : add_transfer_params :=
  { file_hash := 7, file_size := 100, duplicate_is_error := true }

/-- The session `example_session` after `abort`: it is closing. -/
def example_closing_session : session_impl := { example_session with m_abort := true }

/-- A transfer with hash 7 that was removed from the session earlier: it is aborted, and
it is still alive because the release request issued by `abort` holds a reference. -/
def example_removed_transfer : transfer :=
  { m_filehash := 7
    m_filesize := 100
    m_hashset := [none]
    m_abort := true
    m_state := state_t.downloading
    m_picker := some example_picker
    m_storage := true }

/-- A fresh session after `add_transfer` of a 100-byte file with hash 7. -/
def example_first_add : add_transfer_result :=
  ({} : session_impl).add_transfer 194560 { file_hash := 7, file_size := 100 }
    error_code.no_error

/-- The transfer object that the first `add_transfer` created. -/
def example_first_transfer : transfer :=
  ((transfer.ctor 0 { file_hash := 7, file_size := 100 }).start 194560 {}).1

/-- The session after the first transfer was removed again and a transfer with the same
hash was added. -/
def example_second_add : add_transfer_result :=
  (example_first_add.ses.remove_transfer example_first_add.handle 0).add_transfer 194560
    { file_hash := 7, file_size := 100 } error_code.no_error

/-- The handle of the first transfer as it is after the removal: the object is aborted, and
it is still alive because the release request issued by `abort` holds a reference. -/
def example_stale_handle : transfer_handle :=
  (example_first_transfer.abort example_first_add.ses).1.handle

/-- The picker of `example_transfer` after a failed write: the block of piece 0 is back in
the requested state. -/
def example_picker_write_failed : piece_picker :=
  { example_picker with m_downloads := [{ index := 0, info := [block_state.state_requested] }] }

/-- A session with three transfers whose connect cursor points at the last one. -/
def example_session3 : session_impl :=
  { m_transfers :=
      [(5, { example_transfer with m_filehash := 5, m_connections := [] }),
       (7, example_transfer),
       (9, { example_transfer with m_filehash := 9, m_connections := [] })]
    m_next_connect_transfer := { m_current := some 9 }
    m_connections := [3] }

/-- The state of `example_transfer` and `example_session` after `transfer::abort`. -/
def example_aborted : transfer × session_impl := example_transfer.abort example_session

/-- A picker for a two-piece file: nothing is owned, piece 0 is completely written. -/
def example_picker2 : piece_picker :=
  { m_piece_map :=
      [{ m_have := false, peer_count := 0, priority := 1 },
       { m_have := false, peer_count := 0, priority := 1 }]
    m_downloads := [{ index := 0, info := [block_state.state_finished] }]
    m_blocks_per_piece := 1
    m_blocks_in_last_piece := 1 }

/-- A started, downloading transfer of a 10,000,000-byte file (two pieces) with hash 11. -/
def example_transfer2 : transfer :=
  { m_filehash := 11
    m_filesize := 10000000
    m_hashset := [none, none]
    m_state := state_t.downloading
    m_picker := some example_picker2
    m_owning_storage := true
    m_storage := true }

/-- The transfer `example_transfer2` once piece 0 is owned and piece 1 is completely
written. -/
def example_transfer2_last : transfer :=
  { example_transfer2 with
    m_hashset := [some 50, none]
    m_picker := some
      { example_picker2 with
        m_piece_map :=
          [{ m_have := true, peer_count := 0, priority := 1 },
           { m_have := false, peer_count := 0, priority := 1 }]
        m_downloads := [{ index := 1, info := [block_state.state_finished] }] } }

/-- Parameters for a 20,000,000-byte file that come with a hash list of one entry. -/
def example_short_list_params : add_transfer_params :=
  { file_hash := 9, file_size := 20000000, piece_hash := [some 1] }

/-- A transfer of a file of exactly two pieces (19,456,000 bytes) that owns the last piece
only; nothing is in progress and no peer is attached. -/
def example_even_transfer : transfer :=
  { m_filehash := 13
    m_filesize := 19456000
    m_hashset := [none, some 60]
    m_state := state_t.downloading
    m_picker := some
      { m_piece_map :=
          [{ m_have := false, peer_count := 0, priority := 1 },
           { m_have := true, peer_count := 0, priority := 1 }]
        m_blocks_per_piece := 50
        m_blocks_in_last_piece := 0 }
    m_owning_storage := true
    m_storage := true }

/-- A transfer of a 20,000,000-byte file (three pieces) that owns pieces 0 and 1. -/
def example_three_piece_transfer : transfer :=
  { m_filehash := 9
    m_filesize := 20000000
    m_hashset := [some 61, some 62, none]
    m_state := state_t.downloading
    m_picker := some
      { m_piece_map :=
          [{ m_have := true, peer_count := 0, priority := 1 },
           { m_have := true, peer_count := 0, priority := 1 },
           { m_have := false, peer_count := 0, priority := 1 }]
        m_blocks_per_piece := 50
        m_blocks_in_last_piece := 3 }
    m_owning_storage := true
    m_storage := true }

/-- A two-piece transfer with nothing owned and three attached peers: two of them report
progress on block 3 of piece 0 (1,000 and 5,000 bytes), one reports 200,000 bytes on
block 0 of piece 1. -/
def example_progress_transfer : transfer :=
  { example_transfer2 with
    m_picker := some { example_picker2 with m_downloads := [] }
    m_connections :=
      [{ m_id := 1
         m_progress := some
           { piece_index := 0, block_index := 3, bytes_downloaded := 1000,
             full_block_bytes := 194560 } },
       { m_id := 2
         m_progress := some
           { piece_index := 1, block_index := 0, bytes_downloaded := 200000,
             full_block_bytes := 194560 } },
       { m_id := 3
         m_progress := some
           { piece_index := 0, block_index := 3, bytes_downloaded := 5000,
             full_block_bytes := 194560 } }] }

/-- A transfer that is downloading a one-piece file and knows `n` endpoints, none of them
connected. -/
def example_connecting_transfer (h : md4_hash) (n : Nat) : transfer :=
  { m_filehash := h
    m_filesize := 100
    m_state := state_t.downloading
    m_storage := true
    m_owning_storage := true
    m_hashset := [none]
    m_picker := some { m_piece_map := [{ m_have := false, peer_count := 0, priority := 1 }], m_blocks_per_piece := 1, m_blocks_in_last_piece := 1 }
    m_policy := { m_peers := (List.range n).map (fun i => ({ endpoint := i } : peer)) } }

/-- A session without a half-open limit that holds three transfers with twenty connect
candidates each; the connect cursor points at the second one. -/
def example_scheduler_session : session_impl :=
  { m_transfers :=
      [(1, example_connecting_transfer 1 20), (2, example_connecting_transfer 2 20),
        (3, example_connecting_transfer 3 20)]
    m_next_connect_transfer := { m_current := some 2 } }

/-- The number of calls of `try_connect_peer` that succeeded among the given steps. -/
def connect_successes (steps : List connect_step) : Nat :=
  steps.countP (fun e => e.attempt == some try_result.connected)

/-- A session with a connection cap of 1 and no connection; its one transfer wants
connections. -/
def example_capped_session : session_impl :=
  { m_transfers := [(1, example_connecting_transfer 1 3)]
    m_max_connections := 1 }

/-- A peer connection of a seed that advertises the one piece of the file. -/
def example_seed_peer : peer_connection :=
  { m_id := 9, m_seed := true, m_remote_pieces := [true] }

/-- A downloading transfer of a one-piece file whose piece is advertised by one attached
peer (connection 3): the interest count of the piece is 1. -/
def example_interest_transfer : transfer :=
  { m_filehash := 7
    m_filesize := 100
    m_hashset := [none]
    m_state := state_t.downloading
    m_picker := some { m_piece_map := [{ m_have := false, peer_count := 1, priority := 1 }], m_blocks_per_piece := 1, m_blocks_in_last_piece := 1 }
    m_connections := [{ m_id := 3, m_remote_pieces := [true] }]
    m_owning_storage := true
    m_storage := true }

/-- A session that holds `example_interest_transfer`, its peer connection and the
connection of `example_seed_peer`, which is not attached to a transfer yet. -/
def example_interest_session : session_impl :=
  { m_transfers := [(7, example_interest_transfer)]
    m_connections := [3, 9] }

/-- A policy that accepts every connection and enters it as a connected peer. -/
def example_new_connection (pol : policy) (c : peer_connection) : Bool × policy :=
  (true, { m_peers := pol.m_peers ++ [{ endpoint := c.m_id, connection := some c.m_id }] })

/-- A session without limits in reach whose two transfers have no connect candidate. -/
def example_stalled_session : session_impl :=
  { m_transfers := [(1, example_connecting_transfer 1 0), (2, example_connecting_transfer 2 0)] }

/-- A downloading transfer with two attached peers, connections 3 and 4. -/
def example_tick_transfer : transfer :=
  { m_filehash := 7
    m_filesize := 100
    m_hashset := [none]
    m_state := state_t.downloading
    m_policy := { m_peers := [{ endpoint := 40, connection := some 3 }, { endpoint := 41, connection := some 4 }] }
    m_picker := some { m_piece_map := [{ m_have := false, peer_count := 0, priority := 1 }], m_blocks_per_piece := 1, m_blocks_in_last_piece := 1 }
    m_connections := [{ m_id := 3 }, { m_id := 4 }]
    m_owning_storage := true
    m_storage := true }

/-- A session that holds `example_tick_transfer` and its two peer connections. -/
def example_tick_session : session_impl :=
  { m_transfers := [(7, example_tick_transfer)]
    m_connections := [3, 4] }

/-- Parameters for a file of exactly two pieces (19,456,000 bytes). -/
def example_whole_pieces_params : add_transfer_params :=
  { file_hash := 13, file_size := 19456000 }

/-- Calls that add two transfers, remove the first, add a third and hand out connections. -/
def example_calls : List session_call :=
  [session_call.add_transfer example_whole_pieces_params,
   session_call.add_transfer example_short_list_params,
   session_call.remove_transfer { m_transfer := some (transfer.ctor 0 example_whole_pieces_params) } 0,
   session_call.add_transfer { file_hash := 2, file_size := 5 },
   session_call.connect_new_peers []]

/-- A session whose map holds two transfers, at queue positions 5 and 2147483647, the
largest `int`. -/
def example_last_position_session : session_impl :=
  { m_transfers :=
      [(1, transfer.ctor 5 { file_hash := 1, file_size := 7 }),
       (2, transfer.ctor 2147483647 { file_hash := 2, file_size := 7 })] }

theorem transfer_map.find_of_mem {m : transfer_map} (hok : transfer_map.ok m)
    {k : md4_hash} {t : transfer} (h : (k, t) ∈ m) : transfer_map.find m k = some t := by
  induction m with
  | nil => simp at h
  | cons e rest ih =>
    unfold transfer_map.ok at hok
    rw [List.pairwise_cons] at hok
    rcases List.mem_cons.mp h with h1 | h1
    · subst h1
      simp [transfer_map.find]
    · have hlt : e.1 < k := hok.1 (k, t) h1
      have hne : e.1 ≠ k := Nat.ne_of_lt hlt
      have := ih hok.2 h1
      simp only [transfer_map.find] at this ⊢
      rw [List.find?_cons_of_neg]
      · exact this
      · simpa using hne

theorem transfer_map.find_none_of_not_mem {m : transfer_map} {k : md4_hash}
    (h : ∀ e ∈ m, e.1 ≠ k) : transfer_map.find m k = none := by
  simp only [transfer_map.find, Option.map_eq_none', List.find?_eq_none]
  intro e he
  simpa using h e he

theorem transfer_map.find_some_mem {m : transfer_map} {k : md4_hash} {t : transfer}
    (h : transfer_map.find m k = some t) : (k, t) ∈ m := by
  simp only [transfer_map.find, Option.map_eq_some'] at h
  obtain ⟨e, he, rfl⟩ := h
  have hk := List.find?_some he
  have hm := List.mem_of_find?_eq_some he
  have : e.1 = k := by simpa using hk
  subst this
  exact hm

/-! ## Frame lemmas: what disconnecting peers can touch -/

theorem transfer.remove_peer_shape (t : transfer) (c : peer_connection) :
    ∃ pk pol cs, t.remove_peer c =
      { t with m_picker := pk, m_policy := pol, m_connections := cs } ∧
      cs.length ≤ t.m_connections.length := by
  unfold transfer.remove_peer
  split
  · exact ⟨t.m_picker, t.m_policy, t.m_connections, rfl, le_refl _⟩
  · exact ⟨_, _, _, rfl, List.length_filter_le _ _⟩

theorem peer_connection.disconnect_shape (p : peer_connection) (ec : error_code)
    (t : transfer) (s : session_impl) :
    ∃ pk pol cs c d, p.disconnect ec t s =
      ({ t with m_picker := pk, m_policy := pol, m_connections := cs },
       { s with m_connections := c, m_disconnects := d }) := by
  unfold peer_connection.disconnect
  split
  · exact ⟨t.m_picker, t.m_policy, t.m_connections, s.m_connections, s.m_disconnects, rfl⟩
  · obtain ⟨pk, pol, cs, h, _⟩ := t.remove_peer_shape p
    rw [h]
    exact ⟨pk, pol, cs, _, _, rfl⟩

theorem transfer.disconnect_all_loop_shape (ec : error_code) (fuel : Nat) (t : transfer)
    (s : session_impl) :
    ∃ pk pol cs c d, transfer.disconnect_all_loop ec fuel t s =
      ({ t with m_picker := pk, m_policy := pol, m_connections := cs },
       { s with m_connections := c, m_disconnects := d }) := by
  induction fuel generalizing t s with
  | zero =>
    exact ⟨t.m_picker, t.m_policy, t.m_connections, s.m_connections, s.m_disconnects, rfl⟩
  | succ n ih =>
    unfold transfer.disconnect_all_loop
    split
    · exact ⟨t.m_picker, t.m_policy, t.m_connections, s.m_connections, s.m_disconnects, rfl⟩
    · rename_i p rest _
      split
      · obtain ⟨pk, pol, cs, c, d, h⟩ := ih { t with m_connections := rest } s
        rw [h]
        exact ⟨pk, pol, cs, c, d, rfl⟩
      · obtain ⟨pk1, pol1, cs1, c1, d1, h1⟩ := p.disconnect_shape ec t s
        simp only [h1]
        obtain ⟨pk, pol, cs, c, d, h⟩ := ih
          { t with m_picker := pk1, m_policy := pol1, m_connections := cs1 }
          { s with m_connections := c1, m_disconnects := d1 }
        rw [h]
        exact ⟨pk, pol, cs, c, d, rfl⟩

theorem transfer.disconnect_all_shape (t : transfer) (s : session_impl) (ec : error_code) :
    ∃ pk pol cs c d, t.disconnect_all s ec =
      ({ t with m_picker := pk, m_policy := pol, m_connections := cs },
       { s with m_connections := c, m_disconnects := d }) :=
  transfer.disconnect_all_loop_shape ec _ t s

/-- The fuel of `disconnect_all` is enough: the loop ends with an empty connection set. -/
theorem transfer.disconnect_all_loop_empties (ec : error_code) (fuel : Nat) (t : transfer)
    (s : session_impl) (h : t.m_connections.length ≤ fuel) :
    (transfer.disconnect_all_loop ec fuel t s).1.m_connections = [] := by
  induction fuel generalizing t s with
  | zero =>
    simp only [transfer.disconnect_all_loop]
    exact List.length_eq_zero.mp (Nat.le_zero.mp h)
  | succ n ih =>
    unfold transfer.disconnect_all_loop
    split
    · assumption
    · rename_i p rest hc
      rw [hc] at h
      simp only [List.length_cons, Nat.add_le_add_iff_right] at h
      split
      · exact ih _ s h
      · rename_i hd
        apply ih
        simp only [peer_connection.disconnect, hd, Bool.false_eq_true, if_false,
          transfer.remove_peer, hc]
        simp only [List.find?_cons, beq_self_eq_true, List.filter_cons, bne_self_eq_false,
          Bool.false_eq_true, if_false]
        exact le_trans (List.length_filter_le _ _) h

theorem transfer.disconnect_all_empties (t : transfer) (s : session_impl) (ec : error_code) :
    (t.disconnect_all s ec).1.m_connections = [] :=
  transfer.disconnect_all_loop_empties ec _ t s (le_refl _)

theorem transfer.set_state_shape (t : transfer) (s : session_impl) (st : state_t) :
    ∃ a, t.set_state s st = ({ t with m_state := st }, { s with m_alerts := a }) := by
  unfold transfer.set_state
  split
  · rename_i h
    exact ⟨s.m_alerts, by rw [← h]⟩
  · exact ⟨_, rfl⟩

/-- On the session, `abort` touches nothing but the global connection set and the traces. -/
theorem transfer.abort_session_shape (t : transfer) (s : session_impl) :
    ∃ c d a q, (t.abort s).2 =
      { s with m_connections := c, m_disconnects := d, m_alerts := a,
               m_storage_requests := q } := by
  unfold transfer.abort
  split
  · exact ⟨s.m_connections, s.m_disconnects, s.m_alerts, s.m_storage_requests, rfl⟩
  · obtain ⟨pk, pol, cs, c, d, h⟩ :=
      transfer.disconnect_all_shape { t with m_abort := true } s error_code.transfer_aborted
    simp only [h]
    split <;> split <;>
      simp only [transfer.set_state, session_impl.storage_call, session_impl.post_alert_should]
    all_goals first
      | exact ⟨_, _, _, _, rfl⟩
      | (split <;> exact ⟨_, _, _, _, rfl⟩)

/-- On the session, `delete_files` touches nothing but the global connection set and the
traces. -/
theorem transfer.delete_files_session_shape (t : transfer) (s : session_impl) :
    ∃ c d q, (t.delete_files s).2 =
      { s with m_connections := c, m_disconnects := d, m_storage_requests := q } := by
  unfold transfer.delete_files
  obtain ⟨pk, pol, cs, c, d, h⟩ :=
    transfer.disconnect_all_shape t s error_code.transfer_removed
  simp only [h]
  split
  · exact ⟨_, _, _, rfl⟩
  · exact ⟨_, _, _, rfl⟩

/-- After `abort` the transfer is aborted, whatever it was before. -/
theorem transfer.abort_sets_flag (t : transfer) (s : session_impl) :
    (t.abort s).1.m_abort = true := by
  unfold transfer.abort
  split
  · assumption
  · obtain ⟨pk, pol, cs, c, d, h⟩ :=
      transfer.disconnect_all_shape { t with m_abort := true } s error_code.transfer_aborted
    simp only [h]
    split
    · obtain ⟨a, ha⟩ := transfer.set_state_shape
        { t with m_abort := true, m_picker := pk, m_policy := pol, m_connections := cs }
        (if t.m_owning_storage = true then
          (({ s with m_connections := c, m_disconnects := d } : session_impl).storage_call
            (storage_request.abort_disk_jobs t.m_filehash)).storage_call
            (storage_request.async_release_files t.m_filehash disk_callback.on_transfer_aborted)
         else { s with m_connections := c, m_disconnects := d })
        state_t.queued_for_checking
      simp only [transfer.hash] at ha ⊢
      rw [ha]
    · rfl

theorem session_impl.get_transfers_loop_eq (m : transfer_map) (ret : List transfer_handle) :
    session_impl.get_transfers_loop m ret =
      ret ++ (m.filter (fun e => !e.2.is_aborted)).map (fun e => e.2.handle) := by
  induction m generalizing ret with
  | nil => simp [session_impl.get_transfers_loop]
  | cons e rest ih =>
    unfold session_impl.get_transfers_loop
    by_cases h : e.2.is_aborted = true
    · simp [h, ih]
    · simp [h, ih]

/-! ## Lemmas about the connect cursor -/

theorem transfer_map.erase_split (mA mB : transfer_map) (k : md4_hash) (t : transfer)
    (hA : ∀ e ∈ mA, e.1 ≠ k) (hB : ∀ e ∈ mB, e.1 ≠ k) :
    transfer_map.erase (mA ++ (k, t) :: mB) k = mA ++ mB := by
  have h1 : mA.filter (fun e => e.1 != k) = mA :=
    List.filter_eq_self.mpr (fun e he => by simpa using hA e he)
  have h2 : mB.filter (fun e => e.1 != k) = mB :=
    List.filter_eq_self.mpr (fun e he => by simpa using hB e he)
  simp [transfer_map.erase, List.filter_append, List.filter_cons, h1, h2]

theorem transfer_map.next_split (mA mB : transfer_map) (k : md4_hash) (t : transfer)
    (hA : ∀ e ∈ mA, e.1 ≠ k) :
    transfer_map.next (mA ++ (k, t) :: mB) k = transfer_map.begin mB := by
  induction mA with
  | nil => simp [transfer_map.next]
  | cons e rest ih =>
    have hne : e.1 ≠ k := hA e (List.mem_cons_self _ _)
    have := ih (fun x hx => hA x (List.mem_cons_of_mem _ hx))
    simp only [List.cons_append, transfer_map.next, hne, if_false]
    exact this

theorem transfer_map.indexOf_split (mA mB : transfer_map) (k : md4_hash) (t : transfer)
    (hA : ∀ e ∈ mA, e.1 ≠ k) :
    (transfer_map.keys (mA ++ (k, t) :: mB)).indexOf k = mA.length := by
  have hnot : k ∉ mA.map Prod.fst := by
    intro hmem
    obtain ⟨e, he, hek⟩ := List.mem_map.mp hmem
    exact hA e he hek
  simp only [transfer_map.keys, List.map_append, List.map_cons]
  rw [List.indexOf_append_of_not_mem hnot, List.indexOf_cons_self]
  simp

theorem transfer_map.cyclic_successor_split (mA mB : transfer_map) (k : md4_hash)
    (t : transfer) (hA : ∀ e ∈ mA, e.1 ≠ k) :
    transfer_map.cyclic_successor (mA ++ (k, t) :: mB) k =
      if mB = [] then transfer_map.begin (mA ++ [(k, t)]) else transfer_map.begin mB := by
  unfold transfer_map.cyclic_successor
  rw [transfer_map.indexOf_split mA mB k t hA]
  simp only [transfer_map.keys, List.map_append, List.map_cons, List.length_append,
    List.length_map, List.length_cons]
  cases mB with
  | nil =>
    simp only [List.map_nil, List.length_nil, Nat.add_zero, Nat.mod_self, if_true,
      transfer_map.begin]
    cases mA <;> simp
  | cons b rest =>
    have hlt : mA.length + 1 < mA.length + ((b :: rest).length + 1) := by
      simp only [List.length_cons]
      omega
    rw [Nat.mod_eq_of_lt hlt]
    simp only [reduceCtorEq, if_false, transfer_map.begin, List.head?_cons, Option.map_some']
    rw [List.getElem?_append_right (by simp)]
    simp

theorem transfer_map.begin_mem_keys {m : transfer_map} {c : md4_hash}
    (h : transfer_map.begin m = some c) : c ∈ transfer_map.keys m := by
  cases m with
  | nil => simp [transfer_map.begin] at h
  | cons e rest =>
    simp only [transfer_map.begin, List.head?_cons, Option.map_some', Option.some.injEq] at h
    simp [transfer_map.keys, h]

theorem transfer_map.keys_erase (m : transfer_map) (k : md4_hash) :
    transfer_map.keys (transfer_map.erase m k) = (transfer_map.keys m).filter (fun x => x != k) := by
  induction m with
  | nil => rfl
  | cons e rest ih =>
    simp only [transfer_map.keys, transfer_map.erase] at ih ⊢
    by_cases h : e.1 = k
    · simp [List.filter_cons, h, ih]
    · simp [List.filter_cons, h, ih]

/-- What `remove_transfer` does to the map and to the cursor when the hash of the handle
is found. -/
theorem session_impl.remove_transfer_found (s : session_impl) (h : transfer_handle)
    (options : Nat) (tptr t : transfer) (hh : h.m_transfer = some tptr)
    (hf : transfer_map.find s.m_transfers tptr.hash = some t) :
    (s.remove_transfer h options).m_transfers = transfer_map.erase s.m_transfers tptr.hash ∧
    (s.remove_transfer h options).m_next_connect_transfer =
      (if s.m_next_connect_transfer.m_current = some tptr.hash then
        s.m_next_connect_transfer.inc s.m_transfers
       else s.m_next_connect_transfer).validate
        (transfer_map.erase s.m_transfers tptr.hash) := by
  unfold session_impl.remove_transfer
  simp only [hh, hf]
  have key : ∀ r1 : transfer × session_impl,
      r1.2.m_transfers = s.m_transfers →
      r1.2.m_next_connect_transfer = s.m_next_connect_transfer →
      (r1.1.abort r1.2).2.m_transfers = s.m_transfers ∧
      (r1.1.abort r1.2).2.m_next_connect_transfer = s.m_next_connect_transfer := by
    intro r1 h1 h2
    obtain ⟨c, d, a, q, hs⟩ := transfer.abort_session_shape r1.1 r1.2
    rw [hs]
    exact ⟨h1, h2⟩
  split
  · obtain ⟨c, d, q, hd⟩ := transfer.delete_files_session_shape t s
    have := key (t.delete_files s) (by rw [hd]) (by rw [hd])
    simp only [this.1, this.2]
    exact ⟨trivial, trivial⟩
  · have := key (t, s) rfl rfl
    simp only [this.1, this.2]
    exact ⟨trivial, trivial⟩

/-! ## Lemmas about completion -/

theorem transfer.disconnect_fold_shape (ec : error_code) (seeds : List peer_connection)
    (t : transfer) (s : session_impl) :
    ∃ pk pol cs c d,
      seeds.foldl (fun (acc : transfer × session_impl) p => p.disconnect ec acc.1 acc.2) (t, s) =
        ({ t with m_picker := pk, m_policy := pol, m_connections := cs },
         { s with m_connections := c, m_disconnects := d }) := by
  induction seeds generalizing t s with
  | nil => exact ⟨t.m_picker, t.m_policy, t.m_connections, s.m_connections, s.m_disconnects, rfl⟩
  | cons p rest ih =>
    obtain ⟨pk1, pol1, cs1, c1, d1, h1⟩ := p.disconnect_shape ec t s
    simp only [List.foldl_cons, h1]
    obtain ⟨pk, pol, cs, c, d, h⟩ := ih
      { t with m_picker := pk1, m_policy := pol1, m_connections := cs1 }
      { s with m_connections := c1, m_disconnects := d1 }
    rw [h]
    exact ⟨pk, pol, cs, c, d, rfl⟩

/-- The function `finished` on an aborted transfer comes back before the storage request:
it returns, the transfer stays aborted and the request trace is as before. -/
theorem transfer.finished_aborted (t : transfer) (s : session_impl) (h : t.m_abort = true) :
    ∃ r, t.finished s = some r ∧ r.1.m_abort = true ∧
      r.2.m_storage_requests = s.m_storage_requests := by
  unfold transfer.finished
  obtain ⟨a1, h1⟩ := t.set_state_shape s state_t.finished
  simp only [h1]
  have h2 : ∃ pk st a,
      (if ({ t with m_state := state_t.finished } : transfer).is_seed = true then
          ({ t with m_state := state_t.finished } : transfer).completed { s with m_alerts := a1 }
        else ({ t with m_state := state_t.finished }, { s with m_alerts := a1 })) =
        (({ t with m_state := st, m_picker := pk } : transfer),
         ({ s with m_alerts := a } : session_impl)) := by
    split
    · obtain ⟨a2, h2⟩ := transfer.set_state_shape
        { t with m_state := state_t.finished, m_picker := none }
        { s with m_alerts := a1 } state_t.seeding
      exact ⟨none, state_t.seeding, a2, by simp only [transfer.completed]; rw [h2]⟩
    · exact ⟨t.m_picker, state_t.finished, a1, rfl⟩
  obtain ⟨pk, st, a, h2⟩ := h2
  simp only [h2]
  obtain ⟨pk3, pol3, cs3, c3, d3, h3⟩ := transfer.disconnect_fold_shape
    error_code.transfer_finished
    (List.filter (fun p => decide ((List.count true p.m_remote_pieces : Int) =
      (({ t with m_state := st, m_picker := pk } : transfer).num_have : Int))) t.m_connections)
    { t with m_state := st, m_picker := pk } { s with m_alerts := a }
  simp only [h3]
  simp only [h, if_true]
  exact ⟨_, rfl, rfl, rfl⟩

/-! ## Lemmas about status reporting -/

theorem transfer_status.foldl_paused {α : Type} (f : transfer_status → α → transfer_status)
    (hf : ∀ acc x, (f acc x).paused = acc.paused) (l : List α) (st : transfer_status) :
    (l.foldl f st).paused = st.paused := by
  induction l generalizing st with
  | nil => rfl
  | cons x rest ih => rw [List.foldl_cons, ih, hf]

/-- The function `bytes_done` fills in byte counts only: the `paused` field is left alone. -/
theorem transfer.bytes_done_paused (BLOCK_SIZE : Nat) (block_bytes_wanted : piece_block → Int)
    (t : transfer) (st : transfer_status) :
    (t.bytes_done BLOCK_SIZE block_bytes_wanted st).paused = st.paused := by
  unfold transfer.bytes_done
  split
  · rfl
  · simp only
    refine (transfer_status.foldl_paused _ (fun acc e => ?_) _ _).trans ?_
    · rfl
    refine (transfer_status.foldl_paused _ (fun acc d => ?_) _ _).trans ?_
    · split <;> rfl
    split <;> rfl

/-- The function `status` reports the paused flag of the transfer itself. -/
theorem transfer.status_paused (BLOCK_SIZE : Nat) (block_bytes_wanted : piece_block → Int)
    (t : transfer) : (t.status BLOCK_SIZE block_bytes_wanted).paused = t.m_paused := by
  simp only [transfer.status]
  rw [transfer.bytes_done_paused]

/-! ## Properties of the session and the transfer -/

/-- C1: in a session that is not aborted and already holds a transfer with the hash of the
parameters, `add_transfer` adds nothing (the session, and so its transfer map, is
unchanged); with `duplicate_is_error = false` it returns a handle to the existing
transfer and leaves the error code alone, with `duplicate_is_error = true` it returns an
empty handle and sets the error code to `duplicate_transfer`. -/
theorem add_transfer_existing_hash (BLOCK_SIZE : Nat) (s : session_impl)
    (params : add_transfer_params) (ec : error_code) (t : transfer)
    (hs : s.is_aborted = false) (hok : transfer_map.ok s.m_transfers)
    (hm : (params.file_hash, t) ∈ s.m_transfers) :
    (s.add_transfer BLOCK_SIZE params ec).ses = s ∧
    (s.add_transfer BLOCK_SIZE params ec).ses.m_transfers = s.m_transfers ∧
    (params.duplicate_is_error = false →
      (s.add_transfer BLOCK_SIZE params ec).handle = t.handle ∧
      (s.add_transfer BLOCK_SIZE params ec).ec = ec) ∧
    (params.duplicate_is_error = true →
      (s.add_transfer BLOCK_SIZE params ec).handle = { m_transfer := none } ∧
      (s.add_transfer BLOCK_SIZE params ec).ec = error_code.duplicate_transfer) := by
  have hf := transfer_map.find_of_mem hok hm
  unfold session_impl.add_transfer
  simp only [hs, Bool.false_eq_true, if_false, session_impl.find_transfer, hf]
  cases hd : params.duplicate_is_error <;> simp [transfer.handle]

theorem add_transfer_existing_hash_witness :
    (example_session.add_transfer 194560 example_duplicate_params error_code.no_error).handle
      = { m_transfer := none } ∧
    (example_session.add_transfer 194560 example_duplicate_params error_code.no_error).ec
      = error_code.duplicate_transfer :=
  (add_transfer_existing_hash 194560 example_session example_duplicate_params
    error_code.no_error example_transfer rfl (by decide) (by decide)).2.2.2 rfl

/-- C2: in an aborted session `add_transfer` returns an empty handle, sets the error code to
`session_is_closing` and leaves the session as it was, in particular its transfer map
and its alert queue. -/
theorem add_transfer_session_closing (BLOCK_SIZE : Nat) (s : session_impl)
    (params : add_transfer_params) (ec : error_code) (hs : s.is_aborted = true) :
    (s.add_transfer BLOCK_SIZE params ec).handle = { m_transfer := none } ∧
    (s.add_transfer BLOCK_SIZE params ec).ec = error_code.session_is_closing ∧
    (s.add_transfer BLOCK_SIZE params ec).ses = s ∧
    (s.add_transfer BLOCK_SIZE params ec).ses.m_transfers = s.m_transfers ∧
    (s.add_transfer BLOCK_SIZE params ec).ses.m_alerts = s.m_alerts := by
  unfold session_impl.add_transfer
  simp [hs]

theorem add_transfer_session_closing_witness :
    (example_closing_session.add_transfer 194560 example_duplicate_params
      error_code.no_error).handle = { m_transfer := none } ∧
    (example_closing_session.add_transfer 194560 example_duplicate_params
      error_code.no_error).ec = error_code.session_is_closing ∧
    (example_closing_session.add_transfer 194560 example_duplicate_params
      error_code.no_error).ses = example_closing_session ∧
    (example_closing_session.add_transfer 194560 example_duplicate_params
      error_code.no_error).ses.m_transfers = example_closing_session.m_transfers ∧
    (example_closing_session.add_transfer 194560 example_duplicate_params
      error_code.no_error).ses.m_alerts = example_closing_session.m_alerts :=
  add_transfer_session_closing 194560 example_closing_session example_duplicate_params
    error_code.no_error rfl

/-- C3, as stated, fails: a live handle to a transfer that is no longer in the map is not
ignored when the map holds another transfer with the same hash. `remove_transfer` looks
the hash of the handle up, so it aborts and erases that other transfer. Here a transfer
with hash 7 is added, removed and added again; the handle of the first object then
removes the second one. -/
theorem remove_transfer_stale_handle_counterexample :
    example_first_add.handle = example_first_transfer.handle ∧
    (example_first_add.ses.remove_transfer example_first_add.handle 0).m_transfers = [] ∧
    transfer_map.ok example_second_add.ses.m_transfers ∧
    example_second_add.ses.m_transfers.length = 1 ∧
    (∀ e ∈ example_second_add.ses.m_transfers,
      some e.2 ≠ example_stale_handle.m_transfer ∧ e.2.is_aborted = false) ∧
    (example_second_add.ses.remove_transfer example_stale_handle 0).m_transfers = [] ∧
    (example_second_add.ses.remove_transfer example_stale_handle 0).m_transfers
      ≠ example_second_add.ses.m_transfers ∧
    (example_second_add.ses.remove_transfer example_stale_handle 0).m_storage_requests
      ≠ example_second_add.ses.m_storage_requests := by
  refine ⟨by decide, by decide, by decide, by decide, by decide, by decide, by decide,
    by decide⟩

/-- C3 (amended): `remove_transfer` with an expired handle, or with a handle to a live
transfer whose hash is not a key of the map, returns the session as it was: transfer
map, connect cursor, alerts, storage requests and peer disconnects are all unchanged. -/
theorem remove_transfer_unknown_hash (s : session_impl) (h : transfer_handle) (options : Nat)
    (hh : h.m_transfer = none ∨
      ∃ t, h.m_transfer = some t ∧ ∀ e ∈ s.m_transfers, e.1 ≠ t.hash) :
    s.remove_transfer h options = s ∧
    (s.remove_transfer h options).m_transfers = s.m_transfers ∧
    (s.remove_transfer h options).m_next_connect_transfer = s.m_next_connect_transfer := by
  unfold session_impl.remove_transfer
  rcases hh with hh | ⟨t, hh, hne⟩
  · simp [hh]
  · simp [hh, transfer_map.find_none_of_not_mem hne]

theorem remove_transfer_unknown_hash_witness :
    example_session.remove_transfer { m_transfer := some { example_removed_transfer with m_filehash := 8 } } 1
      = example_session ∧
    (example_session.remove_transfer
      { m_transfer := some { example_removed_transfer with m_filehash := 8 } } 1).m_transfers
      = example_session.m_transfers ∧
    (example_session.remove_transfer
      { m_transfer := some { example_removed_transfer with m_filehash := 8 } } 1).m_next_connect_transfer
      = example_session.m_next_connect_transfer :=
  remove_transfer_unknown_hash example_session
    { m_transfer := some { example_removed_transfer with m_filehash := 8 } } 1
    (Or.inr ⟨{ example_removed_transfer with m_filehash := 8 }, rfl, by decide⟩)

/-- C4: when `remove_transfer` finds the transfer of the handle in a well-formed map whose
cursor is at `end()` or at a transfer of the map, the transfer is erased and the cursor
does not refer to it afterwards. If the map is empty afterwards the cursor is at
`end()`; otherwise it refers to a transfer that is in the map: the cyclic successor of
the removed transfer when the cursor pointed at the removed transfer, and the transfer
it pointed at before when that was another one. -/
theorem remove_transfer_cursor (s : session_impl) (h : transfer_handle) (options : Nat)
    (tptr : transfer) (hh : h.m_transfer = some tptr)
    (hok : transfer_map.ok s.m_transfers)
    (hin : tptr.hash ∈ transfer_map.keys s.m_transfers)
    (hcur : ∀ c, s.m_next_connect_transfer.m_current = some c →
      c ∈ transfer_map.keys s.m_transfers) :
    (s.remove_transfer h options).m_transfers = transfer_map.erase s.m_transfers tptr.hash ∧
    tptr.hash ∉ transfer_map.keys (s.remove_transfer h options).m_transfers ∧
    (s.remove_transfer h options).m_next_connect_transfer.m_current ≠ some tptr.hash ∧
    ((s.remove_transfer h options).m_transfers = [] →
      (s.remove_transfer h options).m_next_connect_transfer.m_current = none) ∧
    ((s.remove_transfer h options).m_transfers ≠ [] →
      ∃ c, (s.remove_transfer h options).m_next_connect_transfer.m_current = some c ∧
        c ∈ transfer_map.keys (s.remove_transfer h options).m_transfers ∧
        (s.m_next_connect_transfer.m_current = some tptr.hash →
          transfer_map.cyclic_successor s.m_transfers tptr.hash = some c) ∧
        (∀ c0, s.m_next_connect_transfer.m_current = some c0 → c0 ≠ tptr.hash → c = c0)) := by
  obtain ⟨e, he, hek⟩ := List.mem_map.mp hin
  obtain ⟨k0, t⟩ := e
  simp only at hek
  subst hek
  have hf := transfer_map.find_of_mem hok he
  obtain ⟨hmap, hcursor⟩ := session_impl.remove_transfer_found s h options tptr t hh hf
  obtain ⟨mA, mB, hsplit⟩ := List.append_of_mem he
  have hpw := hok
  unfold transfer_map.ok at hpw
  rw [hsplit, List.pairwise_append, List.pairwise_cons] at hpw
  obtain ⟨_, ⟨hBgt, _⟩, hAlt⟩ := hpw
  have hA : ∀ e ∈ mA, e.1 ≠ tptr.hash := fun e he1 =>
    Nat.ne_of_lt (hAlt e he1 (tptr.hash, t) (List.mem_cons_self _ _))
  have hB : ∀ e ∈ mB, e.1 ≠ tptr.hash := fun e he1 =>
    Nat.ne_of_gt (hBgt e he1)
  have herase := transfer_map.erase_split mA mB tptr.hash t hA hB
  have hnext := transfer_map.next_split mA mB tptr.hash t hA
  have hsucc := transfer_map.cyclic_successor_split mA mB tptr.hash t hA
  rw [← hsplit] at herase hnext hsucc
  rw [hmap, hcursor, herase, hsucc]
  have hnotin : tptr.hash ∉ transfer_map.keys (mA ++ mB) := by
    intro hmem
    obtain ⟨x, hx, hxk⟩ := List.mem_map.mp hmem
    rcases List.mem_append.mp hx with hx | hx
    · exact hA x hx hxk
    · exact hB x hx hxk
  have hkeep : ∀ c, c ∈ transfer_map.keys s.m_transfers → c ≠ tptr.hash →
      c ∈ transfer_map.keys (mA ++ mB) := by
    intro c hc hne
    rw [← herase, transfer_map.keys_erase]
    exact List.mem_filter.mpr ⟨hc, by simpa using hne⟩
  refine ⟨rfl, hnotin, ?_, ?_, ?_⟩
  · -- the cursor does not point at the removed transfer
    intro hbad
    by_cases hc : s.m_next_connect_transfer.m_current = some tptr.hash
    · simp only [hc, if_true, cyclic_iterator.inc, hnext] at hbad
      unfold cyclic_iterator.validate at hbad
      split at hbad
      · exact hnotin (transfer_map.begin_mem_keys hbad)
      · have hb : transfer_map.begin mB = some tptr.hash := hbad
        cases mB with
        | nil => simp [transfer_map.begin] at hb
        | cons b rest =>
          simp only [transfer_map.begin, List.head?_cons, Option.map_some',
            Option.some.injEq] at hb
          exact hB b (List.mem_cons_self _ _) hb
    · simp only [hc, if_false] at hbad
      unfold cyclic_iterator.validate at hbad
      split at hbad
      · exact hnotin (transfer_map.begin_mem_keys hbad)
      · exact hc hbad
  · -- an empty map leaves the cursor at the end
    intro hempty
    have hAe : mA = [] := (List.append_eq_nil.mp hempty).1
    have hBe : mB = [] := (List.append_eq_nil.mp hempty).2
    subst hAe hBe
    by_cases hc : s.m_next_connect_transfer.m_current = some tptr.hash
    · simp [hc, cyclic_iterator.inc, hnext, cyclic_iterator.validate, transfer_map.begin]
    · cases hcc : s.m_next_connect_transfer.m_current with
      | none => simp [hcc, cyclic_iterator.validate, transfer_map.begin]
      | some c0 =>
        exfalso
        have hmem := hcur c0 hcc
        rw [hsplit] at hmem
        simp only [transfer_map.keys, List.nil_append, List.map_cons, List.map_nil,
          List.mem_singleton] at hmem
        exact hc (by rw [hcc, hmem])
  · -- a non-empty map has the cursor at one of its transfers
    intro hne
    by_cases hc : s.m_next_connect_transfer.m_current = some tptr.hash
    · simp only [hc, if_true, cyclic_iterator.inc, hnext]
      cases mB with
      | nil =>
        cases mA with
        | nil => exact absurd rfl hne
        | cons a restA =>
          refine ⟨a.1, ?_, ?_, ?_, ?_⟩
          · simp [cyclic_iterator.validate, transfer_map.begin]
          · simp [transfer_map.keys]
          · intro _
            simp [transfer_map.begin]
          · intro c0 hc0 hne0
            simp only [Option.some.injEq] at hc0
            exact absurd hc0.symm hne0
      | cons b restB =>
        refine ⟨b.1, ?_, ?_, ?_, ?_⟩
        · simp [cyclic_iterator.validate, transfer_map.begin]
        · simp [transfer_map.keys]
        · intro _
          simp [transfer_map.begin]
        · intro c0 hc0 hne0
          simp only [Option.some.injEq] at hc0
          exact absurd hc0.symm hne0
    · simp only [hc, if_false]
      cases hcc : s.m_next_connect_transfer.m_current with
      | none =>
        cases hb : transfer_map.begin (mA ++ mB) with
        | none =>
          exfalso
          cases hm : mA ++ mB with
          | nil => exact hne hm
          | cons x rest => simp [transfer_map.begin, hm] at hb
        | some c =>
          refine ⟨c, ?_, transfer_map.begin_mem_keys hb, ?_, ?_⟩
          · simp [cyclic_iterator.validate, hcc, hb]
          · intro hx
            simp at hx
          · intro c0 hc0
            simp at hc0
      | some c0 =>
        have hne0 : c0 ≠ tptr.hash := fun hx => hc (by rw [hcc, hx])
        refine ⟨c0, ?_, hkeep c0 (hcur c0 hcc) hne0, ?_, ?_⟩
        · simp [cyclic_iterator.validate, hcc]
        · intro hx
          exact hx.elim
        · intro c1 hc1 _
          simp only [hcc, Option.some.injEq] at hc1
          exact hc1

theorem remove_transfer_cursor_witness :
    ∃ c, (example_session3.remove_transfer
        { m_transfer := some { example_transfer with m_filehash := 9 } } 0
        ).m_next_connect_transfer.m_current = some c ∧
      c ∈ transfer_map.keys (example_session3.remove_transfer
        { m_transfer := some { example_transfer with m_filehash := 9 } } 0).m_transfers ∧
      (example_session3.m_next_connect_transfer.m_current
          = some ({ example_transfer with m_filehash := 9 } : transfer).hash →
        transfer_map.cyclic_successor example_session3.m_transfers
          ({ example_transfer with m_filehash := 9 } : transfer).hash = some c) ∧
      (∀ c0, example_session3.m_next_connect_transfer.m_current = some c0 →
        c0 ≠ ({ example_transfer with m_filehash := 9 } : transfer).hash → c = c0) :=
  (remove_transfer_cursor example_session3
    { m_transfer := some { example_transfer with m_filehash := 9 } } 0
    { example_transfer with m_filehash := 9 } rfl
    (by decide)
    (by decide)
    (by
      intro c hc
      have h9 : c = 9 := by
        simp only [example_session3, Option.some.injEq] at hc
        exact hc.symm
      subst h9
      decide)).2.2.2.2 (by decide)

/-- C5: `get_transfers` returns, in map order, one handle for every transfer of the map
that is not aborted, and nothing else. -/
theorem get_transfers_non_aborted (s : session_impl) :
    s.get_transfers =
      (s.m_transfers.filter (fun e => !e.2.is_aborted)).map (fun e => e.2.handle) := by
  simp [session_impl.get_transfers, session_impl.get_transfers_loop_eq]

/-- C6: `want_more_connections` is true exactly when the transfer is not aborted, neither
its own paused flag nor the session-wide pause is set, it is not a seed, and its policy
has at least one connect candidate. -/
theorem want_more_connections_iff (t : transfer) (s : session_impl) :
    t.want_more_connections s = true ↔
      (t.is_aborted = false ∧ t.m_paused = false ∧ s.is_paused = false ∧
        t.is_seed = false ∧ 0 < t.m_policy.num_connect_candidates) := by
  simp only [transfer.want_more_connections, transfer.is_paused, transfer.is_aborted,
    Bool.and_eq_true, Bool.not_eq_true', Bool.or_eq_false_iff, decide_eq_true_eq, gt_iff_lt]
  tauto

/-- C7: `abort` on a transfer that is aborted already returns the transfer and the session
as they were (no field changes, no peer is disconnected, no alert is posted, no storage
request is issued), and `abort` followed by `abort` equals a single `abort`. -/
theorem abort_idempotent (t : transfer) (s : session_impl) :
    (t.is_aborted = true → t.abort s = (t, s)) ∧
    (t.abort s).1.abort (t.abort s).2 = t.abort s := by
  constructor
  · intro h
    simp only [transfer.is_aborted] at h
    simp [transfer.abort, h]
  · have h := transfer.abort_sets_flag t s
    generalize t.abort s = r at h
    simp [transfer.abort, h]

theorem abort_idempotent_witness :
    (example_removed_transfer.abort example_session
      = (example_removed_transfer, example_session)) ∧
    (example_transfer.abort example_session).1.abort (example_transfer.abort example_session).2
      = example_transfer.abort example_session :=
  ⟨(abort_idempotent example_removed_transfer example_session).1 rfl,
   (abort_idempotent example_transfer example_session).2⟩

/-- C9, as stated, fails: `pause` sets the paused flag of the transfer before it looks at
the session, so the `paused` value reported by `status` changes from false to true even
though the whole session is paused. -/
theorem pause_while_session_paused_counterexample :
    ({ example_session with m_paused := true } : session_impl).is_paused = true ∧
    (example_transfer.status 194560 (fun _ => 194560)).paused = false ∧
    ((example_transfer.pause { example_session with m_paused := true }).1.status 194560
      (fun _ => 194560)).paused = true ∧
    (example_transfer.pause { example_session with m_paused := true }).1 ≠ example_transfer := by
  refine ⟨rfl, rfl, rfl, by decide⟩

/-- C9 (amended): `pause` called while the whole session is paused leaves the session as it
was (no paused alert, no storage release or read-cache flush, no peer disconnected) and
changes at most the paused flag of the transfer, which is set afterwards, so `status`
reports `paused = true`; when the flag was set before, nothing changes at all. -/
theorem pause_while_session_paused (BLOCK_SIZE : Nat) (block_bytes_wanted : piece_block → Int)
    (t : transfer) (s : session_impl) (hs : s.is_paused = true) :
    (t.pause s).2 = s ∧
    (t.pause s).1 = { t with m_paused := true } ∧
    ((t.pause s).1.status BLOCK_SIZE block_bytes_wanted).paused = true ∧
    (t.m_paused = true → t.pause s = (t, s)) := by
  have h1 : t.pause s = ({ t with m_paused := true }, s) := by
    unfold transfer.pause
    by_cases hp : t.m_paused = true
    · simp only [hp, if_true]
      congr 1
      cases t
      simp only at hp
      simp [hp]
    · simp [hp, hs]
  refine ⟨by rw [h1], by rw [h1], ?_, ?_⟩
  · rw [h1, transfer.status_paused]
  · intro hp
    simp [transfer.pause, hp]

theorem pause_while_session_paused_witness :
    (example_transfer.pause { example_session with m_paused := true }).2
      = { example_session with m_paused := true } ∧
    (example_transfer.pause { example_session with m_paused := true }).1
      = { example_transfer with m_paused := true } ∧
    ((example_transfer.pause { example_session with m_paused := true }).1.status 194560
      (fun _ => 194560)).paused = true ∧
    (example_transfer.m_paused = true →
      example_transfer.pause { example_session with m_paused := true }
        = (example_transfer, { example_session with m_paused := true })) :=
  pause_while_session_paused 194560 (fun _ => 194560) example_transfer
    { example_session with m_paused := true } rfl

/-- C10: when the picker does not report the piece as finished, `piece_finished` returns
with the transfer and the session exactly as they were, for every piece index, hash and
result code: have-set, hash-set and state are unchanged, and neither `finished` nor
`restore_piece` has run. -/
theorem piece_finished_not_locally_complete (t : transfer) (s : session_impl) (index : Nat)
    (hash : md4_hash) (passed_hash_check : Int) (p : piece_picker)
    (hp : t.m_picker = some p) (hf : p.is_piece_finished index = false) :
    t.piece_finished s index hash passed_hash_check = some (t, s) := by
  simp [transfer.piece_finished, hp, hf]

theorem piece_finished_not_locally_complete_witness :
    ({ example_transfer with m_picker := some example_picker_write_failed } : transfer).piece_finished
        example_session 0 99 0
      = some ({ example_transfer with m_picker := some example_picker_write_failed },
          example_session) :=
  piece_finished_not_locally_complete
    { example_transfer with m_picker := some example_picker_write_failed }
    example_session 0 99 0 example_picker_write_failed rfl (by decide)

/-! ## Lemmas about the picker while peers are detached -/

theorem piece_picker.same_pieces_refl (p : piece_picker) : p.same_pieces p :=
  ⟨rfl, rfl, rfl, rfl⟩

theorem piece_picker.same_pieces_trans {p q r : piece_picker} (h1 : p.same_pieces q)
    (h2 : q.same_pieces r) : p.same_pieces r :=
  ⟨h2.1.trans h1.1, h2.2.1.trans h1.2.1, h2.2.2.1.trans h1.2.2.1, h2.2.2.2.trans h1.2.2.2⟩

theorem picker_kept_refl (a : Option piece_picker) : picker_kept a a := by
  cases a with
  | none => trivial
  | some p => exact p.same_pieces_refl

theorem picker_kept_trans {a b c : Option piece_picker} (h1 : picker_kept a b)
    (h2 : picker_kept b c) : picker_kept a c := by
  cases a <;> cases b <;> cases c <;> simp only [picker_kept] at h1 h2 ⊢
  exact piece_picker.same_pieces_trans h1 h2

theorem piece_picker.dec_refcount_all_same (p : piece_picker) :
    p.same_pieces p.dec_refcount_all := by
  refine ⟨rfl, rfl, rfl, ?_⟩
  simp [piece_picker.dec_refcount_all, List.map_map, Function.comp_def]

theorem piece_picker.dec_where_set_same (m : List piece_pos) (bits : List Bool) :
    (piece_picker.dec_where_set m bits).map (fun x => (x.m_have, x.priority)) =
      m.map (fun x => (x.m_have, x.priority)) := by
  induction m generalizing bits with
  | nil => simp [piece_picker.dec_where_set]
  | cons x xs ih =>
    cases bits with
    | nil => simp [piece_picker.dec_where_set]
    | cons b bs =>
      simp only [piece_picker.dec_where_set, List.map_cons, ih]
      cases b <;> simp

theorem piece_picker.dec_refcount_same (p : piece_picker) (bits : List Bool) :
    p.same_pieces (p.dec_refcount bits) :=
  ⟨rfl, rfl, rfl, piece_picker.dec_where_set_same _ _⟩

theorem transfer.remove_peer_kept (t : transfer) (c : peer_connection) :
    ∃ pk pol cs, t.remove_peer c =
      { t with m_picker := pk, m_policy := pol, m_connections := cs } ∧
      picker_kept t.m_picker pk := by
  unfold transfer.remove_peer
  split
  · exact ⟨t.m_picker, t.m_policy, t.m_connections, rfl, picker_kept_refl _⟩
  · refine ⟨_, _, _, rfl, ?_⟩
    simp only [transfer.ready_for_connections, if_true]
    cases hp : t.m_picker with
    | none => split <;> trivial
    | some p =>
      split
      · exact p.dec_refcount_all_same
      · simp only [Option.map_some', picker_kept]
        split
        · exact p.dec_refcount_same _
        · exact p.same_pieces_refl

theorem peer_connection.disconnect_kept (p : peer_connection) (ec : error_code)
    (t : transfer) (s : session_impl) :
    ∃ pk pol cs c d, p.disconnect ec t s =
      ({ t with m_picker := pk, m_policy := pol, m_connections := cs },
       { s with m_connections := c, m_disconnects := d }) ∧
      picker_kept t.m_picker pk := by
  unfold peer_connection.disconnect
  split
  · exact ⟨t.m_picker, t.m_policy, t.m_connections, s.m_connections, s.m_disconnects, rfl,
      picker_kept_refl _⟩
  · obtain ⟨pk, pol, cs, h, hk⟩ := t.remove_peer_kept p
    rw [h]
    exact ⟨pk, pol, cs, _, _, rfl, hk⟩

theorem transfer.disconnect_fold_kept (ec : error_code) (seeds : List peer_connection)
    (t : transfer) (s : session_impl) :
    ∃ pk pol cs c d,
      seeds.foldl (fun (acc : transfer × session_impl) p => p.disconnect ec acc.1 acc.2) (t, s) =
        ({ t with m_picker := pk, m_policy := pol, m_connections := cs },
         { s with m_connections := c, m_disconnects := d }) ∧
      picker_kept t.m_picker pk := by
  induction seeds generalizing t s with
  | nil =>
    exact ⟨t.m_picker, t.m_policy, t.m_connections, s.m_connections, s.m_disconnects, rfl,
      picker_kept_refl _⟩
  | cons p rest ih =>
    obtain ⟨pk1, pol1, cs1, c1, d1, h1, hk1⟩ := p.disconnect_kept ec t s
    simp only [List.foldl_cons, h1]
    obtain ⟨pk, pol, cs, c, d, h, hk⟩ := ih
      { t with m_picker := pk1, m_policy := pol1, m_connections := cs1 }
      { s with m_connections := c1, m_disconnects := d1 }
    rw [h]
    exact ⟨pk, pol, cs, c, d, rfl, picker_kept_trans hk1 hk⟩

/-! ## Lemmas about `set_state`, `completed` and `finished` -/

theorem transfer.set_state_eq (t : transfer) (s : session_impl) (st : state_t) :
    t.set_state s st =
      ({ t with m_state := st },
       { s with m_alerts := s.m_alerts ++
          (if t.m_state = st then [] else [alert.state_changed_alert t.hash st t.m_state]) }) := by
  unfold transfer.set_state
  by_cases h : t.m_state = st
  · simp only [h, if_true, List.append_nil]
    rw [← h]
  · simp only [h, if_false, session_impl.post_alert_should]

theorem transfer.is_seed_congr (t u : transfer) (h : u.m_picker = t.m_picker) :
    u.is_seed = t.is_seed := by
  simp only [transfer.is_seed, h]

/-- What `finished` leaves behind when it returns: the state is `finished`, or `seeding`
with the picker dropped for a seed; the alerts of these transitions are posted in that
order; the files are released unless the transfer is aborted. -/
theorem transfer.finished_spec (t : transfer) (s : session_impl) (r : transfer × session_impl)
    (h : t.finished s = some r) :
    ∃ pk pol cs c d,
      r.1 = { t with
        m_state := if t.is_seed = true then state_t.seeding else state_t.finished
        m_picker := pk, m_policy := pol, m_connections := cs } ∧
      picker_kept (if t.is_seed = true then none else t.m_picker) pk ∧
      r.2 = { s with
        m_connections := c, m_disconnects := d
        m_alerts := s.m_alerts ++
          (if t.m_state = state_t.finished then []
            else [alert.state_changed_alert t.hash state_t.finished t.m_state]) ++
          (if t.is_seed = true then
            [alert.state_changed_alert t.hash state_t.seeding state_t.finished] else [])
        m_storage_requests :=
          if t.m_abort = true then s.m_storage_requests
          else s.m_storage_requests ++
            [storage_request.async_release_files t.hash disk_callback.on_files_released] } := by
  unfold transfer.finished at h
  rw [transfer.set_state_eq] at h
  simp only at h
  have hseed : ({ t with m_state := state_t.finished } : transfer).is_seed = t.is_seed := rfl
  rw [hseed] at h
  by_cases hs : t.is_seed = true
  · simp only [hs, if_true, transfer.completed] at h ⊢
    rw [transfer.set_state_eq] at h
    simp only [reduceCtorEq, if_false, transfer.hash] at h
    obtain ⟨pk, pol, cs, c, d, hf, hk⟩ := transfer.disconnect_fold_kept
      error_code.transfer_finished
      (List.filter (fun p => decide ((List.count true p.m_remote_pieces : Int) =
        (({ t with m_state := state_t.seeding, m_picker := none } : transfer).num_have : Int)))
        t.m_connections)
      { t with m_state := state_t.seeding, m_picker := none }
      { s with m_alerts := (s.m_alerts ++
          (if t.m_state = state_t.finished then []
            else [alert.state_changed_alert t.m_filehash state_t.finished t.m_state])) ++
          [alert.state_changed_alert t.m_filehash state_t.seeding state_t.finished] }
    rw [hf] at h
    simp only [session_impl.storage_call, transfer.hash] at h ⊢
    refine ⟨pk, pol, cs, c, d, ?_, hk, ?_⟩
    · by_cases ha : t.m_abort = true
      · simp only [ha, if_true, Option.some.injEq] at h
        rw [← h]
        try simp [ha]
      · simp only [ha, Bool.false_eq_true, if_false] at h
        split at h
        · simp only [Option.some.injEq] at h
          rw [← h]
          try simp [ha]
        try simp [ha]
        · exact absurd h (by simp)
    · by_cases ha : t.m_abort = true
      · simp only [ha, if_true, Option.some.injEq] at h ⊢
        rw [← h]
        try simp [ha]
      · simp only [ha, Bool.false_eq_true, if_false] at h ⊢
        split at h
        · simp only [Option.some.injEq] at h
          rw [← h]
          try simp [ha]
        try simp [ha]
        · exact absurd h (by simp)
  · simp only [hs, Bool.false_eq_true, if_false, List.append_nil] at h ⊢
    obtain ⟨pk, pol, cs, c, d, hf, hk⟩ := transfer.disconnect_fold_kept
      error_code.transfer_finished
      (List.filter (fun p => decide ((List.count true p.m_remote_pieces : Int) =
        (({ t with m_state := state_t.finished } : transfer).num_have : Int)))
        t.m_connections)
      { t with m_state := state_t.finished }
      { s with m_alerts := s.m_alerts ++
          (if t.m_state = state_t.finished then []
            else [alert.state_changed_alert t.hash state_t.finished t.m_state]) }
    rw [hf] at h
    simp only [session_impl.storage_call, transfer.hash] at h ⊢
    refine ⟨pk, pol, cs, c, d, ?_, hk, ?_⟩
    · by_cases ha : t.m_abort = true
      · simp only [ha, if_true, Option.some.injEq] at h
        rw [← h]
        try simp [ha]
      · simp only [ha, Bool.false_eq_true, if_false] at h
        split at h
        · simp only [Option.some.injEq] at h
          rw [← h]
          try simp [ha]
        try simp [ha]
        · exact absurd h (by simp)
    · by_cases ha : t.m_abort = true
      · simp only [ha, if_true, Option.some.injEq] at h ⊢
        rw [← h]
        try simp [ha]
      · simp only [ha, Bool.false_eq_true, if_false] at h ⊢
        split at h
        · simp only [Option.some.injEq] at h
          rw [← h]
          try simp [ha]
        try simp [ha]
        · exact absurd h (by simp)

/-- The function `finished` returns when the transfer is aborted or its storage is set. -/
theorem transfer.finished_returns (t : transfer) (s : session_impl)
    (h : t.m_abort = true ∨ t.m_storage = true) : ∃ r, t.finished s = some r := by
  unfold transfer.finished
  rw [transfer.set_state_eq]
  simp only
  generalize hr2 : (if ({ t with m_state := state_t.finished } : transfer).is_seed = true then
      ({ t with m_state := state_t.finished } : transfer).completed _ else _) = r2
  have hr2a : r2.1.m_abort = t.m_abort ∧ r2.1.m_storage = t.m_storage := by
    rw [← hr2]
    split
    · simp only [transfer.completed]
      rw [transfer.set_state_eq]
      exact ⟨rfl, rfl⟩
    · exact ⟨rfl, rfl⟩
  obtain ⟨pk, pol, cs, c, d, hf, _⟩ := transfer.disconnect_fold_kept
    error_code.transfer_finished
    (List.filter (fun p => decide ((List.count true p.m_remote_pieces : Int) =
      (r2.1.num_have : Int))) r2.1.m_connections) r2.1 r2.2
  rw [hf]
  simp only [hr2a.1, hr2a.2]
  rcases h with h | h
  · simp [h]
  · by_cases ha : t.m_abort = true
    · simp [ha]
    · simp [ha, h]

/-! ## Lemmas about marking pieces -/

theorem map_modify_of_invariant {α β : Type} (g : α → β) (f : α → α)
    (hg : ∀ x, g (f x) = g x) (n : Nat) (l : List α) : (l.modify f n).map g = l.map g := by
  induction l generalizing n with
  | nil => simp
  | cons x xs ih =>
    cases n with
    | zero => simp [hg]
    | succ k => simp [ih]

theorem piece_picker.we_have_priorities (p : piece_picker) (index : Nat) :
    (p.we_have index).m_piece_map.map (fun x => x.priority) =
      p.m_piece_map.map (fun x => x.priority) := by
  simp only [piece_picker.we_have]
  apply map_modify_of_invariant
  intro x
  rfl

theorem piece_picker.we_have_num_pieces (p : piece_picker) (index : Nat) :
    (p.we_have index).num_pieces = p.num_pieces := by
  simp [piece_picker.we_have, piece_picker.num_pieces]

/-- After `we_have` the piece is not in the download queue, so the picker does not report
it as finished. -/
theorem piece_picker.we_have_not_finished (p : piece_picker) (index : Nat) :
    (p.we_have index).find_dl_piece index = none := by
  simp only [piece_picker.we_have, piece_picker.find_dl_piece, List.find?_eq_none,
    List.mem_filter]
  intro d hd
  simpa using hd.2

theorem piece_picker.is_piece_finished_of_no_entry (p : piece_picker) (index : Nat)
    (h : p.find_dl_piece index = none) : p.is_piece_finished index = false := by
  simp [piece_picker.is_piece_finished, h]

/-- With no unwanted piece, "all wanted pieces owned" is the same as "all pieces owned". -/
theorem transfer.is_finished_eq_is_seed (t : transfer) (p : piece_picker)
    (hp : t.m_picker = some p) (hprio : ∀ x ∈ p.m_piece_map, x.priority ≠ 0) :
    t.is_finished = t.is_seed := by
  unfold transfer.is_finished
  by_cases hs : t.is_seed = true
  · simp [hs]
  · simp only [hs, Bool.false_eq_true, if_false, hp]
    have hs2 : ¬ p.num_have = p.num_pieces := by
      simpa [transfer.is_seed, hp] using hs
    simp only [piece_picker.num_have, piece_picker.num_pieces, List.countP_eq_length,
      not_forall] at hs2
    obtain ⟨x, hx, hxh⟩ := hs2
    have : (p.m_piece_map.all fun x => x.m_have || x.priority == 0) = false := by
      rw [Bool.eq_false_iff]
      intro hall
      rw [List.all_eq_true] at hall
      have := hall x hx
      simp only [Bool.or_eq_true, beq_iff_eq] at this
      rcases this with h1 | h1
      · exact hxh h1
      · exact hprio x hx h1
    simp [this, Bool.eq_false_iff.mpr hs]

theorem transfer.we_have_eq (t : transfer) (p : piece_picker) (hp : t.m_picker = some p)
    (index : Nat) (hash : md4_hash) :
    t.we_have index hash =
      some { t with m_picker := some (p.we_have index)
                    m_hashset := t.m_hashset.set index (some hash) } := by
  simp [transfer.we_have, hp]

/-- The caller-independent part of the hash-set invariant: an empty supplied list is
replaced by one empty slot per piece. -/
theorem transfer.ctor_hashset_of_empty (seq : Int) (params : add_transfer_params)
    (h : params.piece_hash = []) :
    (transfer.ctor seq params).m_hashset.length = (transfer.ctor seq params).num_pieces ∧
    (transfer.ctor seq params).num_pieces = div_ceil params.file_size PIECE_SIZE := by
  simp [transfer.ctor, h, transfer.num_pieces]

/-- The function `div_ceil` with the piece size is the ceiling of the quotient. -/
theorem div_ceil_piece_size (a : Nat) :
    div_ceil a PIECE_SIZE = a / PIECE_SIZE + (if a % PIECE_SIZE = 0 then 0 else 1) := by
  unfold div_ceil PIECE_SIZE
  split <;> omega

theorem transfer.we_have_hashset_length (t t1 : transfer) (index : Nat) (hash : md4_hash)
    (h : t.we_have index hash = some t1) :
    t1.m_hashset.length = t.m_hashset.length ∧ t1.num_pieces = t.num_pieces := by
  unfold transfer.we_have at h
  split at h
  · exact absurd h (by simp)
  · simp only [Option.some.injEq] at h
    rw [← h]
    simp [transfer.num_pieces]

theorem transfer.piece_passed_hashset (t : transfer) (s : session_impl) (index : Nat)
    (hash : md4_hash) (r : transfer × session_impl)
    (h : t.piece_passed s index hash = some r) :
    r.1.m_hashset = t.m_hashset.set index (some hash) ∧ r.1.num_pieces = t.num_pieces := by
  unfold transfer.piece_passed at h
  cases hp : t.m_picker with
  | none => simp [transfer.we_have, hp] at h
  | some p =>
    rw [transfer.we_have_eq t p hp] at h
    simp only at h
    split at h
    · obtain ⟨pk, pol, cs, c, d, h1, _, _⟩ := transfer.finished_spec _ s r h
      rw [h1]
      exact ⟨rfl, rfl⟩
    · simp only [Option.some.injEq] at h
      rw [← h]
      exact ⟨rfl, rfl⟩

/-! ## Properties of piece completion -/

theorem transfer.piece_finished_without_picker (t : transfer) (s : session_impl) (index : Nat)
    (hash : md4_hash) (passed_hash_check : Int) (h : t.m_picker = none) :
    t.piece_finished s index hash passed_hash_check = none := by
  simp [transfer.piece_finished, h]

/-- The part of C11 that the code delivers: when the transfer still has its picker after a
piece was verified, a second `piece_finished` for the same piece, with any hash and any
result code, returns and changes nothing. -/
theorem transfer.piece_finished_again (t : transfer) (s : session_impl) (index : Nat)
    (hash : md4_hash) (r : transfer × session_impl) (p q : piece_picker)
    (hp : t.m_picker = some p) (hfin : p.is_piece_finished index = true)
    (h1 : t.piece_finished s index hash 0 = some r) (hq : r.1.m_picker = some q)
    (hash2 : md4_hash) (passed_hash_check : Int) :
    r.1.piece_finished r.2 index hash2 passed_hash_check = some r := by
  have hdl : q.find_dl_piece index = none := by
    simp only [transfer.piece_finished, hp, hfin, Bool.not_true, Bool.false_eq_true, if_false,
      if_true, transfer.piece_passed] at h1
    rw [transfer.we_have_eq t p hp] at h1
    simp only at h1
    split at h1
    · obtain ⟨pk, pol, cs, c, d, e1, hk, _⟩ := transfer.finished_spec _ s r h1
      rw [e1] at hq
      simp only at hq
      rw [hq] at hk
      split at hk
      · exact absurd hk (by simp [picker_kept])
      · simp only [picker_kept] at hk
        have := piece_picker.we_have_not_finished p index
        simp only [piece_picker.find_dl_piece] at this ⊢
        rw [hk.1]
        exact this
    · simp only [Option.some.injEq] at h1
      rw [← h1] at hq
      simp only [Option.some.injEq] at hq
      rw [← hq]
      exact piece_picker.we_have_not_finished p index
  simp [transfer.piece_finished, hq, piece_picker.is_piece_finished_of_no_entry q index hdl]

/-- C11 fails on the code: the first `piece_finished` with result 0 for the last missing
piece verifies the piece, turns the transfer into a seed and drops the picker; a second
call for the same piece then dereferences the null picker, whatever hash and result it
carries, instead of returning without effect. -/
theorem piece_finished_twice_on_seed :
    ∃ r, example_transfer.piece_finished example_session 0 99 0 = some r ∧
      r.1.m_state = state_t.seeding ∧ r.1.is_seed = true ∧ r.1.m_picker = none ∧
      r.1.piece_finished r.2 0 99 0 = none ∧
      r.1.piece_finished r.2 0 98 (-2) = none ∧
      r.1.piece_finished r.2 0 98 (-1) = none := by
  refine ⟨(example_transfer.piece_finished example_session 0 99 0).get (by decide),
    by decide, by decide, by decide, by decide, by decide, by decide, by decide⟩

theorem transfer.piece_finished_failed_check (t : transfer) (s : session_impl) (index : Nat)
    (hash : md4_hash) (p : piece_picker) (hp : t.m_picker = some p) :
    t.piece_finished s index hash (-2) = some (t, s) := by
  simp only [transfer.piece_finished, hp, transfer.piece_failed]
  split
  · rfl
  · simp

/-- C12 fails on the code: `piece_failed` has an empty body, so after `piece_finished` with
result -2 for a piece that the picker reports as finished the transfer and its picker
are exactly as before, and the picker still reports the piece as finished. -/
theorem piece_finished_hash_failed_keeps_piece :
    example_picker.is_piece_finished 0 = true ∧
    example_transfer.piece_finished example_session 0 99 (-2)
      = some (example_transfer, example_session) ∧
    ∃ r q, example_transfer.piece_finished example_session 0 99 (-2) = some r ∧
      r.1.m_picker = some q ∧ q.is_piece_finished 0 = true ∧ q.have_piece 0 = false := by
  refine ⟨by decide, by decide, (example_transfer, example_session), example_picker,
    by decide, rfl, by decide, by decide⟩

/-- C13 fails on the code: the constructor copies a hash list that the caller supplies
without looking at its length. For a 20,000,000-byte file (three pieces) that comes with
a list of one entry the hash-set has one entry, the condition of the constructor's own
`assert` is false, and `add_transfer` files the transfer like that. -/
theorem ctor_keeps_supplied_hash_list :
    div_ceil 20000000 PIECE_SIZE = 3 ∧
    (transfer.ctor 0 example_short_list_params).num_pieces = 3 ∧
    (transfer.ctor 0 example_short_list_params).m_hashset.length = 1 ∧
    (transfer.ctor 0 example_short_list_params).ctor_assert = false ∧
    (transfer.ctor 0 { example_short_list_params with piece_hash := [] }).m_hashset.length = 3 ∧
    ((({} : session_impl).add_transfer 194560 example_short_list_params
        error_code.no_error).ses.m_transfers.map
      (fun e => (e.2.m_hashset.length, e.2.num_pieces))) = [(1, 3)] := by
  refine ⟨by decide, by decide, by decide, by decide, by decide, by decide⟩

/-! ## Lemmas about the cases of `piece_passed` -/

/-- With a picker, `is_finished` holds when all pieces are owned or every piece that is
not owned is unwanted. -/
theorem transfer.is_finished_iff (t : transfer) (q : piece_picker) (hq : t.m_picker = some q) :
    t.is_finished = true ↔
      (q.num_have = q.num_pieces ∨ ∀ x ∈ q.m_piece_map, x.m_have = true ∨ x.priority = 0) := by
  unfold transfer.is_finished transfer.is_seed
  simp only [hq]
  by_cases h : q.num_have = q.num_pieces
  · simp [h]
  · simp [h, List.all_eq_true]

theorem piece_picker.wanted_missing (q : piece_picker)
    (h : ∃ x ∈ q.m_piece_map, x.m_have = false ∧ x.priority ≠ 0) :
    q.num_have ≠ q.num_pieces ∧
      ¬ ∀ x ∈ q.m_piece_map, x.m_have = true ∨ x.priority = 0 := by
  obtain ⟨x, hx, h1, h2⟩ := h
  constructor
  · simp only [piece_picker.num_have, piece_picker.num_pieces, ne_eq, List.countP_eq_length,
      not_forall]
    exact ⟨x, hx, by simp [h1]⟩
  · intro hall
    rcases hall x hx with h3 | h3
    · rw [h1] at h3
      exact absurd h3 (by simp)
    · exact h2 h3

theorem List.map_modify_set_true {α : Type} (f : α → Bool) (g : α → α)
    (hg : ∀ x, f (g x) = true) (l : List α) (n : Nat) :
    (l.modify g n).map f = (l.map f).set n true := by
  induction l generalizing n with
  | nil => simp
  | cons x xs ih =>
    cases n with
    | zero => simp [hg]
    | succ k => simp [ih]

/-- The ownership bits after `we_have`: the bit of the piece is set. -/
theorem piece_picker.we_have_bits (p : piece_picker) (index : Nat) :
    (p.we_have index).m_piece_map.map (fun x => x.m_have) =
      (p.m_piece_map.map (fun x => x.m_have)).set index true := by
  simp only [piece_picker.we_have]
  apply List.map_modify_set_true
  intro x
  rfl

theorem piece_picker.same_pieces_bits (p q : piece_picker) (h : p.same_pieces q) :
    q.m_piece_map.map (fun x => x.m_have) = p.m_piece_map.map (fun x => x.m_have) := by
  have h1 := congrArg (List.map Prod.fst) h.2.2.2
  simpa [List.map_map, Function.comp_def] using h1

/-- The three ways `piece_passed` ends on a transfer with a picker whose `finished` can
return (it is aborted or has its storage): `finished` is not run when all pieces were
owned before or a wanted piece is still missing; it moves the state to `finished` when
only unwanted pieces are missing; it moves the state to `finished` and then to `seeding`
and drops the picker when no piece is missing. -/
theorem transfer.piece_passed_cases (t : transfer) (s : session_impl) (index : Nat)
    (hash : md4_hash) (p : piece_picker) (hp : t.m_picker = some p)
    (hret : t.m_abort = true ∨ t.m_storage = true) :
    ∃ r, t.piece_passed s index hash = some r ∧
      r.1.m_hashset = t.m_hashset.set index (some hash) ∧
      r.1.num_pieces = t.num_pieces ∧
      ((t.num_have = t.num_pieces ∨
          ∃ x ∈ (p.we_have index).m_piece_map, x.m_have = false ∧ x.priority ≠ 0) →
        r.1.m_state = t.m_state ∧ r.1.m_picker = some (p.we_have index) ∧
        r.2.m_alerts = s.m_alerts) ∧
      (t.num_have ≠ t.num_pieces →
        (∀ x ∈ (p.we_have index).m_piece_map, x.m_have = true ∨ x.priority = 0) →
        (p.we_have index).num_have ≠ (p.we_have index).num_pieces →
        r.1.m_state = state_t.finished ∧
        (∃ q, r.1.m_picker = some q ∧ (p.we_have index).same_pieces q) ∧
        r.2.m_alerts = s.m_alerts ++
          (if t.m_state = state_t.finished then []
            else [alert.state_changed_alert t.hash state_t.finished t.m_state])) ∧
      (t.num_have ≠ t.num_pieces →
        (p.we_have index).num_have = (p.we_have index).num_pieces →
        r.1.m_state = state_t.seeding ∧ r.1.m_picker = none ∧
        r.2.m_alerts = s.m_alerts ++
          (if t.m_state = state_t.finished then []
            else [alert.state_changed_alert t.hash state_t.finished t.m_state]) ++
          [alert.state_changed_alert t.hash state_t.seeding state_t.finished]) := by
  have hfin := transfer.is_finished_iff
    { t with m_picker := some (p.we_have index), m_hashset := t.m_hashset.set index (some hash) }
    (p.we_have index) rfl
  unfold transfer.piece_passed
  rw [transfer.we_have_eq t p hp]
  simp only
  by_cases hcond : (!(t.num_have == t.num_pieces) && ({ t with m_picker := some (p.we_have index), m_hashset := t.m_hashset.set index (some hash) } : transfer).is_finished) = true
  · rw [if_pos hcond]
    simp only [Bool.and_eq_true, Bool.not_eq_true', beq_eq_false_iff_ne, ne_eq] at hcond
    obtain ⟨hwas, hf⟩ := hcond
    obtain ⟨r, hr⟩ := transfer.finished_returns
      { t with m_picker := some (p.we_have index), m_hashset := t.m_hashset.set index (some hash) }
      s hret
    obtain ⟨pk, pol, cs, c, d, e1, hk, e2⟩ := transfer.finished_spec _ s r hr
    refine ⟨r, hr, by rw [e1], by rw [e1]; rfl, ?_, ?_, ?_⟩
    · intro hA
      rcases hA with hA | hA
      · exact absurd hA hwas
      · have hmiss := piece_picker.wanted_missing _ hA
        rcases hfin.mp hf with h1 | h1
        · exact absurd h1 hmiss.1
        · exact absurd h1 hmiss.2
    · intro _ _ hns
      have hs : ({ t with m_picker := some (p.we_have index), m_hashset := t.m_hashset.set index (some hash) } : transfer).is_seed = false := by
        simpa [transfer.is_seed] using hns
      simp only [hs, Bool.false_eq_true, if_false] at e1 hk e2
      refine ⟨by rw [e1], ?_, ?_⟩
      · rw [e1]
        cases pk with
        | none => exact absurd hk (by simp [picker_kept])
        | some q => exact ⟨q, rfl, hk⟩
      · rw [e2]
        simp [transfer.hash]
    · intro _ hs0
      have hs : ({ t with m_picker := some (p.we_have index), m_hashset := t.m_hashset.set index (some hash) } : transfer).is_seed = true := by
        simpa [transfer.is_seed] using hs0
      simp only [hs, if_true] at e1 hk e2
      refine ⟨by rw [e1], ?_, ?_⟩
      · rw [e1]
        cases pk with
        | none => rfl
        | some q => exact absurd hk (by simp [picker_kept])
      · rw [e2]
        simp [transfer.hash]
  · rw [if_neg hcond]
    refine ⟨_, rfl, rfl, rfl, ?_, ?_, ?_⟩
    · intro _
      exact ⟨rfl, rfl, rfl⟩
    · intro hwas hall _
      exact absurd (by simp [hwas, hfin.mpr (Or.inr hall)]) hcond
    · intro hwas hs0
      exact absurd (by simp [hwas, hfin.mpr (Or.inl hs0)]) hcond

/-! ## Properties of piece completion: late callbacks and the state sequence -/

/-- C8, as stated, fails: `piece_finished` does not look at the abort flag. On an aborted
transfer whose picker reports piece 0 as finished, a late callback with result 0 marks
the piece as owned, stores the hash, moves the state from downloading to seeding and
posts two `state_changed` alerts. -/
theorem piece_finished_after_abort_counterexample :
    example_aborted.1.is_aborted = true ∧
    ∃ r, example_aborted.1.piece_finished example_aborted.2 0 99 0 = some r ∧
      example_aborted.1.m_state = state_t.downloading ∧
      r.1.m_state = state_t.seeding ∧
      example_aborted.1.have_set = [false] ∧
      r.1.have_set = [true] ∧
      example_aborted.1.m_hashset = [none] ∧
      r.1.m_hashset = [some 99] ∧
      r.2.m_alerts = example_aborted.2.m_alerts ++
        [alert.state_changed_alert 7 state_t.finished state_t.downloading,
         alert.state_changed_alert 7 state_t.seeding state_t.finished] := by
  refine ⟨by decide, (example_aborted.1.piece_finished example_aborted.2 0 99 0).get (by decide),
    by decide, by decide, by decide, by decide, by decide, by decide, by decide, by decide⟩

/-- C8 (amended): on an aborted transfer that still has its picker, `piece_finished` returns,
leaves the transfer aborted and issues no storage request. It changes neither the state,
the have-set, the hash-set nor the alert queue when the picker does not report the piece
as finished or the result code is not 0. With result 0 on a piece the picker reports as
finished it runs `piece_passed` as for a transfer that is not aborted: the hash is
stored in the hash-set and the piece is marked in the have-set; the state and the alert
queue stay as they are when all pieces were owned before or a wanted piece is still
missing; when only unwanted pieces are still missing the state becomes `finished` and
the alert for that transition is posted (unless the state was `finished` already); when
no piece is missing the state becomes `finished` and then `seeding`, the picker is
dropped and the alert finished -> seeding is posted after the one for `finished`. -/
theorem piece_finished_after_abort (t : transfer) (s : session_impl) (index : Nat)
    (hash : md4_hash) (passed_hash_check : Int) (p : piece_picker)
    (hab : t.is_aborted = true) (hp : t.m_picker = some p) :
    (∃ r, t.piece_finished s index hash passed_hash_check = some r ∧
      r.1.is_aborted = true ∧ r.2.m_storage_requests = s.m_storage_requests) ∧
    (p.is_piece_finished index = false ∨ passed_hash_check ≠ 0 →
      ∃ r, t.piece_finished s index hash passed_hash_check = some r ∧
        r.1.m_state = t.m_state ∧ r.1.have_set = t.have_set ∧
        r.1.m_hashset = t.m_hashset ∧ r.2.m_alerts = s.m_alerts) ∧
    (p.is_piece_finished index = true →
      t.piece_finished s index hash 0 = t.piece_passed s index hash) ∧
    (p.is_piece_finished index = true →
      ∃ r, t.piece_finished s index hash 0 = some r ∧
        r.1.m_hashset = t.m_hashset.set index (some hash) ∧
        ((t.num_have = t.num_pieces ∨
            ∃ x ∈ (p.we_have index).m_piece_map, x.m_have = false ∧ x.priority ≠ 0) →
          r.1.m_state = t.m_state ∧ r.1.have_set = t.have_set.set index true ∧
          r.2.m_alerts = s.m_alerts) ∧
        (t.num_have ≠ t.num_pieces →
          (∀ x ∈ (p.we_have index).m_piece_map, x.m_have = true ∨ x.priority = 0) →
          (p.we_have index).num_have ≠ (p.we_have index).num_pieces →
          r.1.m_state = state_t.finished ∧ r.1.have_set = t.have_set.set index true ∧
          r.2.m_alerts = s.m_alerts ++
            (if t.m_state = state_t.finished then []
              else [alert.state_changed_alert t.hash state_t.finished t.m_state])) ∧
        (t.num_have ≠ t.num_pieces →
          (p.we_have index).num_have = (p.we_have index).num_pieces →
          r.1.m_state = state_t.seeding ∧ r.1.m_picker = none ∧
          r.1.have_set = List.replicate t.num_pieces true ∧
          r.2.m_alerts = s.m_alerts ++
            (if t.m_state = state_t.finished then []
              else [alert.state_changed_alert t.hash state_t.finished t.m_state]) ++
            [alert.state_changed_alert t.hash state_t.seeding state_t.finished])) := by
  simp only [transfer.is_aborted] at hab
  refine ⟨?_, ?_, ?_, ?_⟩
  · unfold transfer.piece_finished
    simp only [hp]
    split
    · exact ⟨(t, s), rfl, hab, rfl⟩
    · split
      · unfold transfer.piece_passed transfer.we_have
        simp only [hp]
        split
        · exact transfer.finished_aborted _ s hab
        · exact ⟨_, rfl, hab, rfl⟩
      · split
        · exact ⟨_, rfl, hab, rfl⟩
        · exact ⟨_, rfl, hab, rfl⟩
  · intro hcase
    unfold transfer.piece_finished
    simp only [hp]
    split
    · exact ⟨(t, s), rfl, rfl, rfl, rfl, rfl⟩
    · rename_i hfin
      have hne : passed_hash_check ≠ 0 := by
        rcases hcase with hcase | hcase
        · simp [hcase] at hfin
        · exact hcase
      simp only [hne, if_false]
      split
      · exact ⟨_, rfl, rfl, rfl, rfl, rfl⟩
      · refine ⟨_, rfl, rfl, ?_, rfl, rfl⟩
        simp [transfer.have_set, transfer.restore_piece_state, piece_picker.restore_piece, hp]
  · intro hfin
    simp [transfer.piece_finished, hp, hfin]
  · intro hfin
    have hpf : t.piece_finished s index hash 0 = t.piece_passed s index hash := by
      simp [transfer.piece_finished, hp, hfin]
    have hset : t.have_set = p.m_piece_map.map (fun x => x.m_have) := by
      simp [transfer.have_set, hp]
    obtain ⟨r, hr, hh, hnp, hA, hB, hC⟩ :=
      transfer.piece_passed_cases t s index hash p hp (Or.inl hab)
    refine ⟨r, hpf.trans hr, hh, ?_, ?_, ?_⟩
    · intro hc
      obtain ⟨h1, h2, h3⟩ := hA hc
      refine ⟨h1, ?_, h3⟩
      rw [hset]
      simp only [transfer.have_set, h2]
      rw [piece_picker.we_have_bits]
    · intro hc1 hc2 hc3
      obtain ⟨h1, ⟨q, h2, hq⟩, h3⟩ := hB hc1 hc2 hc3
      refine ⟨h1, ?_, h3⟩
      rw [hset]
      simp only [transfer.have_set, h2]
      rw [piece_picker.same_pieces_bits _ _ hq, piece_picker.we_have_bits]
    · intro hc1 hc2
      obtain ⟨h1, h2, h3⟩ := hC hc1 hc2
      refine ⟨h1, h2, ?_, h3⟩
      simp only [transfer.have_set, h2, hnp]

theorem piece_finished_after_abort_witness :
    (∃ r, example_aborted.1.piece_finished example_aborted.2 0 99 (-1) = some r ∧
      r.1.m_state = example_aborted.1.m_state ∧ r.1.have_set = example_aborted.1.have_set ∧
      r.1.m_hashset = example_aborted.1.m_hashset ∧
      r.2.m_alerts = example_aborted.2.m_alerts) ∧
    (∃ r, example_aborted.1.piece_finished example_aborted.2 0 99 0 = some r ∧
      r.1.m_hashset = example_aborted.1.m_hashset.set 0 (some 99) ∧
      r.1.m_state = state_t.seeding ∧ r.1.m_picker = none ∧
      r.1.have_set = List.replicate example_aborted.1.num_pieces true) :=
  ⟨(piece_finished_after_abort example_aborted.1 example_aborted.2 0 99 (-1)
    { example_picker with m_piece_map := [{ m_have := false, peer_count := 0, priority := 1 }] }
    (by decide) (by decide)).2.1 (Or.inr (by decide)),
   ((piece_finished_after_abort example_aborted.1 example_aborted.2 0 99 0
    { example_picker with m_piece_map := [{ m_have := false, peer_count := 0, priority := 1 }] }
    (by decide) (by decide)).2.2.2 (by decide)).imp
      (fun _ h => ⟨h.1, h.2.1, (h.2.2.2.2 (by decide) (by decide)).1,
        (h.2.2.2.2 (by decide) (by decide)).2.1,
        (h.2.2.2.2 (by decide) (by decide)).2.2.1⟩)⟩

/-- C15: `piece_passed` first marks the piece (`we_have`, which also stores the hash in the
hash-set). It then runs `finished` exactly when the transfer did not own all pieces
before the call and `is_finished` holds after the marking; otherwise it returns the
marked transfer with its state unchanged and the session untouched. Whenever it
returns, the hash-set is the old one with the entry at `index` set to `hash`. -/
theorem piece_passed_invokes_finished (t : transfer) (s : session_impl) (index : Nat)
    (hash : md4_hash) (p : piece_picker) (t1 : transfer)
    (hp : t.m_picker = some p)
    (ht1 : t1 = { t with m_picker := some (p.we_have index)
                         m_hashset := t.m_hashset.set index (some hash) }) :
    t.we_have index hash = some t1 ∧
    ((t.num_have ≠ t.num_pieces ∧ t1.is_finished = true) →
      t.piece_passed s index hash = t1.finished s) ∧
    (¬ (t.num_have ≠ t.num_pieces ∧ t1.is_finished = true) →
      t.piece_passed s index hash = some (t1, s) ∧ t1.m_state = t.m_state) ∧
    (∀ r, t.piece_passed s index hash = some r →
      r.1.m_hashset = t.m_hashset.set index (some hash) ∧
      (index < t.m_hashset.length → r.1.m_hashset[index]? = some (some hash))) := by
  subst ht1
  refine ⟨transfer.we_have_eq t p hp index hash, ?_, ?_, ?_⟩
  · intro h
    unfold transfer.piece_passed
    rw [transfer.we_have_eq t p hp]
    have h1 : (t.num_have == t.num_pieces) = false := by simpa using h.1
    simp [h1, h.2]
  · intro h
    unfold transfer.piece_passed
    rw [transfer.we_have_eq t p hp]
    refine ⟨?_, rfl⟩
    by_cases hw : t.num_have = t.num_pieces
    · simp [hw]
    · have hf : ({ t with m_picker := some (p.we_have index), m_hashset := t.m_hashset.set index (some hash) } : transfer).is_finished = false := by
        rw [Bool.eq_false_iff]
        exact fun hx => h ⟨hw, hx⟩
      simp [hf]
  · intro r hr
    have := (transfer.piece_passed_hashset t s index hash r hr).1
    refine ⟨this, fun hlt => ?_⟩
    rw [this]
    simp [hlt]

theorem piece_passed_invokes_finished_witness :
    example_transfer2_last.piece_passed example_session 1 51 =
      transfer.finished
        { example_transfer2_last with
          m_picker := some
            (({ example_picker2 with
                m_piece_map :=
                  [{ m_have := true, peer_count := 0, priority := 1 },
                   { m_have := false, peer_count := 0, priority := 1 }]
                m_downloads := [{ index := 1, info := [block_state.state_finished] }] }
              : piece_picker).we_have 1)
          m_hashset := example_transfer2_last.m_hashset.set 1 (some 51) }
        example_session :=
  (piece_passed_invokes_finished example_transfer2_last example_session 1 51
    { example_picker2 with
      m_piece_map :=
        [{ m_have := true, peer_count := 0, priority := 1 },
         { m_have := false, peer_count := 0, priority := 1 }]
      m_downloads := [{ index := 1, info := [block_state.state_finished] }] }
    _ rfl rfl).2.1 (by decide)

/-! ## Properties of the byte accounting -/

/-- C16 fails on the code: the correction for the last piece is computed as
`filesize() % PIECE_SIZE - PIECE_SIZE`, which is a whole piece when the file size is an
exact multiple of the piece size. A transfer of a file of exactly two pieces that owns
only the last piece reports `total_done = 0`, while the owned piece is 9,728,000 bytes
long; the `assert(corr > -int(PIECE_SIZE))` of the source is false there. For the
20,000,000-byte file of the claim, with pieces 0 and 1 owned, the bounds of the claim
hold. -/
theorem bytes_done_exact_multiple :
    example_even_transfer.filesize = 2 * PIECE_SIZE ∧
    (example_even_transfer.bytes_done 194560 (fun _ => 194560) {}).total_wanted = 19456000 ∧
    (example_even_transfer.bytes_done 194560 (fun _ => 194560) {}).total_done = 0 ∧
    spec_bytes_owned example_even_transfer.filesize
        { m_piece_map :=
            [{ m_have := false, peer_count := 0, priority := 1 },
             { m_have := true, peer_count := 0, priority := 1 }]
          m_blocks_per_piece := 50
          m_blocks_in_last_piece := 0 } = 9728000 ∧
    ¬ (((example_even_transfer.filesize % PIECE_SIZE : Nat) : Int) - (PIECE_SIZE : Int)
        > -(PIECE_SIZE : Int)) ∧
    (example_three_piece_transfer.bytes_done 194560 (fun _ => 194560) {}).total_done
      = 2 * (PIECE_SIZE : Int) ∧
    (example_three_piece_transfer.bytes_done 194560 (fun _ => 194560) {}).total_wanted
      = 20000000 := by
  refine ⟨by decide, by decide, by decide, by decide, by decide, by decide, by decide⟩

/-! ## Lemmas about the progress reports of peers -/

theorem transfer.note_progress_keys (M : List (piece_block × Int)) (b : piece_block) (v : Int) :
    (transfer.note_progress M b v).map Prod.fst =
      if b ∈ M.map Prod.fst then M.map Prod.fst else M.map Prod.fst ++ [b] := by
  induction M with
  | nil => simp [transfer.note_progress]
  | cons e rest ih =>
    obtain ⟨k, x⟩ := e
    by_cases hk : k = b
    · simp [transfer.note_progress, hk]
    · have hk2 : ¬ b = k := fun h => hk h.symm
      simp only [transfer.note_progress, hk, if_false, List.map_cons, ih, List.mem_cons, hk2,
        false_or]
      split <;> simp

theorem transfer.note_progress_mem (M : List (piece_block × Int)) (b : piece_block) (v : Int)
    (hnd : (M.map Prod.fst).Nodup) (k : piece_block) (x : Int)
    (h : (k, x) ∈ transfer.note_progress M b v) :
    (k ≠ b ∧ (k, x) ∈ M) ∨
    (k = b ∧ ((∃ old, (b, old) ∈ M ∧ x = max old v) ∨ (b ∉ M.map Prod.fst ∧ x = v))) := by
  induction M with
  | nil =>
    simp only [transfer.note_progress, List.mem_singleton, Prod.mk.injEq] at h
    exact Or.inr ⟨h.1, Or.inr ⟨by simp, h.2⟩⟩
  | cons e rest ih =>
    obtain ⟨k1, x1⟩ := e
    simp only [List.map_cons, List.nodup_cons] at hnd
    by_cases hk : k1 = b
    · subst hk
      simp only [transfer.note_progress, if_true, List.mem_cons, Prod.mk.injEq] at h
      rcases h with ⟨h1, h2⟩ | h
      · refine Or.inr ⟨h1, Or.inl ⟨x1, List.mem_cons_self _ _, ?_⟩⟩
        rw [h2, max_def]
        split <;> split <;> omega
      · have hkne : k ≠ k1 := by
          intro hx
          subst hx
          exact hnd.1 (List.mem_map_of_mem Prod.fst h)
        exact Or.inl ⟨hkne, List.mem_cons_of_mem _ h⟩
    · simp only [transfer.note_progress, hk, if_false, List.mem_cons, Prod.mk.injEq] at h
      rcases h with ⟨h1, h2⟩ | h
      · subst h1 h2
        exact Or.inl ⟨hk, List.mem_cons_self _ _⟩
      · rcases ih hnd.2 h with ⟨h1, h2⟩ | ⟨h1, h2⟩
        · exact Or.inl ⟨h1, List.mem_cons_of_mem _ h2⟩
        · refine Or.inr ⟨h1, ?_⟩
          rcases h2 with ⟨old, ho, hx⟩ | ⟨hn, hx⟩
          · exact Or.inl ⟨old, List.mem_cons_of_mem _ ho, hx⟩
          · refine Or.inr ⟨?_, hx⟩
            simp only [List.map_cons, List.mem_cons, not_or]
            exact ⟨fun h => hk h.symm, hn⟩

theorem progress_inv_step (M R : List (piece_block × Int)) (b : piece_block) (v : Int)
    (h : progress_inv M R) : progress_inv (transfer.note_progress M b v) (R ++ [(b, v)]) := by
  obtain ⟨hnd, hkeys, hmax⟩ := h
  refine ⟨?_, ?_, ?_⟩
  · rw [transfer.note_progress_keys]
    split
    · exact hnd
    · rename_i hb
      rw [List.nodup_append]
      refine ⟨hnd, List.nodup_singleton _, ?_⟩
      intro a ha hab
      simp only [List.mem_singleton] at hab
      subst hab
      exact hb ha
  · intro k
    rw [transfer.note_progress_keys]
    simp only [List.map_append, List.map_cons, List.map_nil, List.mem_append,
      List.mem_singleton]
    split
    · rename_i hb
      rw [hkeys]
      constructor
      · exact Or.inl
      · rintro (h | h)
        · exact h
        · subst h
          exact (hkeys k).mp hb
    · simp only [List.mem_append, List.mem_singleton, hkeys]
  · intro k x hkx
    rcases transfer.note_progress_mem M b v hnd k x hkx with ⟨hne, hm⟩ | ⟨heq, hm⟩
    · obtain ⟨h1, h2⟩ := hmax k x hm
      constructor
      · exact List.mem_append_left _ h1
      · intro y hy
        simp only [Set.mem_setOf_eq, List.mem_append, List.mem_singleton, Prod.mk.injEq] at hy
        rcases hy with hy | ⟨hy, _⟩
        · exact h2 hy
        · exact absurd hy hne
    · subst heq
      rcases hm with ⟨old, ho, hx⟩ | ⟨hn, hx⟩
      · obtain ⟨h1, h2⟩ := hmax k old ho
        constructor
        · simp only [Set.mem_setOf_eq, List.mem_append, List.mem_singleton, Prod.mk.injEq,
            true_and]
          rw [hx, max_def]
          split
          · exact Or.inr rfl
          · exact Or.inl h1
        · intro y hy
          simp only [Set.mem_setOf_eq, List.mem_append, List.mem_singleton, Prod.mk.injEq,
            true_and] at hy
          rw [hx]
          rcases hy with hy | hy
          · exact le_trans (h2 hy) (le_max_left _ _)
          · rw [hy]
            exact le_max_right _ _
      · subst hx
        constructor
        · simp
        · intro y hy
          simp only [Set.mem_setOf_eq, List.mem_append, List.mem_singleton, Prod.mk.injEq,
            true_and] at hy
          rcases hy with hy | hy
          · exact absurd ((hkeys k).mpr (List.mem_map_of_mem Prod.fst hy)) hn
          · exact le_of_eq hy

theorem progress_inv_fold (R : List (piece_block × Int)) :
    progress_inv (R.foldl (fun acc e => transfer.note_progress acc e.1 e.2) []) R := by
  induction R using List.reverseRecOn with
  | nil =>
    refine ⟨by simp, by simp, ?_⟩
    intro b v h
    simp at h
  | append_singleton R a ih =>
    rw [List.foldl_append]
    exact progress_inv_step _ R a.1 a.2 ih

theorem foldl_max_greatest (v : Int) (vs : List Int) :
    IsGreatest {x | x ∈ v :: vs} (vs.foldl max v) := by
  induction vs generalizing v with
  | nil =>
    constructor
    · simp
    · intro y hy
      simp only [Set.mem_setOf_eq, List.mem_singleton] at hy
      exact le_of_eq hy
  | cons w ws ih =>
    obtain ⟨h1, h2⟩ := ih (max v w)
    simp only [List.foldl_cons]
    constructor
    · simp only [Set.mem_setOf_eq, List.mem_cons] at h1 ⊢
      rcases h1 with h1 | h1
      · rw [h1, max_def]
        split
        · exact Or.inr (Or.inl rfl)
        · exact Or.inl rfl
      · exact Or.inr (Or.inr h1)
    · intro y hy
      simp only [Set.mem_setOf_eq, List.mem_cons] at hy
      rcases hy with hy | hy | hy
      · exact le_trans (le_of_eq_of_le hy (le_max_left v w)) (h2 (List.mem_cons_self _ _))
      · exact le_trans (le_of_eq_of_le hy (le_max_right v w)) (h2 (List.mem_cons_self _ _))
      · exact h2 (List.mem_cons_of_mem _ hy)

/-- For a reported block, `spec_max_bytes` is the largest reported byte count. -/
theorem spec_max_bytes_greatest (R : List (piece_block × Int)) (b : piece_block)
    (hb : b ∈ R.map Prod.fst) : IsGreatest {x | (b, x) ∈ R} (spec_max_bytes R b) := by
  have hvals : ∀ x, x ∈ (R.filter (fun e => e.1 = b)).map Prod.snd ↔ (b, x) ∈ R := by
    intro x
    simp only [List.mem_map, List.mem_filter, decide_eq_true_eq]
    constructor
    · rintro ⟨e, ⟨he, hk⟩, hx⟩
      obtain ⟨k, y⟩ := e
      simp only at hk hx
      subst hk hx
      exact he
    · intro h
      exact ⟨(b, x), ⟨h, rfl⟩, rfl⟩
  unfold spec_max_bytes
  cases hv : (R.filter (fun e => e.1 = b)).map Prod.snd with
  | nil =>
    exfalso
    obtain ⟨e, he, hk⟩ := List.mem_map.mp hb
    have : e.2 ∈ (R.filter (fun e => e.1 = b)).map Prod.snd :=
      (hvals e.2).mpr (by rw [← hk]; exact he)
    rw [hv] at this
    simp at this
  | cons v vs =>
    simp only
    obtain ⟨h1, h2⟩ := foldl_max_greatest v vs
    constructor
    · exact (hvals _).mp (by rw [hv]; exact h1)
    · intro y hy
      exact h2 (by
        have := (hvals y).mpr hy
        rw [hv] at this
        exact this)

/-- The entries of the local map carry the values of `spec_max_bytes`, so a sum over the
map is a sum over the set of reported blocks. -/
theorem progress_sum_eq (w : piece_block → Int → Int) (M R : List (piece_block × Int))
    (h : progress_inv M R) :
    (M.map (fun e => w e.1 e.2)).sum =
      Finset.sum (R.map Prod.fst).toFinset (fun b => w b (spec_max_bytes R b)) := by
  obtain ⟨hnd, hkeys, hmax⟩ := h
  have h1 : M.map (fun e => w e.1 e.2) =
      (M.map Prod.fst).map (fun b => w b (spec_max_bytes R b)) := by
    rw [List.map_map]
    apply List.map_congr_left
    intro e he
    obtain ⟨k, x⟩ := e
    have hk : k ∈ R.map Prod.fst := (hkeys k).mp (List.mem_map_of_mem Prod.fst he)
    have := IsGreatest.unique (hmax k x he) (spec_max_bytes_greatest R k hk)
    simp only [Function.comp_apply, this]
  have h2 : (M.map Prod.fst).toFinset = (R.map Prod.fst).toFinset := by
    ext b
    simp only [List.mem_toFinset]
    exact hkeys b
  rw [h1, ← List.sum_toFinset _ hnd, h2]

theorem spec_max_bytes_congr (R1 R2 : List (piece_block × Int))
    (h : R1.toFinset = R2.toFinset) (b : piece_block) (hb : b ∈ R1.map Prod.fst) :
    spec_max_bytes R1 b = spec_max_bytes R2 b := by
  have hmem : ∀ e, e ∈ R1 ↔ e ∈ R2 := by
    intro e
    rw [← List.mem_toFinset, h, List.mem_toFinset]
  have hb2 : b ∈ R2.map Prod.fst := by
    obtain ⟨e, he, hk⟩ := List.mem_map.mp hb
    exact List.mem_map.mpr ⟨e, (hmem e).mp he, hk⟩
  have hset : {x | (b, x) ∈ R1} = {x | (b, x) ∈ R2} := by
    ext x
    exact hmem (b, x)
  have g1 := spec_max_bytes_greatest R1 b hb
  rw [hset] at g1
  exact IsGreatest.unique g1 (spec_max_bytes_greatest R2 b hb2)

theorem spec_keys_congr (R1 R2 : List (piece_block × Int)) (h : R1.toFinset = R2.toFinset) :
    (R1.map Prod.fst).toFinset = (R2.map Prod.fst).toFinset := by
  ext b
  simp only [List.mem_toFinset, List.mem_map]
  constructor
  · rintro ⟨e, he, hk⟩
    exact ⟨e, by rw [← List.mem_toFinset, ← h, List.mem_toFinset]; exact he, hk⟩
  · rintro ⟨e, he, hk⟩
    exact ⟨e, by rw [← List.mem_toFinset, h, List.mem_toFinset]; exact he, hk⟩

theorem transfer.progress_fold_eq (picker : piece_picker) (conns : List peer_connection)
    (acc : List (piece_block × Int)) :
    conns.foldl
      (fun (acc : List (piece_block × Int)) pc =>
        match pc.m_progress with
        | none => acc
        | some p =>
          if picker.have_piece p.piece_index then acc
          else
            let block : piece_block :=
              { piece_index := p.piece_index, block_index := p.block_index }
            if picker.is_finished block then acc
            else transfer.note_progress acc block p.bytes_downloaded)
      acc =
    (spec_reports picker conns).foldl (fun acc e => transfer.note_progress acc e.1 e.2) acc := by
  induction conns generalizing acc with
  | nil => rfl
  | cons pc rest ih =>
    simp only [List.foldl_cons, spec_reports, List.filterMap_cons]
    rw [ih]
    cases hpr : pc.m_progress with
    | none => simp [spec_reports]
    | some p =>
      simp only
      by_cases h1 : picker.have_piece p.piece_index = true
      · simp [h1, spec_reports]
      · by_cases h2 : picker.is_finished
            { piece_index := p.piece_index, block_index := p.block_index } = true
        · simp [h1, h2, spec_reports]
        · simp [h1, h2, spec_reports]

theorem transfer.progress_sum_fold (block_bytes_wanted : piece_block → Int)
    (picker : piece_picker) (M : List (piece_block × Int)) (st0 : transfer_status) :
    M.foldl
      (fun (acc : transfer_status) e =>
        let done := min (block_bytes_wanted e.1) e.2
        { acc with
          total_done := acc.total_done + done
          total_wanted_done :=
            if picker.piece_priority e.1.piece_index ≠ 0 then acc.total_wanted_done + done
            else acc.total_wanted_done })
      st0 =
    { st0 with
      total_done := st0.total_done +
        (M.map (fun e => min (block_bytes_wanted e.1) e.2)).sum
      total_wanted_done := st0.total_wanted_done +
        (M.map (fun e =>
          if picker.piece_priority e.1.piece_index ≠ 0 then min (block_bytes_wanted e.1) e.2
          else 0)).sum } := by
  induction M generalizing st0 with
  | nil => simp
  | cons e rest ih =>
    simp only [List.foldl_cons, List.map_cons, List.sum_cons]
    rw [ih]
    by_cases hprio : picker.piece_priority e.1.piece_index = 0
    · simp [hprio, add_assoc]
    · simp [hprio, add_assoc]

theorem transfer.bytes_done_eq_fold (BLOCK_SIZE : Nat)
    (block_bytes_wanted : piece_block → Int) (t : transfer) (st : transfer_status)
    (picker : piece_picker) (hp : t.m_picker = some picker) :
    t.bytes_done BLOCK_SIZE block_bytes_wanted st =
      ((spec_reports picker t.m_connections).foldl
        (fun acc e => transfer.note_progress acc e.1 e.2) []).foldl
        (fun (acc : transfer_status) e =>
          let done := min (block_bytes_wanted e.1) e.2
          { acc with
            total_done := acc.total_done + done
            total_wanted_done :=
              if picker.piece_priority e.1.piece_index ≠ 0 then acc.total_wanted_done + done
              else acc.total_wanted_done })
        (({ t with m_connections := [] } : transfer).bytes_done BLOCK_SIZE
          block_bytes_wanted st) := by
  rw [← transfer.progress_fold_eq]
  unfold transfer.bytes_done
  simp only [hp, List.foldl_nil, transfer.num_have, transfer.num_pieces, transfer.filesize]

/-- The function `bytes_done` as the accounting without peers plus the contributions of
the spec wording. -/
theorem transfer.bytes_done_split (BLOCK_SIZE : Nat) (block_bytes_wanted : piece_block → Int)
    (t : transfer) (st : transfer_status) (picker : piece_picker)
    (hp : t.m_picker = some picker) :
    t.bytes_done BLOCK_SIZE block_bytes_wanted st =
      { ({ t with m_connections := [] } : transfer).bytes_done BLOCK_SIZE block_bytes_wanted st with
        total_done :=
          (({ t with m_connections := [] } : transfer).bytes_done BLOCK_SIZE
            block_bytes_wanted st).total_done +
          spec_progress_done block_bytes_wanted picker t.m_connections
        total_wanted_done :=
          (({ t with m_connections := [] } : transfer).bytes_done BLOCK_SIZE
            block_bytes_wanted st).total_wanted_done +
          spec_progress_wanted_done block_bytes_wanted picker t.m_connections } := by
  have hinv := progress_inv_fold (spec_reports picker t.m_connections)
  have e1 := progress_sum_eq (fun b v => min (block_bytes_wanted b) v) _ _ hinv
  have e2 := progress_sum_eq
    (fun b v => if picker.piece_priority b.piece_index ≠ 0 then min (block_bytes_wanted b) v
      else 0) _ _ hinv
  simp only at e1 e2
  rw [transfer.bytes_done_eq_fold BLOCK_SIZE block_bytes_wanted t st picker hp,
    transfer.progress_sum_fold, e1, e2]
  rfl

/-- C17: for a transfer with a picker, the live progress reports of the attached peers
add to `total_done` exactly the sum, over the distinct blocks reported by some peer (not
in an owned piece, not already finished), of the smaller of `block_bytes_wanted` of the
block and the largest byte count reported for it. The whole result of `bytes_done`
depends only on the set of reports: it is the same for any reordering of the peers and
for any other peer list that yields the same set of reports, however many peers repeat
a report. -/
theorem bytes_done_progress_reports (BLOCK_SIZE : Nat)
    (block_bytes_wanted : piece_block → Int) (t : transfer) (st : transfer_status)
    (picker : piece_picker) (hp : t.m_picker = some picker) :
    (t.bytes_done BLOCK_SIZE block_bytes_wanted st).total_done =
      (({ t with m_connections := [] } : transfer).bytes_done BLOCK_SIZE
        block_bytes_wanted st).total_done +
      spec_progress_done block_bytes_wanted picker t.m_connections ∧
    (∀ conns : List peer_connection,
      (spec_reports picker conns).toFinset = (spec_reports picker t.m_connections).toFinset →
      ({ t with m_connections := conns } : transfer).bytes_done BLOCK_SIZE block_bytes_wanted st
        = t.bytes_done BLOCK_SIZE block_bytes_wanted st) ∧
    (∀ conns : List peer_connection, conns.Perm t.m_connections →
      ({ t with m_connections := conns } : transfer).bytes_done BLOCK_SIZE block_bytes_wanted st
        = t.bytes_done BLOCK_SIZE block_bytes_wanted st) := by
  have hset : ∀ conns : List peer_connection,
      (spec_reports picker conns).toFinset = (spec_reports picker t.m_connections).toFinset →
      ({ t with m_connections := conns } : transfer).bytes_done BLOCK_SIZE block_bytes_wanted st
        = t.bytes_done BLOCK_SIZE block_bytes_wanted st := by
    intro conns hc
    rw [transfer.bytes_done_split BLOCK_SIZE block_bytes_wanted t st picker hp,
      transfer.bytes_done_split BLOCK_SIZE block_bytes_wanted
        { t with m_connections := conns } st picker hp]
    have hk := spec_keys_congr _ _ hc
    have h1 : spec_progress_done block_bytes_wanted picker conns =
        spec_progress_done block_bytes_wanted picker t.m_connections := by
      unfold spec_progress_done
      rw [hk]
      apply Finset.sum_congr rfl
      intro b hb
      rw [← hk, List.mem_toFinset] at hb
      rw [spec_max_bytes_congr _ _ hc b hb]
    have h2 : spec_progress_wanted_done block_bytes_wanted picker conns =
        spec_progress_wanted_done block_bytes_wanted picker t.m_connections := by
      unfold spec_progress_wanted_done
      rw [hk]
      apply Finset.sum_congr rfl
      intro b hb
      rw [← hk, List.mem_toFinset] at hb
      rw [spec_max_bytes_congr _ _ hc b hb]
    simp only [h1, h2]
  refine ⟨?_, hset, ?_⟩
  · rw [transfer.bytes_done_split BLOCK_SIZE block_bytes_wanted t st picker hp]
  · intro conns hperm
    apply hset
    apply List.toFinset_eq_of_perm
    exact List.Perm.filterMap _ hperm

theorem bytes_done_progress_reports_witness :
    (example_progress_transfer.bytes_done 194560 (fun _ => 194560) {}).total_done =
      (({ example_progress_transfer with m_connections := [] } : transfer).bytes_done 194560
        (fun _ => 194560) {}).total_done +
      spec_progress_done (fun _ => 194560) { example_picker2 with m_downloads := [] }
        example_progress_transfer.m_connections ∧
    (example_progress_transfer.bytes_done 194560 (fun _ => 194560) {}).total_done
      = 5000 + 194560 ∧
    (({ example_progress_transfer with m_connections := [] } : transfer).bytes_done 194560
        (fun _ => 194560) {}).total_done = 0 :=
  ⟨(bytes_done_progress_reports 194560 (fun _ => 194560) example_progress_transfer {}
      { example_picker2 with m_downloads := [] } rfl).1, by decide, by decide⟩

/-! ## Lemmas about one connection attempt -/

theorem policy.first_candidate_modify (id : Nat) (l : List peer)
    (h : 0 < l.countP (fun x => x.connection.isNone)) :
    ∃ i, policy.first_candidate l = some i ∧
      (((l.modify (fun x => { x with connection := some id }) i)[i]?).bind
        (fun x => x.connection)).isSome = true ∧
      (l.modify (fun x => { x with connection := some id }) i).countP
        (fun x => x.connection.isNone) + 1 = l.countP (fun x => x.connection.isNone) := by
  induction l with
  | nil => simp at h
  | cons x rest ih =>
    by_cases hx : x.connection.isNone = true
    · refine ⟨0, by simp [policy.first_candidate, hx], by simp, ?_⟩
      simp [List.countP_cons, hx]
    · have h2 : 0 < rest.countP (fun x => x.connection.isNone) := by
        simpa [List.countP_cons, hx] using h
      obtain ⟨i, h1, h3, h4⟩ := ih h2
      refine ⟨i + 1, by simp [policy.first_candidate, hx, h1], ?_, ?_⟩
      · simpa using h3
      · simpa [List.countP_cons, hx] using h4

theorem transfer.connect_to_peer_session (b : Bool) (t : transfer) (s : session_impl)
    (i : Nat) :
    ∃ cs q d, (t.connect_to_peer b s i).2.2 =
      { s with m_connections := cs, m_half_open := { s.m_half_open with m_queue := q }, m_disconnects := d } := by
  cases b
  · exact ⟨_, _, _, rfl⟩
  · exact ⟨_, _, _, rfl⟩

theorem transfer.try_connect_peer_session (fate : connect_fate) (t : transfer)
    (s : session_impl) :
    ∃ cs q d, (t.try_connect_peer fate s).2.2 =
      { s with m_connections := cs, m_half_open := { s.m_half_open with m_queue := q }, m_disconnects := d } := by
  have key : ∀ b, ∃ cs q d, (t.connect_one_peer b s).2.2 =
      { s with m_connections := cs, m_half_open := { s.m_half_open with m_queue := q }, m_disconnects := d } := by
    intro b
    unfold transfer.connect_one_peer
    cases policy.first_candidate t.m_policy.m_peers with
    | none => exact ⟨_, _, _, rfl⟩
    | some i => exact transfer.connect_to_peer_session b t s i
  cases fate with
  | bad_alloc => exact ⟨_, _, _, rfl⟩
  | no_peer => exact ⟨_, _, _, rfl⟩
  | proceed => exact key false
  | enqueue_throws => exact key true

theorem transfer.try_connect_peer_proceed (t : transfer) (s : session_impl)
    (h : 0 < t.m_policy.num_connect_candidates) :
    ∃ p : policy, p.num_connect_candidates + 1 = t.m_policy.num_connect_candidates ∧
      t.try_connect_peer connect_fate.proceed s =
        (try_result.connected,
          { t with m_connections := t.m_connections ++ [{ m_id := s.fresh_connection_id, m_connecting := true }], m_policy := p },
          { s with m_connections := s.m_connections ++ [s.fresh_connection_id], m_half_open := s.m_half_open.enqueue s.fresh_connection_id }) := by
  obtain ⟨i, h1, h2, h3⟩ :=
    policy.first_candidate_modify s.fresh_connection_id t.m_policy.m_peers h
  refine ⟨t.m_policy.set_connection i { m_id := s.fresh_connection_id, m_connecting := true }, h3, ?_⟩
  simp only [transfer.try_connect_peer, transfer.connect_one_peer, h1,
    transfer.connect_to_peer, policy.set_connection, h2]
  rfl

/-! ## Lemmas about the loop of `connect_new_peers` -/

theorem transfer_map.keys_store (m : transfer_map) (k : md4_hash) (t : transfer) :
    transfer_map.keys (transfer_map.store m k t) = transfer_map.keys m := by
  induction m with
  | nil => rfl
  | cons e rest ih =>
    simp only [transfer_map.keys, transfer_map.store, List.map_cons] at ih ⊢
    rw [ih]
    by_cases h : e.1 = k <;> simp [h]

theorem transfer_map.find_of_mem_keys {m : transfer_map} {k : md4_hash}
    (h : k ∈ transfer_map.keys m) : ∃ t, transfer_map.find m k = some t := by
  obtain ⟨e, he, hek⟩ := List.mem_map.mp h
  cases hf : m.find? (fun e => e.1 == k) with
  | none =>
    rw [List.find?_eq_none] at hf
    exact absurd (by simpa using hek) (hf e he)
  | some x => exact ⟨x.2, by simp [transfer_map.find, hf]⟩

theorem transfer_map.next_mem_keys {m : transfer_map} {k c : md4_hash}
    (h : transfer_map.next m k = some c) : c ∈ transfer_map.keys m := by
  induction m with
  | nil => simp [transfer_map.next] at h
  | cons e rest ih =>
    obtain ⟨k1, t1⟩ := e
    simp only [transfer_map.next] at h
    by_cases hk : k1 = k
    · simp only [hk, if_true] at h
      have := transfer_map.begin_mem_keys h
      simp only [transfer_map.keys, List.map_cons, List.mem_cons] at this ⊢
      exact Or.inr this
    · simp only [hk, if_false] at h
      have := ih h
      simp only [transfer_map.keys, List.map_cons, List.mem_cons] at this ⊢
      exact Or.inr this

/-- Stepping the cursor of a non-empty map always yields a cursor that points at a
transfer of the map. -/
theorem cyclic_iterator.advance_valid (c : cyclic_iterator) {m : transfer_map}
    (hm : m ≠ []) : ∃ k ∈ transfer_map.keys m, (c.advance m).m_current = some k := by
  have hbegin : ∃ k ∈ transfer_map.keys m, transfer_map.begin m = some k := by
    cases m with
    | nil => exact absurd rfl hm
    | cons e rest => exact ⟨e.1, by simp [transfer_map.keys], by simp [transfer_map.begin]⟩
  unfold cyclic_iterator.advance cyclic_iterator.inc
  cases hc : c.m_current with
  | none => simpa [cyclic_iterator.validate, hc] using hbegin
  | some k0 =>
    cases hn : transfer_map.next m k0 with
    | none => simpa [cyclic_iterator.validate, hn] using hbegin
    | some k1 =>
      exact ⟨k1, transfer_map.next_mem_keys hn, by simp [cyclic_iterator.validate, hn]⟩

/-- What the first half of the loop body does to the loop variables, whatever the
environment decides. -/
theorem session_impl.connect_try_spec (k : md4_hash) (t : transfer) (l : connect_loop) :
    ∃ (a : Option try_result) (m : transfer_map) (cs : List Nat) (q : List Nat)
      (d : List (Nat × error_code)) (mc : Int),
      session_impl.connect_try k t l =
        { ses := { l.ses with m_transfers := m, m_connections := cs, m_half_open := { l.ses.m_half_open with m_queue := q }, m_disconnects := d, m_max_connections := mc }
          max_connections_per_second := if a = some try_result.connected then l.max_connections_per_second - 1 else l.max_connections_per_second
          free_slots := if a = some try_result.connected then l.free_slots - 1 else l.free_slots
          steps_since_last_connect := if a = some try_result.connected then 0 else l.steps_since_last_connect
          fates := if a = none then l.fates else l.fates.tail
          steps := l.steps ++ [⟨k, t.want_more_connections l.ses, a⟩] } ∧
      transfer_map.keys m = transfer_map.keys l.ses.m_transfers ∧
      (a ≠ none → t.want_more_connections l.ses = true) := by
  unfold session_impl.connect_try
  by_cases hw : t.want_more_connections l.ses = true
  · simp only [hw, if_true]
    obtain ⟨cs, q, d, hs⟩ :=
      transfer.try_connect_peer_session (l.fates.headD connect_fate.proceed) t l.ses
    generalize t.try_connect_peer (l.fates.headD connect_fate.proceed) l.ses = r at hs
    obtain ⟨res, t1, s1⟩ := r
    simp only at hs
    subst hs
    cases res with
    | connected =>
      exact ⟨some try_result.connected, _, _, _, _, _, rfl,
        transfer_map.keys_store _ _ _, fun _ => trivial⟩
    | not_connected =>
      exact ⟨some try_result.not_connected, _, _, _, _, _, rfl,
        transfer_map.keys_store _ _ _, fun _ => trivial⟩
    | threw_bad_alloc =>
      exact ⟨some try_result.threw_bad_alloc, _, _, _, _, _, rfl,
        transfer_map.keys_store _ _ _, fun _ => trivial⟩
  · simp only [hw]
    exact ⟨none, _, _, _, _, _, rfl, rfl, fun h => absurd rfl h⟩

/-- One iteration of the loop from a cursor that points at a transfer of the map: the
iteration is made, it adds one step to the trace, a success costs one unit of both
budgets, and the cursor points at a transfer of the map again. -/
theorem session_impl.connect_body_spec (N : Int) (l : connect_loop)
    (hv : ∃ k ∈ transfer_map.keys l.ses.m_transfers,
      l.ses.m_next_connect_transfer.m_current = some k) :
    ∃ (k : md4_hash) (t : transfer) (a : Option try_result) (l2 : connect_loop),
      l.ses.m_next_connect_transfer.m_current = some k ∧
      transfer_map.find l.ses.m_transfers k = some t ∧
      session_impl.connect_body N l =
        some (l2,
          decide (l2.steps_since_last_connect > N * 2) ||
          decide (l2.free_slots ≤ - l.ses.m_half_open.limit) ||
          decide (l2.max_connections_per_second = 0) ||
          decide (l2.ses.num_connections ≥ l2.ses.m_max_connections)) ∧
      l2.steps = l.steps ++ [⟨k, t.want_more_connections l.ses, a⟩] ∧
      (a ≠ none → t.want_more_connections l.ses = true) ∧
      l2.max_connections_per_second =
        (if a = some try_result.connected then l.max_connections_per_second - 1
         else l.max_connections_per_second) ∧
      l2.free_slots =
        (if a = some try_result.connected then l.free_slots - 1 else l.free_slots) ∧
      l2.steps_since_last_connect =
        (if a = some try_result.connected then 1 else l.steps_since_last_connect + 1) ∧
      l2.fates = (if a = none then l.fates else l.fates.tail) ∧
      transfer_map.keys l2.ses.m_transfers = transfer_map.keys l.ses.m_transfers ∧
      l2.ses.m_half_open.limit = l.ses.m_half_open.limit ∧
      l2.ses.m_abort = l.ses.m_abort ∧
      (∃ k2 ∈ transfer_map.keys l2.ses.m_transfers,
        l2.ses.m_next_connect_transfer.m_current = some k2) := by
  obtain ⟨k, hk, hc⟩ := hv
  obtain ⟨t, ht⟩ := transfer_map.find_of_mem_keys hk
  obtain ⟨a, m, cs, q, d, mc, hshape, hkeys, hw⟩ := session_impl.connect_try_spec k t l
  have hm : m ≠ [] := by
    intro h0
    rw [← hkeys, h0] at hk
    simp [transfer_map.keys] at hk
  refine ⟨k, t, a, session_impl.connect_advance (session_impl.connect_try k t l), hc, ht,
    ?_, ?_, hw, ?_, ?_, ?_, ?_, ?_, ?_, ?_, ?_⟩
  · simp only [session_impl.connect_body, hc, ht]
    rw [hshape]
    rfl
  · rw [hshape]; rfl
  · rw [hshape]; rfl
  · rw [hshape]; rfl
  · rw [hshape]
    simp only [session_impl.connect_advance]
    split <;> simp
  · rw [hshape]; rfl
  · rw [hshape]; exact hkeys
  · rw [hshape]; rfl
  · rw [hshape]; rfl
  · rw [hshape]
    exact cyclic_iterator.advance_valid _ hm

/-- The invariant principle of the loop: a property of the loop variables that holds on
entry and is kept by every iteration that does not break yields, at the `break`, what
the breaking iteration establishes. -/
theorem session_impl.connect_loop_run_induct (N : Int) (I Post : connect_loop → Prop)
    (hstep : ∀ l l2 brk, I l → session_impl.connect_body N l = some (l2, brk) →
      (brk = false → I l2) ∧ (brk = true → Post l2)) :
    ∀ (fuel : Nat) (l l3 : connect_loop), I l →
      session_impl.connect_loop_run N fuel l = connect_outcome.returned l3 → Post l3 := by
  intro fuel
  induction fuel with
  | zero =>
    intro l l3 _ h
    simp [session_impl.connect_loop_run] at h
  | succ n ih =>
    intro l l3 hI h
    unfold session_impl.connect_loop_run at h
    cases hb : session_impl.connect_body N l with
    | none => simp [hb] at h
    | some r =>
      obtain ⟨l2, brk⟩ := r
      cases brk with
      | true =>
        simp only [hb, connect_outcome.returned.injEq] at h
        subst h
        exact (hstep l l2 true hI hb).2 rfl
      | false =>
        simp only [hb] at h
        exact ih l2 l3 ((hstep l l2 false hI hb).1 rfl) h

/-- The loop returns: with a cursor that points at a transfer of the map, a budget of
`b >= 1` connections and `c <= 2 * n` steps since the last one, `b * (2 * n + 2)` units
of fuel and a few more are enough. -/
theorem session_impl.connect_loop_run_returns (n : Nat) :
    ∀ (fuel : Nat) (l : connect_loop) (b c : Nat),
      l.max_connections_per_second = (b : Int) → l.steps_since_last_connect = (c : Int) →
      1 ≤ b → c ≤ 2 * n → b * (2 * n + 2) + (2 * n + 1 - c) < fuel →
      (∃ k ∈ transfer_map.keys l.ses.m_transfers,
        l.ses.m_next_connect_transfer.m_current = some k) →
      ∃ l3, session_impl.connect_loop_run (n : Int) fuel l = connect_outcome.returned l3 := by
  intro fuel
  induction fuel with
  | zero =>
    intro l b c _ _ _ _ h
    omega
  | succ f ih =>
    intro l b c hb hc hb1 hc2 hfuel hv
    obtain ⟨k, t, a, l2, _, _, hbody, _, _, hmax, _, hsince, _, _, _, _, hv2⟩ :=
      session_impl.connect_body_spec (n : Int) l hv
    unfold session_impl.connect_loop_run
    rw [hbody]
    generalize hbrk : (decide (l2.steps_since_last_connect > (n : Int) * 2) ||
          decide (l2.free_slots ≤ - l.ses.m_half_open.limit) ||
          decide (l2.max_connections_per_second = 0) ||
          decide (l2.ses.num_connections ≥ l2.ses.m_max_connections)) = brk
    cases brk with
    | true => exact ⟨l2, rfl⟩
    | false =>
      simp only [Bool.or_eq_false_iff, decide_eq_false_iff_not] at hbrk
      obtain ⟨⟨⟨h1, _⟩, h3⟩, _⟩ := hbrk
      show ∃ l3, session_impl.connect_loop_run (n : Int) f l2 = connect_outcome.returned l3
      by_cases ha : a = some try_result.connected
      · rw [if_pos ha] at hmax hsince
        obtain ⟨b1, rfl⟩ : ∃ b1, b = b1 + 1 := ⟨b - 1, by omega⟩
        have hexp : (b1 + 1) * (2 * n + 2) = b1 * (2 * n + 2) + (2 * n + 2) := by ring
        refine ih l2 b1 1 (by rw [hmax, hb]; push_cast; ring) (by rw [hsince]; rfl) ?_ ?_ ?_ hv2
        · rw [hmax, hb] at h3
          push_cast at h3
          omega
        · rw [hsince] at h1
          omega
        · omega
      · rw [if_neg ha] at hmax hsince
        refine ih l2 b (c + 1) (by rw [hmax, hb]) (by rw [hsince, hc]; push_cast; ring)
          hb1 ?_ ?_ hv2
        · rw [hsince, hc] at h1
          omega
        · rw [hsince, hc] at h1
          omega

theorem connect_successes_append (xs : List connect_step) (e : connect_step) :
    connect_successes (xs ++ [e]) =
      connect_successes xs + (if e.attempt = some try_result.connected then 1 else 0) := by
  unfold connect_successes
  rw [List.countP_append]
  by_cases h : e.attempt = some try_result.connected <;> simp [List.countP_cons, h]

/-- A loop body that runs was entered with a cursor that points at a transfer of the map. -/
theorem session_impl.connect_body_valid {N : Int} {l l2 : connect_loop} {brk : Bool}
    (h : session_impl.connect_body N l = some (l2, brk)) :
    ∃ k ∈ transfer_map.keys l.ses.m_transfers,
      l.ses.m_next_connect_transfer.m_current = some k := by
  unfold session_impl.connect_body at h
  cases hc : l.ses.m_next_connect_transfer.m_current with
  | none => simp [hc] at h
  | some k =>
    cases hf : transfer_map.find l.ses.m_transfers k with
    | none => simp [hc, hf] at h
    | some t =>
      have := transfer_map.find_some_mem hf
      exact ⟨k, List.mem_map.mpr ⟨(k, t), this, rfl⟩, rfl⟩

/-- The budgets of one invocation of `connect_new_peers`, whatever the environment
decides: the invocation returns, the per-tick budget and the local count of free slots
have lost one unit per success, `try_connect_peer` was called on wanting transfers only,
the per-tick budget is not overdrawn, and the free slots stay within the half-open limit
below zero. -/
theorem session_impl.connect_new_peers_budget (fates : List connect_fate) (s : session_impl)
    (hcur : ∀ k, s.m_next_connect_transfer.m_current = some k →
      k ∈ transfer_map.keys s.m_transfers) :
    ∃ l, s.connect_new_peers fates = connect_outcome.returned l ∧
      l.max_connections_per_second = 10 - (connect_successes l.steps : Int) ∧
      l.free_slots = s.m_half_open.free_slots - (connect_successes l.steps : Int) ∧
      (∀ e ∈ l.steps, e.attempt ≠ none → e.wanted = true) ∧
      0 ≤ l.max_connections_per_second ∧
      (s.m_half_open.free_slots ≤ - s.m_half_open.limit → l.steps = []) ∧
      (- s.m_half_open.limit < s.m_half_open.free_slots →
        - s.m_half_open.limit ≤ l.free_slots) := by
  unfold session_impl.connect_new_peers
  simp only
  split
  · rename_i hguard
    simp only [Bool.and_eq_true, Bool.not_eq_true', decide_eq_true_eq, gt_iff_lt] at hguard
    obtain ⟨⟨⟨hne, hfree⟩, _⟩, _⟩ := hguard
    have hm : s.m_transfers ≠ [] := by
      intro h0
      simp [h0] at hne
    have hv : ∃ k ∈ transfer_map.keys s.m_transfers,
        (s.m_next_connect_transfer.validate s.m_transfers).m_current = some k := by
      unfold cyclic_iterator.validate
      cases hc : s.m_next_connect_transfer.m_current with
      | none =>
        cases hs : s.m_transfers with
        | nil => exact absurd hs hm
        | cons e rest => exact ⟨e.1, by simp [transfer_map.keys], by simp [transfer_map.begin]⟩
      | some k => exact ⟨k, hcur k hc, by simp [hc]⟩
    obtain ⟨l3, hl3⟩ := session_impl.connect_loop_run_returns s.m_transfers.length
      (11 * (2 * s.m_transfers.length + 2))
      { ses := { s with m_next_connect_transfer := s.m_next_connect_transfer.validate s.m_transfers }
        max_connections_per_second := 10
        free_slots := s.m_half_open.free_slots
        steps_since_last_connect := 0
        fates := fates
        steps := [] }
      10 0 rfl rfl (by omega) (by omega) (by omega) hv
    refine ⟨l3, hl3, ?_⟩
    have key := session_impl.connect_loop_run_induct (s.m_transfers.length : Int)
      (fun l => l.ses.m_half_open.limit = s.m_half_open.limit ∧
        l.max_connections_per_second = 10 - (connect_successes l.steps : Int) ∧
        l.free_slots = s.m_half_open.free_slots - (connect_successes l.steps : Int) ∧
        (∀ e ∈ l.steps, e.attempt ≠ none → e.wanted = true) ∧
        1 ≤ l.max_connections_per_second ∧ - s.m_half_open.limit < l.free_slots)
      (fun l => l.max_connections_per_second = 10 - (connect_successes l.steps : Int) ∧
        l.free_slots = s.m_half_open.free_slots - (connect_successes l.steps : Int) ∧
        (∀ e ∈ l.steps, e.attempt ≠ none → e.wanted = true) ∧
        0 ≤ l.max_connections_per_second ∧ - s.m_half_open.limit ≤ l.free_slots)
      ?_ _ _ l3 ?_ hl3
    · obtain ⟨h1, h2, h3, h4, h5⟩ := key
      exact ⟨h1, h2, h3, h4, fun h => absurd hfree (not_lt.mpr h), fun _ => h5⟩
    · intro l l2 brk hI hbody
      obtain ⟨hlim, hmax, hfr, hwant, hpos, hfpos⟩ := hI
      obtain ⟨k, t, a, l2', _, _, hbody', hsteps, hw, hmax2, hfree2, _, _, _, hlim2, _, _⟩ :=
        session_impl.connect_body_spec _ l (session_impl.connect_body_valid hbody)
      rw [hbody'] at hbody
      simp only [Option.some.injEq, Prod.mk.injEq] at hbody
      obtain ⟨rfl, hbrk⟩ := hbody
      have hsucc := connect_successes_append l.steps
        ⟨k, t.want_more_connections l.ses, a⟩
      have hwant2 : ∀ e ∈ l2'.steps, e.attempt ≠ none → e.wanted = true := by
        intro e he
        rw [hsteps, List.mem_append] at he
        rcases he with he | he
        · exact hwant e he
        · simp only [List.mem_singleton] at he
          subst he
          exact hw
      have hmax3 : l2'.max_connections_per_second = 10 - (connect_successes l2'.steps : Int) := by
        rw [hsteps, hsucc, hmax2, hmax]
        by_cases ha : a = some try_result.connected
        · simp only [ha, if_true]
          push_cast
          ring
        · simp [ha]
      have hfree3 : l2'.free_slots =
          s.m_half_open.free_slots - (connect_successes l2'.steps : Int) := by
        rw [hsteps, hsucc, hfree2, hfr]
        by_cases ha : a = some try_result.connected
        · simp only [ha, if_true]
          push_cast
          ring
        · simp [ha]
      have hpos2 : 0 ≤ l2'.max_connections_per_second := by
        rw [hmax2]
        split <;> omega
      have hfpos2 : - s.m_half_open.limit ≤ l2'.free_slots := by
        rw [hfree2]
        split <;> omega
      constructor
      · intro hb
        rw [hb] at hbrk
        simp only [Bool.or_eq_false_iff, decide_eq_false_iff_not] at hbrk
        obtain ⟨⟨⟨_, h2⟩, h3⟩, _⟩ := hbrk
        rw [hlim] at h2
        exact ⟨by rw [hlim2, hlim], hmax3, hfree3, hwant2, by omega, by omega⟩
      · intro _
        exact ⟨hmax3, hfree3, hwant2, hpos2, hfpos2⟩
    · exact ⟨rfl, by simp [connect_successes], by simp [connect_successes],
        by simp, by simp, hfree⟩
  · rename_i hguard
    refine ⟨_, rfl, by simp [connect_successes], by simp [connect_successes], by simp,
      by simp, fun _ => rfl, fun h => le_of_lt h⟩

/-! ## Lemmas about the order in which the cursor visits the transfers -/

theorem transfer_map.ok_iff_keys (m : transfer_map) :
    transfer_map.ok m ↔ (transfer_map.keys m).Pairwise (fun a b => a < b) := by
  unfold transfer_map.ok transfer_map.keys
  rw [List.pairwise_map]

theorem transfer_map.keys_nodup {m : transfer_map} (hok : transfer_map.ok m) :
    (transfer_map.keys m).Nodup := by
  rw [transfer_map.ok_iff_keys] at hok
  exact hok.imp (fun h => Nat.ne_of_lt h)

theorem transfer_map.store_ok {m : transfer_map} (hok : transfer_map.ok m) (k : md4_hash)
    (t : transfer) : transfer_map.ok (transfer_map.store m k t) := by
  rw [transfer_map.ok_iff_keys, transfer_map.keys_store]
  exact (transfer_map.ok_iff_keys m).mp hok

theorem transfer_map.mem_store {m : transfer_map} {k : md4_hash} {t : transfer}
    {e : md4_hash × transfer} (h : e ∈ transfer_map.store m k t) :
    e ∈ m ∨ (e.2 = t ∧ e.1 = k) := by
  unfold transfer_map.store at h
  obtain ⟨x, hx, rfl⟩ := List.mem_map.mp h
  by_cases hk : x.1 = k
  · right
    simp [hk]
  · left
    simpa [hk] using hx

/-- In a well-formed map the node after the one at position `q` is the one at position
`q + 1`, and `end()` after the last one. -/
theorem transfer_map.next_at {m : transfer_map} (hok : transfer_map.ok m) :
    ∀ (q : Nat) (k : md4_hash), (transfer_map.keys m)[q]? = some k →
      transfer_map.next m k = (transfer_map.keys m)[q + 1]? := by
  induction m with
  | nil =>
    intro q k h
    simp [transfer_map.keys] at h
  | cons e rest ih =>
    obtain ⟨k1, t1⟩ := e
    unfold transfer_map.ok at hok
    rw [List.pairwise_cons] at hok
    intro q k h
    cases q with
    | zero =>
      simp only [transfer_map.keys, List.map_cons, List.getElem?_cons_zero,
        Option.some.injEq] at h
      subst h
      simp only [transfer_map.next, if_true, transfer_map.keys, List.map_cons,
        List.getElem?_cons_succ, transfer_map.begin]
      cases rest <;> simp
    | succ q1 =>
      simp only [transfer_map.keys, List.map_cons, List.getElem?_cons_succ] at h
      have hmem : k ∈ rest.map Prod.fst := List.getElem?_mem h
      obtain ⟨x, hx, hxk⟩ := List.mem_map.mp hmem
      have hlt : k1 < k := by
        have := hok.1 x hx
        rw [← hxk]
        exact this
      have hne : k1 ≠ k := Nat.ne_of_lt hlt
      simp only [transfer_map.next, hne, if_false, transfer_map.keys, List.map_cons,
        List.getElem?_cons_succ]
      exact ih hok.2 q1 k h

/-- Stepping the cursor from the transfer at position `q` of a well-formed map leaves it
at position `(q + 1) % n`. -/
theorem cyclic_iterator.advance_at {m : transfer_map} (hok : transfer_map.ok m)
    (q : Nat) (k : md4_hash) (h : (transfer_map.keys m)[q]? = some k) :
    (({ m_current := some k } : cyclic_iterator).advance m).m_current =
      (transfer_map.keys m)[(q + 1) % (transfer_map.keys m).length]? := by
  have hq : q < (transfer_map.keys m).length := by
    by_contra hge
    rw [List.getElem?_eq_none (by omega)] at h
    exact absurd h (by simp)
  have hn := transfer_map.next_at hok q k h
  unfold cyclic_iterator.advance cyclic_iterator.inc
  simp only [hn]
  by_cases hlast : q + 1 < (transfer_map.keys m).length
  · rw [Nat.mod_eq_of_lt hlast]
    obtain ⟨x, hx⟩ : ∃ x, (transfer_map.keys m)[q + 1]? = some x :=
      ⟨_, List.getElem?_eq_getElem hlast⟩
    simp [cyclic_iterator.validate, hx]
  · have heq : q + 1 = (transfer_map.keys m).length := by omega
    rw [heq, Nat.mod_self, List.getElem?_eq_none (le_refl _)]
    simp only [cyclic_iterator.validate, transfer_map.begin]
    cases m with
    | nil => rfl
    | cons e rest => simp [transfer_map.keys]

/-- One iteration of the loop at a transfer that wants connections, when nothing fails:
the attempt succeeds, costs one unit of both budgets and one connect candidate of the
transfer, adds one connection to the session, and the cursor moves on. -/
theorem session_impl.connect_body_proceed (N : Int) (l : connect_loop) (k : md4_hash)
    (t : transfer) (hc : l.ses.m_next_connect_transfer.m_current = some k)
    (hf : transfer_map.find l.ses.m_transfers k = some t) (hp : l.ses.m_paused = false)
    (ht : t.eager 1) (hfate : l.fates.headD connect_fate.proceed = connect_fate.proceed) :
    ∃ (p : policy) (cs : List peer_connection),
      p.num_connect_candidates + 1 = t.m_policy.num_connect_candidates ∧
      session_impl.connect_body N l =
        some (
          { ses := { l.ses with m_transfers := transfer_map.store l.ses.m_transfers k { t with m_connections := cs, m_policy := p }, m_connections := l.ses.m_connections ++ [l.ses.fresh_connection_id], m_half_open := l.ses.m_half_open.enqueue l.ses.fresh_connection_id, m_next_connect_transfer := ({ m_current := some k } : cyclic_iterator).advance (transfer_map.store l.ses.m_transfers k { t with m_connections := cs, m_policy := p }) }
            max_connections_per_second := l.max_connections_per_second - 1
            free_slots := l.free_slots - 1
            steps_since_last_connect := 1
            fates := l.fates.tail
            steps := l.steps ++ [⟨k, true, some try_result.connected⟩] },
          decide ((1 : Int) > N * 2) ||
          decide (l.free_slots - 1 ≤ - l.ses.m_half_open.limit) ||
          decide (l.max_connections_per_second - 1 = 0) ||
          decide (l.ses.num_connections + 1 ≥ l.ses.m_max_connections)) := by
  obtain ⟨ha, hpa, hseed, hcand⟩ := ht
  obtain ⟨p, hp1, hp2⟩ := transfer.try_connect_peer_proceed t l.ses (by omega)
  have hw : t.want_more_connections l.ses = true := by
    simp only [transfer.want_more_connections, transfer.is_paused, session_impl.is_paused,
      ha, hpa, hp, hseed]
    simpa using hcand
  refine ⟨p, t.m_connections ++ [{ m_id := l.ses.fresh_connection_id, m_connecting := true }], hp1, ?_⟩
  simp only [session_impl.connect_body, hc, hf, session_impl.connect_try, hw, if_true, hfate,
    hp2, session_impl.connect_advance]
  have hcur : l.ses.m_next_connect_transfer = { m_current := some k } := by
    rw [← hc]
  simp [session_impl.num_connections, connection_queue.limit, connection_queue.enqueue, hcur]

theorem spec_round_robin_succ (keys : List md4_hash) (i0 j : Nat) :
    spec_round_robin keys i0 (j + 1) =
      spec_round_robin keys i0 j ++
        [⟨keys.getD ((i0 + j) % keys.length) 0, true, some try_result.connected⟩] := by
  simp [spec_round_robin, List.range_succ]

theorem transfer.eager_mono {t : transfer} {c d : Nat} (h : t.eager c) (hd : d ≤ c) :
    t.eager d :=
  ⟨h.1, h.2.1, h.2.2.1, le_trans hd h.2.2.2⟩

/-- One invocation of `connect_new_peers` on a session in which `c + 10` attempts can be
handed out without meeting a limit, when nothing fails: ten attempts are handed out in
cyclic map order from the cursor, the cursor is left ten positions further, and `c`
attempts can still be handed out. -/
theorem session_impl.connect_new_peers_round (c : Nat) (fates : List connect_fate)
    (s : session_impl) (i0 : Nat) (hready : s.all_eager (c + 10)) (hne : s.m_transfers ≠ [])
    (hfates : ∀ f ∈ fates, f = connect_fate.proceed)
    (hcur : (s.m_next_connect_transfer.validate s.m_transfers).m_current =
      (transfer_map.keys s.m_transfers)[i0 % (transfer_map.keys s.m_transfers).length]?) :
    ∃ l, s.connect_new_peers fates = connect_outcome.returned l ∧
      l.steps = spec_round_robin (transfer_map.keys s.m_transfers) i0 10 ∧
      l.ses.m_next_connect_transfer.m_current =
        (transfer_map.keys s.m_transfers)[(i0 + 10) % (transfer_map.keys s.m_transfers).length]? ∧
      transfer_map.keys l.ses.m_transfers = transfer_map.keys s.m_transfers ∧
      l.ses.all_eager c ∧ (∀ f ∈ l.fates, f = connect_fate.proceed) := by
  obtain ⟨hok, hpaused, habort, hlimit, hcap, heager⟩ := hready
  have hlen : (transfer_map.keys s.m_transfers).length = s.m_transfers.length := by
    simp [transfer_map.keys]
  have hn : 0 < (transfer_map.keys s.m_transfers).length := by
    rw [hlen]
    exact List.length_pos.mpr hne
  have hfree : s.m_half_open.free_slots = 2147483647 := by
    simp only [connection_queue.limit] at hlimit
    simp [connection_queue.free_slots, hlimit]
  have hguard : (!s.m_transfers.isEmpty &&
      decide (s.m_half_open.free_slots > - s.m_half_open.limit) &&
      decide (s.num_connections < s.m_max_connections) && !s.m_abort) = true := by
    have h1 : s.m_transfers.isEmpty = false := by
      cases hs : s.m_transfers with
      | nil => exact absurd hs hne
      | cons e rest => rfl
    have h2 : s.num_connections < s.m_max_connections := by
      have : (0 : Int) ≤ (c : Int) := Int.natCast_nonneg c
      push_cast at hcap
      omega
    simp [h1, hfree, hlimit, h2, habort]
  unfold session_impl.connect_new_peers
  simp only [hguard, if_true]
  have hv : ∃ k ∈ transfer_map.keys s.m_transfers,
      (s.m_next_connect_transfer.validate s.m_transfers).m_current = some k := by
    have hlt := Nat.mod_lt i0 hn
    exact ⟨_, List.getElem_mem hlt, by rw [hcur, List.getElem?_eq_getElem hlt]⟩
  obtain ⟨l3, hl3⟩ := session_impl.connect_loop_run_returns s.m_transfers.length
    (11 * (2 * s.m_transfers.length + 2))
    { ses := { s with m_next_connect_transfer := s.m_next_connect_transfer.validate s.m_transfers }
      max_connections_per_second := 10
      free_slots := s.m_half_open.free_slots
      steps_since_last_connect := 0
      fates := fates
      steps := [] }
    10 0 rfl rfl (by omega) (by omega) (by omega) hv
  refine ⟨l3, hl3, ?_⟩
  have key := session_impl.connect_loop_run_induct (s.m_transfers.length : Int)
    (fun l => ∃ j, j < 10 ∧
      l.steps = spec_round_robin (transfer_map.keys s.m_transfers) i0 j ∧
      l.max_connections_per_second = 10 - (j : Int) ∧
      l.free_slots = 2147483647 - (j : Int) ∧
      l.ses.m_next_connect_transfer.m_current =
        (transfer_map.keys s.m_transfers)[(i0 + j) % (transfer_map.keys s.m_transfers).length]? ∧
      transfer_map.keys l.ses.m_transfers = transfer_map.keys s.m_transfers ∧
      transfer_map.ok l.ses.m_transfers ∧ l.ses.m_paused = false ∧ l.ses.m_abort = false ∧
      l.ses.m_half_open.limit = 0 ∧ l.ses.num_connections = s.num_connections + (j : Int) ∧
      l.ses.m_max_connections = s.m_max_connections ∧
      (∀ e ∈ l.ses.m_transfers, e.2.eager (c + 10 - j)) ∧
      (∀ f ∈ l.fates, f = connect_fate.proceed))
    (fun l =>
      l.steps = spec_round_robin (transfer_map.keys s.m_transfers) i0 10 ∧
      l.ses.m_next_connect_transfer.m_current =
        (transfer_map.keys s.m_transfers)[(i0 + 10) % (transfer_map.keys s.m_transfers).length]? ∧
      transfer_map.keys l.ses.m_transfers = transfer_map.keys s.m_transfers ∧
      l.ses.all_eager c ∧ (∀ f ∈ l.fates, f = connect_fate.proceed))
    ?_ _ _ l3 ?_ hl3
  · exact key
  · intro l l2 brk hI hbody
    obtain ⟨j, hj, hsteps, hmax, hfr, hc, hkeys, hok2, hp2, hab2, hlim2, hnum, hcap2, heag,
      hf2⟩ := hI
    have hq := Nat.mod_lt (i0 + j) hn
    rw [List.getElem?_eq_getElem hq] at hc
    have hkmem : (transfer_map.keys s.m_transfers)[(i0 + j) %
        (transfer_map.keys s.m_transfers).length] ∈ transfer_map.keys l.ses.m_transfers := by
      rw [hkeys]
      exact List.getElem_mem hq
    obtain ⟨t, ht⟩ := transfer_map.find_of_mem_keys hkmem
    have hte := heag _ (transfer_map.find_some_mem ht)
    have hhead : l.fates.headD connect_fate.proceed = connect_fate.proceed := by
      cases hfl : l.fates with
      | nil => rfl
      | cons f rest => exact hf2 f (by simp [hfl])
    obtain ⟨p, cs, hp1, hbody2⟩ := session_impl.connect_body_proceed
      (s.m_transfers.length : Int) l _ t hc ht hp2 (transfer.eager_mono hte (by omega)) hhead
    rw [hbody2] at hbody
    simp only [Option.some.injEq, Prod.mk.injEq] at hbody
    obtain ⟨hl2, hbrk⟩ := hbody
    have hkq : (transfer_map.keys l.ses.m_transfers)[(i0 + j) %
        (transfer_map.keys s.m_transfers).length]? =
        some (transfer_map.keys s.m_transfers)[(i0 + j) %
          (transfer_map.keys s.m_transfers).length] := by
      rw [hkeys, List.getElem?_eq_getElem hq]
    have hJ : l2.steps = spec_round_robin (transfer_map.keys s.m_transfers) i0 (j + 1) ∧
        l2.max_connections_per_second = 10 - ((j + 1 : Nat) : Int) ∧
        l2.free_slots = 2147483647 - ((j + 1 : Nat) : Int) ∧
        l2.ses.m_next_connect_transfer.m_current =
          (transfer_map.keys s.m_transfers)[(i0 + (j + 1)) %
            (transfer_map.keys s.m_transfers).length]? ∧
        transfer_map.keys l2.ses.m_transfers = transfer_map.keys s.m_transfers ∧
        transfer_map.ok l2.ses.m_transfers ∧ l2.ses.m_paused = false ∧
        l2.ses.m_abort = false ∧
        l2.ses.m_half_open.limit = 0 ∧
        l2.ses.num_connections = s.num_connections + ((j + 1 : Nat) : Int) ∧
        l2.ses.m_max_connections = s.m_max_connections ∧
        (∀ e ∈ l2.ses.m_transfers, e.2.eager (c + 10 - (j + 1))) ∧
        (∀ f ∈ l2.fates, f = connect_fate.proceed) := by
      subst hl2
      refine ⟨?_, ?_, ?_, ?_, ?_, ?_, hp2, hab2, hlim2, ?_, hcap2, ?_, ?_⟩
      · rw [spec_round_robin_succ, ← hsteps, List.getD_eq_getElem _ _ hq]
      · simp only [hmax]
        push_cast
        ring
      · simp only [hfr]
        push_cast
        ring
      · simp only
        rw [cyclic_iterator.advance_at (transfer_map.store_ok hok2 _ _) _ _
          (by rw [transfer_map.keys_store]; exact hkq), transfer_map.keys_store, hkeys,
          Nat.mod_add_mod, Nat.add_assoc]
      · simp only [transfer_map.keys_store, hkeys]
      · exact transfer_map.store_ok hok2 _ _
      · simp only [session_impl.num_connections, List.length_append, List.length_singleton] at hnum ⊢
        push_cast
        omega
      · intro e he
        rcases transfer_map.mem_store he with h1 | ⟨h1, _⟩
        · exact transfer.eager_mono (heag e h1) (by omega)
        · rw [h1]
          obtain ⟨a1, a2, a3, a4⟩ := hte
          have a5 : c + 10 - j ≤ t.m_policy.num_connect_candidates := a4
          refine ⟨a1, a2, a3, ?_⟩
          show c + 10 - (j + 1) ≤ p.num_connect_candidates
          omega
      · intro f hf
        exact hf2 f (List.mem_of_mem_tail hf)
    have hN : (1 : Int) ≤ (s.m_transfers.length : Int) := by
      rw [← hlen]
      exact_mod_cast hn
    simp only [connection_queue.limit] at hlim2
    constructor
    · intro hb
      rw [hb] at hbrk
      simp only [Bool.or_eq_false_iff, decide_eq_false_iff_not] at hbrk
      obtain ⟨⟨⟨_, _⟩, h3⟩, _⟩ := hbrk
      exact ⟨j + 1, by omega, hJ⟩
    · intro hb
      rw [hb] at hbrk
      have hj10 : j + 1 = 10 := by
        by_contra hne10
        have e1 : decide ((1 : Int) > (s.m_transfers.length : Int) * 2) = false := by
          simp only [decide_eq_false_iff_not]
          omega
        have e2 : decide (l.free_slots - 1 ≤ - l.ses.m_half_open.limit) = false := by
          simp only [decide_eq_false_iff_not, connection_queue.limit, hlim2]
          omega
        have e3 : decide (l.max_connections_per_second - 1 = 0) = false := by
          simp only [decide_eq_false_iff_not]
          omega
        have e4 : decide (l.ses.num_connections + 1 ≥ l.ses.m_max_connections) = false := by
          simp only [decide_eq_false_iff_not]
          push_cast at hcap
          omega
        rw [e1, e2, e3, e4] at hbrk
        exact absurd hbrk (by decide)
      obtain ⟨a1, _, _, a4, a5, a6, a7, a8, a9, a10, a11, a12, a13⟩ := hJ
      rw [hj10] at a1 a4 a10 a12
      refine ⟨a1, a4, a5, ⟨a6, a7, a8, a9, ?_, ?_⟩, a13⟩
      · rw [a10, a11]
        push_cast at hcap ⊢
        omega
      · intro e he
        exact transfer.eager_mono (a12 e he) (by omega)
  · refine ⟨0, by omega, rfl, rfl, ?_, ?_, rfl, hok, hpaused, habort, hlimit, ?_, rfl, ?_,
      hfates⟩
    · rw [hfree]
      rfl
    · exact hcur
    · simp [session_impl.num_connections]
    · intro e he
      exact heager e he

theorem exists_cyclic_position (n i a q : Nat) (hq : q < n) :
    ∃ c, a < c ∧ c ≤ a + n ∧ (i + c) % n = q := by
  have hn : 0 < n := by omega
  have hd := Nat.mod_lt (q + (n - (i + a + 1) % n)) hn
  have hr := Nat.mod_lt (i + a + 1) hn
  refine ⟨a + 1 + (q + (n - (i + a + 1) % n)) % n, by omega, by omega, ?_⟩
  have e1 : i + (a + 1 + (q + (n - (i + a + 1) % n)) % n) =
      (i + a + 1) + (q + (n - (i + a + 1) % n)) % n := by omega
  have hx := Nat.div_add_mod (i + a + 1) n
  have e2 : (i + a + 1) + (q + (n - (i + a + 1) % n)) = n * ((i + a + 1) / n + 1) + q := by
    rw [Nat.mul_add, Nat.mul_one]
    omega
  rw [e1, Nat.add_mod_mod, e2, Nat.mul_add_mod, Nat.mod_eq_of_lt hq]

theorem spec_round_robin_getElem (keys : List md4_hash) (i0 count c : Nat) (hc : c < count) :
    ((spec_round_robin keys i0 count)[c]?).map (fun e => e.hash) =
      some (keys.getD ((i0 + c) % keys.length) 0) := by
  simp [spec_round_robin, List.getElem?_range hc]

theorem spec_round_robin_append (keys : List md4_hash) (i0 a b : Nat) :
    spec_round_robin keys i0 a ++ spec_round_robin keys (i0 + a) b =
      spec_round_robin keys i0 (a + b) := by
  induction b with
  | zero => simp [spec_round_robin]
  | succ b ih =>
    rw [spec_round_robin_succ, ← List.append_assoc, ih, ← Nat.add_assoc, spec_round_robin_succ,
      Nat.add_assoc i0 a b]

/-- In a round-robin trace over distinct keys, between two steps at the same transfer
every transfer of the map has a step. -/
theorem spec_round_robin_fair (keys : List md4_hash) (hnodup : keys.Nodup)
    (i0 count a b : Nat) (hab : a < b) (hb : b < count)
    (heq : ((spec_round_robin keys i0 count)[a]?).map (fun e => e.hash) =
      ((spec_round_robin keys i0 count)[b]?).map (fun e => e.hash)) :
    ∀ k ∈ keys, ∃ c, a < c ∧ c ≤ b ∧
      ((spec_round_robin keys i0 count)[c]?).map (fun e => e.hash) = some k := by
  intro k hk
  have hn : 0 < keys.length := List.length_pos_of_mem hk
  rw [spec_round_robin_getElem keys i0 count a (by omega),
    spec_round_robin_getElem keys i0 count b hb, Option.some.injEq,
    List.getD_eq_getElem _ _ (Nat.mod_lt _ hn), List.getD_eq_getElem _ _ (Nat.mod_lt _ hn),
    hnodup.getElem_inj_iff] at heq
  have hdvd : keys.length ∣ (i0 + b) - (i0 + a) :=
    (Nat.modEq_iff_dvd' (by omega)).mp heq
  have hle : keys.length ≤ (i0 + b) - (i0 + a) := Nat.le_of_dvd (by omega) hdvd
  obtain ⟨q, hq, hqk⟩ := List.getElem_of_mem hk
  obtain ⟨c, h1, h2, h3⟩ := exists_cyclic_position keys.length i0 a q hq
  refine ⟨c, h1, by omega, ?_⟩
  rw [spec_round_robin_getElem keys i0 count c (by omega), Option.some.injEq,
    List.getD_eq_getElem _ _ (Nat.mod_lt _ hn)]
  simp only [h3]
  exact hqk

/-! ## Properties of the connection scheduler -/

/-- C19: round-robin fairness. In a session whose transfers all go on wanting connections
and whose attempts all succeed, without a half-open limit and with room under the
connection cap, two consecutive invocations of `connect_new_peers` hand out ten attempts
each, in cyclic map order from the persisted cursor, one transfer per step; the second
invocation goes on where the first one stopped; and between two attempts at the same
transfer every transfer of the map receives one. -/
theorem connect_new_peers_round_robin (fates : List connect_fate) (s : session_impl)
    (i0 : Nat) (hready : s.all_eager 20) (hne : s.m_transfers ≠ [])
    (hfates : ∀ f ∈ fates, f = connect_fate.proceed)
    (hcur : (s.m_next_connect_transfer.validate s.m_transfers).m_current =
      (transfer_map.keys s.m_transfers)[i0 % (transfer_map.keys s.m_transfers).length]?) :
    ∃ l1 l2, s.connect_new_peers fates = connect_outcome.returned l1 ∧
      l1.ses.connect_new_peers l1.fates = connect_outcome.returned l2 ∧
      l1.steps = spec_round_robin (transfer_map.keys s.m_transfers) i0 10 ∧
      l2.steps = spec_round_robin (transfer_map.keys s.m_transfers) (i0 + 10) 10 ∧
      l1.steps ++ l2.steps = spec_round_robin (transfer_map.keys s.m_transfers) i0 20 ∧
      l1.ses.m_next_connect_transfer.m_current =
        (transfer_map.keys s.m_transfers)[(i0 + 10) % (transfer_map.keys s.m_transfers).length]? ∧
      l2.ses.m_next_connect_transfer.m_current =
        (transfer_map.keys s.m_transfers)[(i0 + 20) % (transfer_map.keys s.m_transfers).length]? ∧
      (∀ a b, a < b → b < 20 →
        ((l1.steps ++ l2.steps)[a]?).map (fun e => e.hash) =
          ((l1.steps ++ l2.steps)[b]?).map (fun e => e.hash) →
        ∀ k ∈ transfer_map.keys s.m_transfers, ∃ c, a < c ∧ c ≤ b ∧
          ((l1.steps ++ l2.steps)[c]?).map (fun e => e.hash) = some k) := by
  have hnodup := transfer_map.keys_nodup hready.1
  obtain ⟨l1, h1, hs1, hc1, hk1, hr1, hf1⟩ :=
    session_impl.connect_new_peers_round 10 fates s i0 hready hne hfates hcur
  have hn : 0 < (transfer_map.keys s.m_transfers).length := by
    simp only [transfer_map.keys, List.length_map]
    exact List.length_pos.mpr hne
  have hne1 : l1.ses.m_transfers ≠ [] := by
    intro h0
    rw [h0] at hk1
    rw [← hk1] at hn
    simp [transfer_map.keys] at hn
  have hcur1 : (l1.ses.m_next_connect_transfer.validate l1.ses.m_transfers).m_current =
      (transfer_map.keys l1.ses.m_transfers)[(i0 + 10) %
        (transfer_map.keys l1.ses.m_transfers).length]? := by
    rw [hk1]
    rw [List.getElem?_eq_getElem (Nat.mod_lt _ hn)] at hc1 ⊢
    simp [cyclic_iterator.validate, hc1]
  obtain ⟨l2, h2, hs2, hc2, _, _, _⟩ :=
    session_impl.connect_new_peers_round 0 l1.fates l1.ses (i0 + 10) (by simpa using hr1) hne1
      hf1 hcur1
  rw [hk1] at hs2 hc2
  have happ : l1.steps ++ l2.steps =
      spec_round_robin (transfer_map.keys s.m_transfers) i0 20 := by
    rw [hs1, hs2, spec_round_robin_append]
  refine ⟨l1, l2, h1, h2, hs1, hs2, happ, hc1, by rw [hc2, Nat.add_assoc], ?_⟩
  intro a b hab hb heq
  rw [happ] at heq ⊢
  exact spec_round_robin_fair _ hnodup i0 20 a b hab hb heq

theorem connect_new_peers_round_robin_witness :
    example_scheduler_session.all_eager 20 ∧
    ∃ l1 l2, example_scheduler_session.connect_new_peers [] = connect_outcome.returned l1 ∧
      l1.ses.connect_new_peers l1.fates = connect_outcome.returned l2 ∧
      l1.steps = spec_round_robin (transfer_map.keys example_scheduler_session.m_transfers) 1 10 ∧
      l2.steps = spec_round_robin (transfer_map.keys example_scheduler_session.m_transfers) (1 + 10) 10 ∧
      l1.steps ++ l2.steps =
        spec_round_robin (transfer_map.keys example_scheduler_session.m_transfers) 1 20 ∧
      l1.ses.m_next_connect_transfer.m_current =
        (transfer_map.keys example_scheduler_session.m_transfers)[(1 + 10) %
          (transfer_map.keys example_scheduler_session.m_transfers).length]? ∧
      l2.ses.m_next_connect_transfer.m_current =
        (transfer_map.keys example_scheduler_session.m_transfers)[(1 + 20) %
          (transfer_map.keys example_scheduler_session.m_transfers).length]? ∧
      (∀ a b, a < b → b < 20 →
        ((l1.steps ++ l2.steps)[a]?).map (fun e => e.hash) =
          ((l1.steps ++ l2.steps)[b]?).map (fun e => e.hash) →
        ∀ k ∈ transfer_map.keys example_scheduler_session.m_transfers, ∃ c, a < c ∧ c ≤ b ∧
          ((l1.steps ++ l2.steps)[c]?).map (fun e => e.hash) = some k) :=
  ⟨by decide,
    connect_new_peers_round_robin [] example_scheduler_session 1 (by decide) (by decide)
      (by simp) (by decide)⟩

/-- C20: in one invocation of `connect_new_peers` at most 10 calls of `try_connect_peer`
succeed, the function is called only on transfers for which `want_more_connections` is
true at that step, and each success takes exactly one unit from the per-tick budget and
one from the free slots, while a step without a success takes none. -/
theorem connect_new_peers_per_tick_budget (fates : List connect_fate) (s : session_impl)
    (hcur : ∀ k, s.m_next_connect_transfer.m_current = some k →
      k ∈ transfer_map.keys s.m_transfers) :
    (∃ l, s.connect_new_peers fates = connect_outcome.returned l ∧
      connect_successes l.steps ≤ 10 ∧
      (∀ e ∈ l.steps, e.attempt ≠ none → e.wanted = true) ∧
      l.max_connections_per_second = 10 - (connect_successes l.steps : Int) ∧
      l.free_slots = s.m_half_open.free_slots - (connect_successes l.steps : Int)) ∧
    (∀ (N : Int) (l l2 : connect_loop) (brk : Bool),
      session_impl.connect_body N l = some (l2, brk) →
      ∃ k t a, l.ses.m_next_connect_transfer.m_current = some k ∧
        transfer_map.find l.ses.m_transfers k = some t ∧
        l2.steps = l.steps ++ [⟨k, t.want_more_connections l.ses, a⟩] ∧
        (a ≠ none → t.want_more_connections l.ses = true) ∧
        l2.max_connections_per_second =
          (if a = some try_result.connected then l.max_connections_per_second - 1
           else l.max_connections_per_second) ∧
        l2.free_slots =
          (if a = some try_result.connected then l.free_slots - 1 else l.free_slots)) := by
  constructor
  · obtain ⟨l, h1, h2, h3, h4, h5, _, _⟩ := session_impl.connect_new_peers_budget fates s hcur
    exact ⟨l, h1, by omega, h4, h2, h3⟩
  · intro N l l2 brk hbody
    obtain ⟨k, t, a, l2', hc, hf, hbody', hsteps, hw, hmax, hfree, _⟩ :=
      session_impl.connect_body_spec N l (session_impl.connect_body_valid hbody)
    rw [hbody'] at hbody
    simp only [Option.some.injEq, Prod.mk.injEq] at hbody
    obtain ⟨rfl, _⟩ := hbody
    exact ⟨k, t, a, hc, hf, hsteps, hw, hmax, hfree⟩

theorem connect_new_peers_per_tick_budget_witness :
    (∀ k, example_scheduler_session.m_next_connect_transfer.m_current = some k →
      k ∈ transfer_map.keys example_scheduler_session.m_transfers) ∧
    (∃ l, example_scheduler_session.connect_new_peers
        [connect_fate.no_peer, connect_fate.bad_alloc, connect_fate.enqueue_throws] =
          connect_outcome.returned l ∧
      connect_successes l.steps ≤ 10 ∧
      (∀ e ∈ l.steps, e.attempt ≠ none → e.wanted = true) ∧
      l.max_connections_per_second = 10 - (connect_successes l.steps : Int) ∧
      l.free_slots =
        example_scheduler_session.m_half_open.free_slots - (connect_successes l.steps : Int)) ∧
    ((example_scheduler_session.connect_new_peers
        [connect_fate.no_peer, connect_fate.bad_alloc, connect_fate.enqueue_throws]).result.map
      (fun l => (connect_successes l.steps, l.max_connections_per_second, l.free_slots))) =
        some (2, 8, 2147483645) :=
  ⟨fun k h => Option.some.inj (h : some (2 : md4_hash) = some k) ▸ (by decide),
    (connect_new_peers_per_tick_budget
      [connect_fate.no_peer, connect_fate.bad_alloc, connect_fate.enqueue_throws]
      example_scheduler_session
      (fun k h => Option.some.inj (h : some (2 : md4_hash) = some k) ▸ (by decide))).1,
    by decide⟩

/-! ## Lemmas about the connections an attempt adds -/

theorem policy.first_candidate_valid (id : Nat) (l : List peer) (i : Nat)
    (h : policy.first_candidate l = some i) :
    (((l.modify (fun x => { x with connection := some id }) i)[i]?).bind
      (fun x => x.connection)).isSome = true := by
  induction l generalizing i with
  | nil => simp [policy.first_candidate] at h
  | cons x rest ih =>
    by_cases hx : x.connection.isNone = true
    · simp only [policy.first_candidate, hx, if_true, Option.some.injEq] at h
      subst h
      simp
    · simp only [policy.first_candidate, hx, Bool.false_eq_true, if_false,
        Option.map_eq_some'] at h
      obtain ⟨j, hj, rfl⟩ := h
      simpa using ih j hj

/-- What one call of `try_connect_peer` does to the session: only the global connection
set, the queue of half-open attempts and the trace of disconnects can change; a
successful call adds exactly one connection to the global set and any other call adds
none; the call raises `std::bad_alloc` exactly when the environment says so. -/
theorem transfer.try_connect_peer_full (fate : connect_fate) (t : transfer)
    (s : session_impl) :
    ∃ cs q d, (t.try_connect_peer fate s).2.2 =
        { s with m_connections := cs, m_half_open := { s.m_half_open with m_queue := q }, m_disconnects := d } ∧
      cs.length = s.m_connections.length +
        (if (t.try_connect_peer fate s).1 = try_result.connected then 1 else 0) ∧
      ((t.try_connect_peer fate s).1 = try_result.threw_bad_alloc ↔
        fate = connect_fate.bad_alloc) := by
  cases fate with
  | bad_alloc =>
    exact ⟨s.m_connections, s.m_half_open.m_queue, s.m_disconnects, rfl,
      by simp [transfer.try_connect_peer], by simp [transfer.try_connect_peer]⟩
  | no_peer =>
    exact ⟨s.m_connections, s.m_half_open.m_queue, s.m_disconnects, rfl,
      by simp [transfer.try_connect_peer], by simp [transfer.try_connect_peer]⟩
  | proceed =>
    cases hfc : policy.first_candidate t.m_policy.m_peers with
    | none =>
      exact ⟨s.m_connections, s.m_half_open.m_queue, s.m_disconnects,
        by simp [transfer.try_connect_peer, transfer.connect_one_peer, hfc],
        by simp [transfer.try_connect_peer, transfer.connect_one_peer, hfc],
        by simp [transfer.try_connect_peer, transfer.connect_one_peer, hfc]⟩
    | some i =>
      have hv := policy.first_candidate_valid s.fresh_connection_id t.m_policy.m_peers i hfc
      have hres : (t.try_connect_peer connect_fate.proceed s).1 = try_result.connected ∧
          (t.try_connect_peer connect_fate.proceed s).2.2 =
            { s with m_connections := s.m_connections ++ [s.fresh_connection_id], m_half_open := { s.m_half_open with m_queue := s.m_half_open.m_queue ++ [s.fresh_connection_id] } } := by
        simp only [transfer.try_connect_peer, transfer.connect_one_peer, hfc,
          transfer.connect_to_peer, policy.set_connection, hv]
        exact ⟨rfl, rfl⟩
      refine ⟨s.m_connections ++ [s.fresh_connection_id],
        s.m_half_open.m_queue ++ [s.fresh_connection_id], s.m_disconnects, ?_, ?_, ?_⟩
      · rw [hres.2]
      · rw [hres.1]
        simp
      · rw [hres.1]
        simp
  | enqueue_throws =>
    cases hfc : policy.first_candidate t.m_policy.m_peers with
    | none =>
      exact ⟨s.m_connections, s.m_half_open.m_queue, s.m_disconnects,
        by simp [transfer.try_connect_peer, transfer.connect_one_peer, hfc],
        by simp [transfer.try_connect_peer, transfer.connect_one_peer, hfc],
        by simp [transfer.try_connect_peer, transfer.connect_one_peer, hfc]⟩
    | some i =>
      have hres : (t.try_connect_peer connect_fate.enqueue_throws s).1 =
            try_result.not_connected ∧
          (t.try_connect_peer connect_fate.enqueue_throws s).2.2 =
            { s with m_connections := (s.m_connections ++ [s.fresh_connection_id]).erase s.fresh_connection_id, m_disconnects := s.m_disconnects ++ [(s.fresh_connection_id, error_code.no_error)] } := by
        simp only [transfer.try_connect_peer, transfer.connect_one_peer, hfc,
          transfer.connect_to_peer, peer_connection.disconnect,
          session_impl.close_connection]
        exact ⟨rfl, rfl⟩
      refine ⟨(s.m_connections ++ [s.fresh_connection_id]).erase s.fresh_connection_id,
        s.m_half_open.m_queue,
        s.m_disconnects ++ [(s.fresh_connection_id, error_code.no_error)], ?_, ?_, ?_⟩
      · rw [hres.2]
      · rw [hres.1, List.length_erase_of_mem (by simp)]
        simp
      · rw [hres.1]
        simp

/-- The first half of the loop body with the connection count and the connection cap: a
success adds one connection, nothing else changes the count, and the cap changes only
when `try_connect_peer` raises `std::bad_alloc`, to the count or to 2 if that is more. -/
theorem session_impl.connect_try_full (k : md4_hash) (t : transfer) (l : connect_loop) :
    ∃ (a : Option try_result) (m : transfer_map) (cs : List Nat) (q : List Nat)
      (d : List (Nat × error_code)) (mc : Int),
      session_impl.connect_try k t l =
        { ses := { l.ses with m_transfers := m, m_connections := cs, m_half_open := { l.ses.m_half_open with m_queue := q }, m_disconnects := d, m_max_connections := mc }
          max_connections_per_second := if a = some try_result.connected then l.max_connections_per_second - 1 else l.max_connections_per_second
          free_slots := if a = some try_result.connected then l.free_slots - 1 else l.free_slots
          steps_since_last_connect := if a = some try_result.connected then 0 else l.steps_since_last_connect
          fates := if a = none then l.fates else l.fates.tail
          steps := l.steps ++ [⟨k, t.want_more_connections l.ses, a⟩] } ∧
      transfer_map.keys m = transfer_map.keys l.ses.m_transfers ∧
      (a ≠ none → t.want_more_connections l.ses = true) ∧
      (cs.length : Int) = l.ses.num_connections +
        (if a = some try_result.connected then 1 else 0) ∧
      mc = (if a = some try_result.threw_bad_alloc then
          (if l.ses.num_connections < 2 then 2 else l.ses.num_connections)
        else l.ses.m_max_connections) ∧
      (a = some try_result.threw_bad_alloc ↔
        (t.want_more_connections l.ses = true ∧
          l.fates.headD connect_fate.proceed = connect_fate.bad_alloc)) := by
  unfold session_impl.connect_try
  by_cases hw : t.want_more_connections l.ses = true
  · simp only [hw, if_true]
    obtain ⟨cs, q, d, hs, hlen, hbad⟩ :=
      transfer.try_connect_peer_full (l.fates.headD connect_fate.proceed) t l.ses
    generalize t.try_connect_peer (l.fates.headD connect_fate.proceed) l.ses = r at hs hlen hbad
    obtain ⟨res, t1, s1⟩ := r
    simp only at hs hlen hbad
    subst hs
    cases res with
    | connected =>
      refine ⟨some try_result.connected, _, _, _, _, _, rfl,
        transfer_map.keys_store _ _ _, fun _ => trivial, ?_, ?_, ?_⟩
      · simp only [if_true] at hlen ⊢
        simp only [session_impl.num_connections, hlen]
        push_cast
        rfl
      · simp
      · simpa using hbad
    | not_connected =>
      refine ⟨some try_result.not_connected, _, _, _, _, _, rfl,
        transfer_map.keys_store _ _ _, fun _ => trivial, ?_, ?_, ?_⟩
      · simp only [reduceCtorEq, if_false, Nat.add_zero] at hlen
        simp [session_impl.num_connections, hlen]
      · simp
      · simpa using hbad
    | threw_bad_alloc =>
      refine ⟨some try_result.threw_bad_alloc, _, _, _, _, _, rfl,
        transfer_map.keys_store _ _ _, fun _ => trivial, ?_, ?_, ?_⟩
      · simp only [reduceCtorEq, if_false, Nat.add_zero] at hlen
        simp [session_impl.num_connections, hlen]
      · simp only [reduceCtorEq, if_false, Nat.add_zero] at hlen
        simp [session_impl.num_connections, hlen]
      · simpa using hbad
  · simp only [hw]
    refine ⟨none, _, _, _, _, _, rfl, rfl, fun h => absurd rfl h, ?_, ?_, ?_⟩
    · simp [session_impl.num_connections]
    · simp
    · simp

/-- One iteration of the loop, with the connection count and the connection cap. -/
theorem session_impl.connect_body_full (N : Int) (l : connect_loop)
    (hv : ∃ k ∈ transfer_map.keys l.ses.m_transfers,
      l.ses.m_next_connect_transfer.m_current = some k) :
    ∃ (k : md4_hash) (t : transfer) (a : Option try_result) (l2 : connect_loop),
      l.ses.m_next_connect_transfer.m_current = some k ∧
      transfer_map.find l.ses.m_transfers k = some t ∧
      session_impl.connect_body N l =
        some (l2,
          decide (l2.steps_since_last_connect > N * 2) ||
          decide (l2.free_slots ≤ - l.ses.m_half_open.limit) ||
          decide (l2.max_connections_per_second = 0) ||
          decide (l2.ses.num_connections ≥ l2.ses.m_max_connections)) ∧
      l2.steps = l.steps ++ [⟨k, t.want_more_connections l.ses, a⟩] ∧
      l2.max_connections_per_second =
        (if a = some try_result.connected then l.max_connections_per_second - 1
         else l.max_connections_per_second) ∧
      l2.free_slots =
        (if a = some try_result.connected then l.free_slots - 1 else l.free_slots) ∧
      l2.steps_since_last_connect =
        (if a = some try_result.connected then 1 else l.steps_since_last_connect + 1) ∧
      l2.fates = (if a = none then l.fates else l.fates.tail) ∧
      l2.ses.m_half_open.limit = l.ses.m_half_open.limit ∧
      l2.ses.num_connections = l.ses.num_connections +
        (if a = some try_result.connected then 1 else 0) ∧
      l2.ses.m_max_connections =
        (if a = some try_result.threw_bad_alloc then
          (if l.ses.num_connections < 2 then 2 else l.ses.num_connections)
        else l.ses.m_max_connections) ∧
      (a = some try_result.threw_bad_alloc ↔
        (t.want_more_connections l.ses = true ∧
          l.fates.headD connect_fate.proceed = connect_fate.bad_alloc)) := by
  obtain ⟨k, hk, hc⟩ := hv
  obtain ⟨t, ht⟩ := transfer_map.find_of_mem_keys hk
  obtain ⟨a, m, cs, q, d, mc, hshape, _, _, hlen, hmc, hbad⟩ :=
    session_impl.connect_try_full k t l
  refine ⟨k, t, a, session_impl.connect_advance (session_impl.connect_try k t l), hc, ht,
    ?_, ?_, ?_, ?_, ?_, ?_, ?_, ?_, ?_, hbad⟩
  · simp only [session_impl.connect_body, hc, ht]
    rw [hshape]
    rfl
  · rw [hshape]; rfl
  · rw [hshape]; rfl
  · rw [hshape]; rfl
  · rw [hshape]
    simp only [session_impl.connect_advance]
    split <;> simp
  · rw [hshape]; rfl
  · rw [hshape]; rfl
  · rw [hshape]; exact hlen
  · rw [hshape]; exact hmc

/-- The two ways through `connect_new_peers`: the guard fails and nothing is done, or the
guard holds and the loop is run, from a validated cursor, until it returns. -/
theorem session_impl.connect_new_peers_run (fates : List connect_fate) (s : session_impl)
    (hcur : ∀ k, s.m_next_connect_transfer.m_current = some k →
      k ∈ transfer_map.keys s.m_transfers) :
    ((s.m_transfers = [] ∨ s.m_half_open.free_slots ≤ - s.m_half_open.limit ∨
        s.m_max_connections ≤ s.num_connections ∨ s.m_abort = true) ∧
      s.connect_new_peers fates = connect_outcome.returned
        { ses := s, max_connections_per_second := 10, free_slots := s.m_half_open.free_slots, steps_since_last_connect := 0, fates := fates, steps := [] }) ∨
    ((s.m_transfers ≠ [] ∧ - s.m_half_open.limit < s.m_half_open.free_slots ∧
        s.num_connections < s.m_max_connections ∧ s.m_abort = false) ∧
      ∃ l3, s.connect_new_peers fates = connect_outcome.returned l3 ∧
        session_impl.connect_loop_run (s.m_transfers.length : Int)
          (11 * (2 * s.m_transfers.length + 2))
          { ses := { s with m_next_connect_transfer := s.m_next_connect_transfer.validate s.m_transfers }, max_connections_per_second := 10, free_slots := s.m_half_open.free_slots, steps_since_last_connect := 0, fates := fates, steps := [] } =
            connect_outcome.returned l3) := by
  unfold session_impl.connect_new_peers
  simp only
  split
  · rename_i hguard
    simp only [Bool.and_eq_true, Bool.not_eq_true', decide_eq_true_eq, gt_iff_lt] at hguard
    obtain ⟨⟨⟨hne, hfree⟩, hcap⟩, habort⟩ := hguard
    have hm : s.m_transfers ≠ [] := by
      intro h0
      simp [h0] at hne
    have hv : ∃ k ∈ transfer_map.keys s.m_transfers,
        (s.m_next_connect_transfer.validate s.m_transfers).m_current = some k := by
      unfold cyclic_iterator.validate
      cases hc : s.m_next_connect_transfer.m_current with
      | none =>
        cases hs : s.m_transfers with
        | nil => exact absurd hs hm
        | cons e rest => exact ⟨e.1, by simp [transfer_map.keys], by simp [transfer_map.begin]⟩
      | some k => exact ⟨k, hcur k hc, by simp [hc]⟩
    obtain ⟨l3, hl3⟩ := session_impl.connect_loop_run_returns s.m_transfers.length
      (11 * (2 * s.m_transfers.length + 2))
      { ses := { s with m_next_connect_transfer := s.m_next_connect_transfer.validate s.m_transfers }
        max_connections_per_second := 10
        free_slots := s.m_half_open.free_slots
        steps_since_last_connect := 0
        fates := fates
        steps := [] }
      10 0 rfl rfl (by omega) (by omega) (by omega) hv
    exact Or.inr ⟨⟨hm, hfree, hcap, habort⟩, l3, hl3, hl3⟩
  · rename_i hguard
    refine Or.inl ⟨?_, rfl⟩
    simp only [Bool.and_eq_true, Bool.not_eq_true', decide_eq_true_eq, gt_iff_lt,
      not_and, Bool.not_eq_false] at hguard
    by_cases h1 : s.m_transfers = []
    · exact Or.inl h1
    · by_cases h2 : - s.m_half_open.limit < s.m_half_open.free_slots
      · by_cases h3 : s.num_connections < s.m_max_connections
        · right; right; right
          have h1b : s.m_transfers.isEmpty = false := by
            cases hs : s.m_transfers with
            | nil => exact absurd hs h1
            | cons e rest => rfl
          exact hguard ⟨⟨h1b, h2⟩, h3⟩
        · right; right; left
          omega
      · right; left
        omega

/-! ## Properties of the connection scheduler: limits and failures -/

/-- C21: a successful `try_connect_peer` adds exactly one connection to the global set of
the session and any other call adds none; and if the number of connections is within
the connection cap before `connect_new_peers`, the function returns and the number of
connections is within the cap afterwards, whatever the transfers and their candidates
are and whatever fails. -/
theorem connect_new_peers_respects_cap (fates : List connect_fate) (s : session_impl)
    (hcur : ∀ k, s.m_next_connect_transfer.m_current = some k →
      k ∈ transfer_map.keys s.m_transfers)
    (hcap : s.num_connections ≤ s.m_max_connections) :
    (∀ (fate : connect_fate) (t : transfer) (s1 : session_impl),
      (t.try_connect_peer fate s1).2.2.num_connections = s1.num_connections +
        (if (t.try_connect_peer fate s1).1 = try_result.connected then 1 else 0)) ∧
    ∃ l, s.connect_new_peers fates = connect_outcome.returned l ∧
      l.ses.num_connections ≤ l.ses.m_max_connections := by
  constructor
  · intro fate t s1
    obtain ⟨cs, q, d, hs, hlen, _⟩ := transfer.try_connect_peer_full fate t s1
    rw [hs]
    simp only [session_impl.num_connections, hlen]
    split <;> simp
  · rcases session_impl.connect_new_peers_run fates s hcur with ⟨_, h⟩ | ⟨⟨_, _, hlt, _⟩, l3, h, hrun⟩
    · exact ⟨_, h, hcap⟩
    · refine ⟨l3, h, ?_⟩
      refine session_impl.connect_loop_run_induct (s.m_transfers.length : Int)
        (fun l => l.ses.num_connections < l.ses.m_max_connections)
        (fun l => l.ses.num_connections ≤ l.ses.m_max_connections) ?_ _ _ l3 hlt hrun
      intro l l2 brk hI hbody
      obtain ⟨k, t, a, l2', _, _, hbody', _, _, _, _, _, _, hnum, hmax, _⟩ :=
        session_impl.connect_body_full _ l (session_impl.connect_body_valid hbody)
      rw [hbody'] at hbody
      simp only [Option.some.injEq, Prod.mk.injEq] at hbody
      obtain ⟨rfl, hbrk⟩ := hbody
      constructor
      · intro hb
        rw [hb] at hbrk
        simp only [Bool.or_eq_false_iff, decide_eq_false_iff_not] at hbrk
        omega
      · intro _
        rw [hnum, hmax]
        by_cases h1 : a = some try_result.connected
        · simp only [h1, if_true, Option.some.injEq, reduceCtorEq, if_false]
          omega
        · by_cases h2 : a = some try_result.threw_bad_alloc
          · simp only [h2, if_true, Option.some.injEq, reduceCtorEq, if_false]
            split <;> omega
          · simp only [h1, h2, if_false]
            omega

theorem connect_new_peers_respects_cap_witness :
    example_capped_session.num_connections ≤ example_capped_session.m_max_connections ∧
    ∃ l, example_capped_session.connect_new_peers [connect_fate.bad_alloc] =
        connect_outcome.returned l ∧
      l.ses.num_connections ≤ l.ses.m_max_connections :=
  ⟨by decide,
    (connect_new_peers_respects_cap [connect_fate.bad_alloc] example_capped_session
      (fun k h => Option.noConfusion (h : (none : Option md4_hash) = some k))
      (by decide)).2⟩

/-- C22, as stated, fails: with a connection cap of 1 and no connection, `try_connect_peer`
raising `std::bad_alloc` sets the cap to 2, which is larger than the cap before the
failure. -/
theorem connect_new_peers_bad_alloc_counterexample :
    example_capped_session.m_max_connections = 1 ∧
    example_capped_session.num_connections = 0 ∧
    ((session_impl.connect_body 1
        { ses := { example_capped_session with m_next_connect_transfer := { m_current := some 1 } }, max_connections_per_second := 10, free_slots := 2147483647, steps_since_last_connect := 0, fates := [connect_fate.bad_alloc], steps := [] }).map
      (fun r => (r.1.steps.map (fun e => e.attempt), r.1.ses.m_max_connections))) =
        some ([some try_result.threw_bad_alloc], 2) ∧
    ((example_capped_session.connect_new_peers [connect_fate.bad_alloc]).result.map
      (fun l => (l.steps.map (fun e => e.attempt), l.ses.m_max_connections))) =
        some ([some try_result.threw_bad_alloc, some try_result.connected,
          some try_result.connected], 2) := by
  decide

/-- C22 (amended): when `try_connect_peer` raises `std::bad_alloc` inside
`connect_new_peers`, the loop body completes its iteration, the number of connections
is unchanged and the connection cap becomes max(num_connections(), 2); the new cap is
not larger than the cap before the failure whenever that cap was at least 2 (a smaller
cap is raised to 2). The invocation returns whatever fails, its final cap is at most
max(cap on entry, 2), and at least 2 if a `std::bad_alloc` was raised. -/
theorem connect_new_peers_bad_alloc (fates : List connect_fate) (s : session_impl)
    (hcur : ∀ k, s.m_next_connect_transfer.m_current = some k →
      k ∈ transfer_map.keys s.m_transfers) :
    (∃ l, s.connect_new_peers fates = connect_outcome.returned l ∧
      l.ses.m_max_connections ≤ max s.m_max_connections 2 ∧
      ((∃ e ∈ l.steps, e.attempt = some try_result.threw_bad_alloc) →
        2 ≤ l.ses.m_max_connections)) ∧
    (∀ (N : Int) (l : connect_loop) (k : md4_hash) (t : transfer),
      l.ses.m_next_connect_transfer.m_current = some k →
      transfer_map.find l.ses.m_transfers k = some t →
      t.want_more_connections l.ses = true →
      l.fates.headD connect_fate.proceed = connect_fate.bad_alloc →
      ∃ l2 brk, session_impl.connect_body N l = some (l2, brk) ∧
        l2.steps = l.steps ++ [⟨k, true, some try_result.threw_bad_alloc⟩] ∧
        l2.ses.num_connections = l.ses.num_connections ∧
        l2.ses.m_max_connections = max l.ses.num_connections 2 ∧
        (l.ses.num_connections < l.ses.m_max_connections → 2 ≤ l.ses.m_max_connections →
          l2.ses.m_max_connections ≤ l.ses.m_max_connections)) := by
  constructor
  · rcases session_impl.connect_new_peers_run fates s hcur with ⟨_, h⟩ | ⟨⟨_, _, hlt, _⟩, l3, h, hrun⟩
    · exact ⟨_, h, le_max_left _ _, fun ⟨e, he, _⟩ => by simp at he⟩
    · refine ⟨l3, h, ?_⟩
      refine session_impl.connect_loop_run_induct (s.m_transfers.length : Int)
        (fun l => l.ses.num_connections < l.ses.m_max_connections ∧
          l.ses.m_max_connections ≤ max s.m_max_connections 2 ∧
          ((∃ e ∈ l.steps, e.attempt = some try_result.threw_bad_alloc) →
            2 ≤ l.ses.m_max_connections))
        (fun l => l.ses.m_max_connections ≤ max s.m_max_connections 2 ∧
          ((∃ e ∈ l.steps, e.attempt = some try_result.threw_bad_alloc) →
            2 ≤ l.ses.m_max_connections)) ?_ _ _ l3
        ⟨hlt, le_max_left _ _, fun ⟨e, he, _⟩ => by simp at he⟩ hrun
      intro l l2 brk hI hbody
      obtain ⟨hlt2, hle, hthrew⟩ := hI
      obtain ⟨k, t, a, l2', _, _, hbody', hsteps, _, _, _, _, _, hnum, hmax, _⟩ :=
        session_impl.connect_body_full _ l (session_impl.connect_body_valid hbody)
      rw [hbody'] at hbody
      simp only [Option.some.injEq, Prod.mk.injEq] at hbody
      obtain ⟨rfl, hbrk⟩ := hbody
      have hpost : l2'.ses.m_max_connections ≤ max s.m_max_connections 2 ∧
          ((∃ e ∈ l2'.steps, e.attempt = some try_result.threw_bad_alloc) →
            2 ≤ l2'.ses.m_max_connections) := by
        by_cases ha : a = some try_result.threw_bad_alloc
        · rw [hmax, if_pos ha]
          constructor
          · split <;> omega
          · intro _
            split <;> omega
        · rw [hmax, if_neg ha]
          refine ⟨hle, fun ⟨e, he, hea⟩ => hthrew ?_⟩
          rw [hsteps, List.mem_append] at he
          rcases he with he | he
          · exact ⟨e, he, hea⟩
          · simp only [List.mem_singleton] at he
            subst he
            exact absurd hea ha
      constructor
      · intro hb
        rw [hb] at hbrk
        simp only [Bool.or_eq_false_iff, decide_eq_false_iff_not] at hbrk
        exact ⟨by omega, hpost⟩
      · intro _
        exact hpost
  · intro N l k t hc hf hw hfate
    have hv : ∃ k ∈ transfer_map.keys l.ses.m_transfers,
        l.ses.m_next_connect_transfer.m_current = some k :=
      ⟨k, List.mem_map.mpr ⟨(k, t), transfer_map.find_some_mem hf, rfl⟩, hc⟩
    obtain ⟨k2, t2, a, l2, hc2, hf2, hbody, hsteps, _, _, _, _, _, hnum, hmax, hbad⟩ :=
      session_impl.connect_body_full N l hv
    rw [hc] at hc2
    simp only [Option.some.injEq] at hc2
    subst hc2
    rw [hf] at hf2
    simp only [Option.some.injEq] at hf2
    subst hf2
    have ha : a = some try_result.threw_bad_alloc := hbad.mpr ⟨hw, hfate⟩
    subst ha
    refine ⟨l2, _, hbody, by rw [hsteps, hw], by simpa using hnum, ?_, ?_⟩
    · rw [hmax, if_pos rfl]
      split <;> omega
    · intro h1 h2
      rw [hmax, if_pos rfl]
      split <;> omega

theorem connect_new_peers_bad_alloc_witness :
    (∀ k, example_scheduler_session.m_next_connect_transfer.m_current = some k →
      k ∈ transfer_map.keys example_scheduler_session.m_transfers) ∧
    (∃ l, example_scheduler_session.connect_new_peers [connect_fate.bad_alloc] =
        connect_outcome.returned l ∧
      l.ses.m_max_connections ≤ max example_scheduler_session.m_max_connections 2 ∧
      ((∃ e ∈ l.steps, e.attempt = some try_result.threw_bad_alloc) →
        2 ≤ l.ses.m_max_connections)) ∧
    ((example_scheduler_session.connect_new_peers [connect_fate.bad_alloc]).result.map
      (fun l => (l.steps.map (fun e => e.attempt), l.ses.m_max_connections))) =
        some ([some try_result.threw_bad_alloc, some try_result.connected,
          some try_result.connected], 2) :=
  ⟨fun k h => Option.some.inj (h : some (2 : md4_hash) = some k) ▸ (by decide),
    (connect_new_peers_bad_alloc [connect_fate.bad_alloc] example_scheduler_session
      (fun k h => Option.some.inj (h : some (2 : md4_hash) = some k) ▸ (by decide))).1,
    by decide⟩

/-! ## Properties of attaching and detaching peers -/

/-- What a successful `attach_peer` leaves: the transfer with a new policy and with the
peer in the connection set; no other member is touched. -/
theorem transfer.attach_peer_shape (new_connection : policy → peer_connection → Bool × policy)
    (t : transfer) (s : session_impl) (p : peer_connection)
    (h : (t.attach_peer new_connection s p).1 = true) :
    ∃ pol cs, (t.attach_peer new_connection s p).2 =
        { t with m_policy := pol, m_connections := cs } ∧
      ∃ x, cs.find? (fun x => x.m_id == p.m_id) = some x := by
  unfold transfer.attach_peer at h ⊢
  by_cases h1 : (!s.m_connections.contains p.m_id) = true
  · rw [if_pos h1] at h
    exact absurd h (by simp)
  · by_cases h2 : s.is_aborted = true
    · rw [if_neg h1, if_pos h2] at h
      exact absurd h (by simp)
    · by_cases h3 : (!(new_connection t.m_policy p).1) = true
      · rw [if_neg h1, if_neg h2] at h
        simp only [h3, if_true] at h
        exact absurd h (by simp)
      · simp only [h1, h2, h3, Bool.false_eq_true, if_false]
        refine ⟨_, _, rfl, ?_⟩
        by_cases h4 : t.m_connections.any (fun x => x.m_id == p.m_id) = true
        · simp only [h4, if_true]
          cases hf : t.m_connections.find? (fun x => x.m_id == p.m_id) with
          | some x => exact ⟨x, rfl⟩
          | none =>
            rw [List.find?_eq_none] at hf
            rw [List.any_eq_true] at h4
            obtain ⟨x, hx, hxp⟩ := h4
            exact absurd hxp (hf x hx)
        · simp only [h4, Bool.false_eq_true, if_false]
          cases hf : (t.m_connections ++ [p]).find? (fun x => x.m_id == p.m_id) with
          | some x => exact ⟨x, rfl⟩
          | none =>
            rw [List.find?_eq_none] at hf
            exact absurd (by simp) (hf p (by simp))

theorem piece_picker.dec_where_set_refcount (m : List piece_pos) (bits : List Bool) (i : Nat) :
    ((piece_picker.dec_where_set m bits).map (fun x => x.peer_count))[i]? =
      ((m.map (fun x => x.peer_count))[i]?).map
        (fun n => if (bits[i]? == some true) = true then n - 1 else n) := by
  induction m generalizing bits i with
  | nil => simp [piece_picker.dec_where_set]
  | cons x xs ih =>
    cases bits with
    | nil => simp [piece_picker.dec_where_set]
    | cons b bs =>
      cases i with
      | zero =>
        cases b <;> simp [piece_picker.dec_where_set]
      | succ i =>
        simp only [piece_picker.dec_where_set, List.map_cons, List.getElem?_cons_succ]
        exact ih bs i

/-- The picker that `remove_peer` leaves for an attached peer, in terms of the guard
`ready_for_connections` and of what the peer advertises. -/
theorem transfer.remove_peer_picker (t : transfer) (p x : peer_connection) (pk : piece_picker)
    (hp : t.m_picker = some pk)
    (hx : t.m_connections.find? (fun x => x.m_id == p.m_id) = some x) :
    (t.remove_peer p).m_picker =
      some (if t.ready_for_connections = true then
        (if p.m_seed = true then pk.dec_refcount_all
          else if p.m_remote_pieces.length > 0 then pk.dec_refcount p.m_remote_pieces
          else pk)
        else pk) := by
  simp only [transfer.remove_peer, hx, hp, Option.map_some']
  by_cases hr : t.ready_for_connections = true
  · simp only [hr, if_true]
    by_cases hs : p.m_seed = true
    · simp only [hs, if_true]
    · simp only [hs, Bool.false_eq_true, if_false]
  · simp only [hr, Bool.false_eq_true, if_false]

/-- The interest counts after the decrements of `remove_peer`, piece by piece. -/
theorem piece_picker.detach_refcounts (pk : piece_picker) (p : peer_connection) (i : Nat) :
    (if p.m_seed = true then pk.dec_refcount_all
      else if p.m_remote_pieces.length > 0 then pk.dec_refcount p.m_remote_pieces
      else pk).refcounts[i]? =
    (pk.refcounts[i]?).map (fun n => if p.advertises i = true then n - 1 else n) := by
  by_cases hs : p.m_seed = true
  · simp only [hs, if_true, piece_picker.refcounts, piece_picker.dec_refcount_all,
      peer_connection.advertises, Bool.true_or, List.map_map, List.getElem?_map,
      Option.map_map]
    rfl
  · have hs2 : p.m_seed = false := by simpa using hs
    by_cases hl : p.m_remote_pieces.length > 0
    · simp only [hs, Bool.false_eq_true, if_false, hl, if_true, piece_picker.refcounts,
        piece_picker.dec_refcount, peer_connection.advertises, hs2, Bool.false_or]
      exact piece_picker.dec_where_set_refcount _ _ _
    · have hnil : p.m_remote_pieces = [] := by
        cases hb : p.m_remote_pieces with
        | nil => rfl
        | cons b bs =>
          rw [hb] at hl
          exact absurd (by simp) hl
      simp only [hs, Bool.false_eq_true, if_false, hl, peer_connection.advertises, hs2,
        hnil, Bool.false_or]
      cases h : pk.refcounts[i]? <;> simp [h]

/-- C23, as stated, fails: `attach_peer` leaves the interest counts alone, while
`remove_peer` decrements them for a seed. Attaching a seed to a transfer whose piece
has interest count 1 and removing it at once leaves the count at 0. -/
theorem attach_then_remove_seed_counterexample :
    (example_interest_transfer.attach_peer example_new_connection example_interest_session
      example_seed_peer).1 = true ∧
    example_interest_transfer.m_picker.map (fun p => p.refcounts) = some [1] ∧
    (example_interest_transfer.attach_peer example_new_connection example_interest_session
      example_seed_peer).2.m_picker.map (fun p => p.refcounts) = some [1] ∧
    ((example_interest_transfer.attach_peer example_new_connection example_interest_session
      example_seed_peer).2.remove_peer example_seed_peer).m_picker.map
        (fun p => p.refcounts) = some [0] := by
  decide

/-- C23 (amended): for every transfer with a picker, every policy and every peer `p`, a
successful `attach_peer(p)` changes no interest count, and `remove_peer(p)` right after
it changes nothing of the picker but the interest counts: the count of piece `i` is
decremented (not below zero) if the transfer is ready for connections and `p` advertises
piece `i` (`p` is a seed, or bit `i` of its bitfield is set), and is as before
otherwise. So the counts are restored exactly when every piece that `p` advertises had
count 0, or the transfer is not ready for connections; in particular the picker is as
before when `p` is not a seed and has no bitfield yet. -/
theorem attach_peer_then_remove_peer
    (new_connection : policy → peer_connection → Bool × policy) (t : transfer)
    (s : session_impl) (p : peer_connection) (pk : piece_picker)
    (hp : t.m_picker = some pk)
    (hattach : (t.attach_peer new_connection s p).1 = true) :
    (t.attach_peer new_connection s p).2.m_picker = some pk ∧
    ∃ q, ((t.attach_peer new_connection s p).2.remove_peer p).m_picker = some q ∧
      pk.same_pieces q ∧
      (∀ i, q.refcounts[i]? = (pk.refcounts[i]?).map (fun n =>
        if ((t.attach_peer new_connection s p).2.ready_for_connections &&
          p.advertises i) = true then n - 1 else n)) ∧
      (q.refcounts = pk.refcounts ↔
        ∀ i n, pk.refcounts[i]? = some n →
          ((t.attach_peer new_connection s p).2.ready_for_connections &&
            p.advertises i) = true → n = 0) ∧
      (p.m_seed = false → p.m_remote_pieces = [] → q = pk) := by
  obtain ⟨pol, cs, hshape, x, hx⟩ := transfer.attach_peer_shape new_connection t s p hattach
  have hpk2 : (t.attach_peer new_connection s p).2.m_picker = some pk := by
    rw [hshape]
    exact hp
  have hfind : (t.attach_peer new_connection s p).2.m_connections.find?
      (fun x => x.m_id == p.m_id) = some x := by
    rw [hshape]
    exact hx
  refine ⟨hpk2, ?_⟩
  generalize (t.attach_peer new_connection s p).2 = t2 at hpk2 hfind ⊢
  have hrem := transfer.remove_peer_picker t2 p x pk hpk2 hfind
  have hidx : ∀ i, (if t2.ready_for_connections = true then
        (if p.m_seed = true then pk.dec_refcount_all
          else if p.m_remote_pieces.length > 0 then pk.dec_refcount p.m_remote_pieces
          else pk)
        else pk).refcounts[i]? = (pk.refcounts[i]?).map (fun n =>
        if (t2.ready_for_connections && p.advertises i) = true then n - 1 else n) := by
    intro i
    by_cases hr : t2.ready_for_connections = true
    · simp only [hr, if_true, Bool.true_and]
      exact piece_picker.detach_refcounts pk p i
    · simp only [hr, Bool.false_eq_true, if_false, Bool.false_and]
      cases h : pk.refcounts[i]? <;> simp [h]
  refine ⟨_, hrem, ?_, hidx, ?_, ?_⟩
  · by_cases hr : t2.ready_for_connections = true
    · simp only [hr, if_true]
      by_cases hs : p.m_seed = true
      · simp only [hs, if_true]
        exact piece_picker.dec_refcount_all_same pk
      · simp only [hs, Bool.false_eq_true, if_false]
        by_cases hl : p.m_remote_pieces.length > 0
        · simp only [hl, if_true]
          exact piece_picker.dec_refcount_same pk _
        · simp only [hl, if_false]
          exact piece_picker.same_pieces_refl pk
    · simp only [hr, Bool.false_eq_true, if_false]
      exact piece_picker.same_pieces_refl pk
  · constructor
    · intro heq i n hn hadv
      have h1 := hidx i
      rw [heq, hn] at h1
      simp only [hadv, if_true, Option.map_some', Option.some.injEq] at h1
      omega
    · intro hall
      apply List.ext_getElem?
      intro i
      rw [hidx i]
      cases hn : pk.refcounts[i]? with
      | none => rfl
      | some n =>
        simp only [Option.map_some', Option.some.injEq]
        by_cases hadv : (t2.ready_for_connections && p.advertises i) = true
        · have := hall i n hn hadv
          simp only [hadv, if_true]
          omega
        · simp only [hadv, Bool.false_eq_true, if_false]
  · intro hs hb
    simp only [hs, hb, Bool.false_eq_true, if_false, List.length_nil, gt_iff_lt,
      Nat.lt_irrefl, ite_self]

theorem attach_peer_then_remove_peer_witness :
    example_interest_transfer.m_picker =
      some { m_piece_map := [{ m_have := false, peer_count := 1, priority := 1 }], m_blocks_per_piece := 1, m_blocks_in_last_piece := 1 } ∧
    (example_interest_transfer.attach_peer example_new_connection example_interest_session
      { m_id := 9 }).1 = true ∧
    ((example_interest_transfer.attach_peer example_new_connection example_interest_session
      { m_id := 9 }).2.remove_peer { m_id := 9 }).m_picker =
        example_interest_transfer.m_picker :=
  ⟨by decide, by decide,
    (attach_peer_then_remove_peer example_new_connection example_interest_transfer
      example_interest_session { m_id := 9 }
      { m_piece_map := [{ m_have := false, peer_count := 1, priority := 1 }], m_blocks_per_piece := 1, m_blocks_in_last_piece := 1 }
      (by decide) (by decide)).2.elim
      (fun _ h => h.1.trans (congrArg some (h.2.2.2.2 rfl rfl)))⟩

/-! ## Lemmas about queue positions -/

theorem to_int_eq (x : Int) (h1 : -2147483648 ≤ x) (h2 : x < 2147483648) : to_int x = x := by
  unfold to_int
  omega

theorem queue_pos_fold (m : transfer_map) (init n : Int) (h0 : 0 ≤ init) (hinit : init ≤ n)
    (hn : n ≤ 2147483647) (hb : ∀ e ∈ m, e.2.queue_position < n) :
    init ≤ m.foldl
        (fun qp e => if e.2.queue_position ≥ qp then to_int (e.2.queue_position + 1) else qp)
        init ∧
      m.foldl
        (fun qp e => if e.2.queue_position ≥ qp then to_int (e.2.queue_position + 1) else qp)
        init ≤ n ∧
      ∀ e ∈ m, e.2.queue_position < m.foldl
        (fun qp e => if e.2.queue_position ≥ qp then to_int (e.2.queue_position + 1) else qp)
        init := by
  induction m generalizing init with
  | nil => simpa using hinit
  | cons x rest ih =>
    simp only [List.foldl_cons, List.mem_cons, forall_eq_or_imp]
    have hx0 := hb x (List.mem_cons_self _ _)
    have hrest : ∀ e ∈ rest, e.2.queue_position < n :=
      fun e he => hb e (List.mem_cons_of_mem _ he)
    by_cases hx : x.2.queue_position ≥ init
    · rw [if_pos hx, to_int_eq _ (by omega) (by omega)]
      obtain ⟨h1, h2, h3⟩ := ih (x.2.queue_position + 1) (by omega) (by omega) hrest
      exact ⟨by omega, h2, by omega, h3⟩
    · rw [if_neg hx]
      obtain ⟨h1, h2, h3⟩ := ih init h0 hinit hrest
      exact ⟨h1, h2, by omega, h3⟩

theorem transfer.set_state_frame (t : transfer) (s : session_impl) (st : state_t) :
    (t.set_state s st).1.m_sequence_number = t.m_sequence_number ∧
    (t.set_state s st).1.m_filehash = t.m_filehash ∧
    (t.set_state s st).2.m_transfers = s.m_transfers ∧
    (t.set_state s st).2.m_abort = s.m_abort := by
  obtain ⟨a, ha⟩ := transfer.set_state_shape t s st
  rw [ha]
  exact ⟨rfl, rfl, rfl, rfl⟩

theorem transfer.init_frame (BLOCK_SIZE : Nat) (t : transfer) (s : session_impl) :
    (t.init BLOCK_SIZE s).1.m_sequence_number = t.m_sequence_number ∧
    (t.init BLOCK_SIZE s).1.m_filehash = t.m_filehash ∧
    (t.init BLOCK_SIZE s).2.m_transfers = s.m_transfers ∧
    (t.init BLOCK_SIZE s).2.m_abort = s.m_abort := by
  have key : ∀ t2 : transfer, t2.m_sequence_number = t.m_sequence_number →
      t2.m_filehash = t.m_filehash →
      (if !t2.is_seed then t2.set_state s state_t.downloading else (t2, s)).1.m_sequence_number
        = t.m_sequence_number ∧
      (if !t2.is_seed then t2.set_state s state_t.downloading else (t2, s)).1.m_filehash
        = t.m_filehash ∧
      (if !t2.is_seed then t2.set_state s state_t.downloading else (t2, s)).2.m_transfers
        = s.m_transfers ∧
      (if !t2.is_seed then t2.set_state s state_t.downloading else (t2, s)).2.m_abort
        = s.m_abort := by
    intro t2 h1 h2
    have hf := transfer.set_state_frame t2 s state_t.downloading
    split
    · exact ⟨hf.1.trans h1, hf.2.1.trans h2, hf.2.2.1, hf.2.2.2⟩
    · exact ⟨h1, h2, rfl, rfl⟩
  cases hp : t.m_picker with
  | none =>
    have := key { t with m_owning_storage := true, m_storage := true } rfl rfl
    simpa only [transfer.init, hp] using this
  | some p =>
    have := key { t with m_owning_storage := true, m_storage := true, m_picker := some (p.init (div_ceil PIECE_SIZE BLOCK_SIZE) (div_ceil (t.m_filesize % PIECE_SIZE) BLOCK_SIZE) t.num_pieces) } rfl rfl
    simpa only [transfer.init, hp, transfer.num_pieces] using this

theorem transfer.start_frame (BLOCK_SIZE : Nat) (t : transfer) (s : session_impl) :
    (t.start BLOCK_SIZE s).1.m_sequence_number = t.m_sequence_number ∧
    (t.start BLOCK_SIZE s).1.m_filehash = t.m_filehash ∧
    (t.start BLOCK_SIZE s).2.m_transfers = s.m_transfers ∧
    (t.start BLOCK_SIZE s).2.m_abort = s.m_abort := by
  unfold transfer.start
  by_cases h : (!t.m_seed_mode) = true
  · simp only [h, if_true]
    exact transfer.init_frame BLOCK_SIZE { t with m_picker := some {} } s
  · simp only [h, Bool.false_eq_true, if_false]
    exact transfer.init_frame BLOCK_SIZE t s

theorem transfer_map.insert_perm {m : transfer_map} (hok : transfer_map.ok m)
    (k : md4_hash) (t : transfer) :
    (k ∈ transfer_map.keys m ∧ transfer_map.insert m k t = m) ∨
      (k ∉ transfer_map.keys m ∧ (transfer_map.insert m k t).Perm ((k, t) :: m)) := by
  induction m with
  | nil => exact Or.inr ⟨by simp [transfer_map.keys], by simp [transfer_map.insert]⟩
  | cons e rest ih =>
    obtain ⟨k1, t1⟩ := e
    unfold transfer_map.ok at hok
    rw [List.pairwise_cons] at hok
    simp only [transfer_map.insert]
    by_cases h1 : k < k1
    · simp only [h1, if_true]
      right
      refine ⟨?_, List.Perm.refl _⟩
      simp only [transfer_map.keys, List.map_cons, List.mem_cons, List.mem_map, not_or,
        not_exists, not_and]
      refine ⟨Nat.ne_of_lt h1, fun x hx hxk => ?_⟩
      have := hok.1 x hx
      simp only at this
      rw [hxk] at this
      exact Nat.lt_asymm h1 this
    · by_cases h2 : k = k1
      · left
        simp [h1, h2, transfer_map.keys]
      · simp only [h1, h2, if_false]
        rcases ih hok.2 with ⟨h3, h4⟩ | ⟨h3, h4⟩
        · left
          refine ⟨?_, by rw [h4]⟩
          simp only [transfer_map.keys, List.map_cons, List.mem_cons] at h3 ⊢
          exact Or.inr h3
        · right
          refine ⟨?_, (List.Perm.cons _ h4).trans (List.Perm.swap _ _ _)⟩
          simp only [transfer_map.keys, List.map_cons, List.mem_cons, not_or] at h3 ⊢
          exact ⟨h2, h3⟩

theorem transfer_map.insert_ok {m : transfer_map} (hok : transfer_map.ok m)
    (k : md4_hash) (t : transfer) : transfer_map.ok (transfer_map.insert m k t) := by
  induction m with
  | nil => simp [transfer_map.insert, transfer_map.ok]
  | cons e rest ih =>
    obtain ⟨k1, t1⟩ := e
    have hok0 := hok
    unfold transfer_map.ok at hok
    rw [List.pairwise_cons] at hok
    simp only [transfer_map.insert]
    by_cases h1 : k < k1
    · simp only [h1, if_true]
      unfold transfer_map.ok
      rw [List.pairwise_cons]
      refine ⟨?_, hok0⟩
      intro x hx
      rcases List.mem_cons.mp hx with hx | hx
      · rw [hx]
        exact h1
      · have := hok.1 x hx
        simp only at this ⊢
        exact Nat.lt_trans h1 this
    · by_cases h2 : k = k1
      · subst h2
        simp only [h1, if_true, if_false]
        exact hok0
      · simp only [h1, h2, if_false]
        unfold transfer_map.ok
        rw [List.pairwise_cons]
        refine ⟨?_, ih hok.2⟩
        intro x hx
        have hmem : x ∈ rest ∨ x = (k, t) := by
          rcases transfer_map.insert_perm hok.2 k t with ⟨_, h4⟩ | ⟨_, h4⟩
          · rw [h4] at hx
            exact Or.inl hx
          · rcases List.mem_cons.mp (h4.mem_iff.mp hx) with h5 | h5
            · exact Or.inr h5
            · exact Or.inl h5
        rcases hmem with hx1 | hx1
        · exact hok.1 x hx1
        · rw [hx1]
          exact Nat.lt_of_le_of_ne (Nat.le_of_not_lt h1) (Ne.symm h2)

theorem transfer_map.erase_ok {m : transfer_map} (hok : transfer_map.ok m) (k : md4_hash) :
    transfer_map.ok (transfer_map.erase m k) := by
  unfold transfer_map.ok transfer_map.erase at *
  exact hok.sublist (List.filter_sublist _)

theorem transfer.remove_peer_seq (t : transfer) (c : peer_connection) :
    (t.remove_peer c).m_sequence_number = t.m_sequence_number := by
  obtain ⟨pk, pol, cs, h, _⟩ := transfer.remove_peer_shape t c
  rw [h]

theorem transfer.try_connect_peer_seq (fate : connect_fate) (t : transfer)
    (s : session_impl) :
    (t.try_connect_peer fate s).2.1.m_sequence_number = t.m_sequence_number := by
  have key : ∀ b, (t.connect_one_peer b s).2.1.m_sequence_number = t.m_sequence_number := by
    intro b
    unfold transfer.connect_one_peer
    cases policy.first_candidate t.m_policy.m_peers with
    | none => rfl
    | some i =>
      cases b with
      | false => rfl
      | true =>
        simp only [transfer.connect_to_peer, peer_connection.disconnect, if_true,
          Bool.false_eq_true, if_false]
        rw [transfer.remove_peer_seq]
  cases fate with
  | bad_alloc => rfl
  | no_peer => rfl
  | proceed => exact key false
  | enqueue_throws => exact key true

theorem session_impl.connect_try_transfers (k : md4_hash) (t : transfer) (l : connect_loop) :
    (session_impl.connect_try k t l).ses.m_transfers =
      if t.want_more_connections l.ses = true then
        transfer_map.store l.ses.m_transfers k
          (t.try_connect_peer (l.fates.headD connect_fate.proceed) l.ses).2.1
      else l.ses.m_transfers := by
  unfold session_impl.connect_try
  by_cases hw : t.want_more_connections l.ses = true
  · simp only [hw, if_true]
    obtain ⟨cs, q, d, hs⟩ :=
      transfer.try_connect_peer_session (l.fates.headD connect_fate.proceed) t l.ses
    generalize t.try_connect_peer (l.fates.headD connect_fate.proceed) l.ses = r at hs
    obtain ⟨res, t1, s1⟩ := r
    simp only at hs
    subst hs
    cases res <;> rfl
  · simp only [hw, Bool.false_eq_true, if_false]

theorem transfer_map.store_positions {m : transfer_map} (hok : transfer_map.ok m)
    {k : md4_hash} {t t1 : transfer} (hf : transfer_map.find m k = some t)
    (hseq : t1.m_sequence_number = t.m_sequence_number) :
    (transfer_map.store m k t1).map (fun e => (e.1, e.2.m_sequence_number)) =
      m.map (fun e => (e.1, e.2.m_sequence_number)) := by
  unfold transfer_map.store
  rw [List.map_map]
  apply List.map_congr_left
  intro e he
  by_cases hk : e.1 = k
  · have hmem : (k, e.2) ∈ m := by
      rw [← hk]
      exact he
    have := transfer_map.find_of_mem hok hmem
    rw [hf] at this
    simp only [Option.some.injEq] at this
    simp only [Function.comp, hk, if_true, hseq, this]
  · simp only [Function.comp, hk, if_false]

/-- One iteration of the loop keeps the keys and the queue positions of the map. -/
theorem session_impl.connect_body_positions {N : Int} {l l2 : connect_loop} {brk : Bool}
    (hok : transfer_map.ok l.ses.m_transfers)
    (h : session_impl.connect_body N l = some (l2, brk)) :
    l2.ses.m_transfers.map (fun e => (e.1, e.2.m_sequence_number)) =
      l.ses.m_transfers.map (fun e => (e.1, e.2.m_sequence_number)) := by
  unfold session_impl.connect_body at h
  cases hc : l.ses.m_next_connect_transfer.m_current with
  | none => simp [hc] at h
  | some k =>
    cases hf : transfer_map.find l.ses.m_transfers k with
    | none => simp [hc, hf] at h
    | some t =>
      simp only [hc, hf, Option.some.injEq, Prod.mk.injEq] at h
      obtain ⟨h1, _⟩ := h
      rw [← h1]
      show (session_impl.connect_try k t l).ses.m_transfers.map _ = _
      rw [session_impl.connect_try_transfers]
      split
      · exact transfer_map.store_positions hok hf (transfer.try_connect_peer_seq _ _ _)
      · rfl

theorem transfer_map.keys_of_positions {m m2 : transfer_map}
    (h : m2.map (fun e => (e.1, e.2.m_sequence_number)) =
      m.map (fun e => (e.1, e.2.m_sequence_number))) :
    transfer_map.keys m2 = transfer_map.keys m ∧
    m2.map (fun e => e.2.queue_position) = m.map (fun e => e.2.queue_position) := by
  have h1 := congrArg (List.map Prod.fst) h
  have h2 := congrArg (List.map Prod.snd) h
  simp only [List.map_map] at h1 h2
  exact ⟨h1, h2⟩

/-- An invocation of `connect_new_peers` that returns keeps the keys and the queue
positions of the map. -/
theorem session_impl.connect_new_peers_positions (fates : List connect_fate)
    (s : session_impl) (l : connect_loop) (hok : transfer_map.ok s.m_transfers)
    (h : s.connect_new_peers fates = connect_outcome.returned l) :
    l.ses.m_transfers.map (fun e => (e.1, e.2.m_sequence_number)) =
      s.m_transfers.map (fun e => (e.1, e.2.m_sequence_number)) := by
  unfold session_impl.connect_new_peers at h
  simp only at h
  split at h
  · have key := session_impl.connect_loop_run_induct (s.m_transfers.length : Int)
      (fun l => transfer_map.ok l.ses.m_transfers ∧
        l.ses.m_transfers.map (fun e => (e.1, e.2.m_sequence_number)) =
          s.m_transfers.map (fun e => (e.1, e.2.m_sequence_number)))
      (fun l => transfer_map.ok l.ses.m_transfers ∧
        l.ses.m_transfers.map (fun e => (e.1, e.2.m_sequence_number)) =
          s.m_transfers.map (fun e => (e.1, e.2.m_sequence_number)))
      ?_ _ _ l ⟨hok, rfl⟩ h
    · exact key.2
    · intro l1 l2 brk hI hbody
      have hpos := session_impl.connect_body_positions hI.1 hbody
      have hkeys := (transfer_map.keys_of_positions hpos).1
      have hok2 : transfer_map.ok l2.ses.m_transfers := by
        rw [transfer_map.ok_iff_keys, hkeys]
        exact (transfer_map.ok_iff_keys _).mp hI.1
      exact ⟨fun _ => ⟨hok2, hpos.trans hI.2⟩, fun _ => ⟨hok2, hpos.trans hI.2⟩⟩
  · simp only [connect_outcome.returned.injEq] at h
    rw [← h]

/-- What `add_transfer` does when it creates a transfer: the new transfer carries the
queue position computed from the map and is inserted under its hash. -/
theorem session_impl.add_transfer_new (BLOCK_SIZE : Nat) (s : session_impl)
    (params : add_transfer_params) (ec : error_code) (hs : s.is_aborted = false)
    (hf : transfer_map.find s.m_transfers params.file_hash = none) :
    ∃ t, (s.add_transfer BLOCK_SIZE params ec).handle.m_transfer = some t ∧
      t.queue_position = s.m_transfers.foldl
        (fun qp e => if e.2.queue_position ≥ qp then to_int (e.2.queue_position + 1) else qp)
        0 ∧
      (s.add_transfer BLOCK_SIZE params ec).ses.m_transfers =
        transfer_map.insert s.m_transfers params.file_hash t := by
  have hctor : ∀ q, (transfer.ctor q params).m_sequence_number = q := by
    intro q
    unfold transfer.ctor
    simp only
    split <;> rfl
  have hfr := transfer.start_frame BLOCK_SIZE
    (transfer.ctor (s.m_transfers.foldl
      (fun qp e => if e.2.queue_position ≥ qp then to_int (e.2.queue_position + 1) else qp)
      0) params) s
  refine ⟨((transfer.ctor (s.m_transfers.foldl
      (fun qp e => if e.2.queue_position ≥ qp then to_int (e.2.queue_position + 1) else qp)
      0) params).start BLOCK_SIZE s).1, ?_, ?_, ?_⟩
  · unfold session_impl.add_transfer
    simp only [hs, Bool.false_eq_true, if_false, session_impl.find_transfer, hf,
      transfer.handle]
  · simp only [transfer.queue_position] at hfr ⊢
    rw [hfr.1, hctor]
  · unfold session_impl.add_transfer
    simp only [hs, Bool.false_eq_true, if_false, session_impl.find_transfer, hf,
      session_impl.post_alert_should, hfr.2.2.1]

/-- Every call keeps the map well formed and the queue positions distinct, as long as
the positions are below a bound `n` that is less than the largest `int`; afterwards
they are below `n + 1`. -/
theorem session_impl.call_positions (BLOCK_SIZE : Nat) (s : session_impl) (c : session_call)
    (n : Nat) (hn : n < 2147483647)
    (hok : transfer_map.ok s.m_transfers) (hnd : s.queue_positions.Nodup)
    (hb : ∀ q ∈ s.queue_positions, q < (n : Int)) :
    transfer_map.ok (s.call BLOCK_SIZE c).m_transfers ∧
      (s.call BLOCK_SIZE c).queue_positions.Nodup ∧
      ∀ q ∈ (s.call BLOCK_SIZE c).queue_positions, q < ((n + 1 : Nat) : Int) := by
  have hb1 : ∀ q ∈ s.queue_positions, q < ((n + 1 : Nat) : Int) := by
    intro q hq
    have := hb q hq
    omega
  cases c with
  | add_transfer params =>
    simp only [session_impl.call]
    by_cases hs : s.is_aborted = true
    · have : (s.add_transfer BLOCK_SIZE params error_code.no_error).ses = s := by
        unfold session_impl.add_transfer
        simp [hs]
      rw [this]
      exact ⟨hok, hnd, hb1⟩
    · cases hf : transfer_map.find s.m_transfers params.file_hash with
      | some t0 =>
        have : (s.add_transfer BLOCK_SIZE params error_code.no_error).ses = s := by
          unfold session_impl.add_transfer
          simp only [hs, Bool.false_eq_true, if_false, session_impl.find_transfer, hf]
          split <;> rfl
        rw [this]
        exact ⟨hok, hnd, hb1⟩
      | none =>
        obtain ⟨t, _, hq, hm⟩ := session_impl.add_transfer_new BLOCK_SIZE s params
          error_code.no_error (by simpa using hs) hf
        have hfold := queue_pos_fold s.m_transfers 0 (n : Int) (le_refl _) (by omega)
          (by omega) (fun e he => hb _ (List.mem_map_of_mem _ he))
        rw [← hq] at hfold
        refine ⟨by rw [hm]; exact transfer_map.insert_ok hok _ _, ?_, ?_⟩
        · simp only [session_impl.queue_positions, hm]
          rcases transfer_map.insert_perm hok params.file_hash t with ⟨_, h4⟩ | ⟨_, h4⟩
          · rw [h4]
            exact hnd
          · rw [(h4.map _).nodup_iff, List.map_cons, List.nodup_cons]
            refine ⟨?_, hnd⟩
            intro hmem
            obtain ⟨e, he, heq⟩ := List.mem_map.mp hmem
            have hlt := hfold.2.2 e he
            simp only at heq
            omega
        · simp only [session_impl.queue_positions, hm]
          rcases transfer_map.insert_perm hok params.file_hash t with ⟨_, h4⟩ | ⟨_, h4⟩
          · rw [h4]
            exact hb1
          · intro q hq
            rw [(h4.map _).mem_iff, List.map_cons, List.mem_cons] at hq
            rcases hq with h5 | h5
            · have h6 : t.queue_position ≤ (n : Int) := hfold.2.1
              have h7 : q = t.queue_position := h5
              rw [h7]
              omega
            · exact hb1 q h5
  | remove_transfer h options =>
    simp only [session_impl.call]
    have hsub : (s.remove_transfer h options).m_transfers = s.m_transfers ∨
        ∃ k, (s.remove_transfer h options).m_transfers =
          transfer_map.erase s.m_transfers k := by
      cases hh : h.m_transfer with
      | none =>
        left
        simp [session_impl.remove_transfer, hh]
      | some tptr =>
        cases hf : transfer_map.find s.m_transfers tptr.hash with
        | none =>
          left
          simp [session_impl.remove_transfer, hh, hf]
        | some t =>
          right
          exact ⟨tptr.hash, (session_impl.remove_transfer_found s h options tptr t hh hf).1⟩
    rcases hsub with h1 | ⟨k, h1⟩
    · simp only [session_impl.queue_positions, h1]
      exact ⟨hok, hnd, hb1⟩
    · simp only [session_impl.queue_positions, h1]
      refine ⟨transfer_map.erase_ok hok k, ?_, ?_⟩
      · exact hnd.sublist ((List.filter_sublist _).map _)
      · intro q hq
        exact hb1 q (((List.filter_sublist _).map _).subset hq)
  | connect_new_peers fates =>
    simp only [session_impl.call]
    cases hout : s.connect_new_peers fates with
    | returned l =>
      simp only
      have hpos := session_impl.connect_new_peers_positions fates s l hok hout
      obtain ⟨hk, hq⟩ := transfer_map.keys_of_positions hpos
      refine ⟨?_, ?_, ?_⟩
      · rw [transfer_map.ok_iff_keys, hk]
        exact (transfer_map.ok_iff_keys _).mp hok
      · simp only [session_impl.queue_positions, hq]
        exact hnd
      · simp only [session_impl.queue_positions, hq]
        exact hb1
    | invalid_cursor => exact ⟨hok, hnd, hb1⟩
    | out_of_fuel => exact ⟨hok, hnd, hb1⟩

theorem session_impl.calls_positions (BLOCK_SIZE : Nat) (cs : List session_call) :
    ∀ (s : session_impl) (n : Nat), n + cs.length ≤ 2147483647 →
      transfer_map.ok s.m_transfers → s.queue_positions.Nodup →
      (∀ q ∈ s.queue_positions, q < (n : Int)) →
      transfer_map.ok (s.calls BLOCK_SIZE cs).m_transfers ∧
        (s.calls BLOCK_SIZE cs).queue_positions.Nodup ∧
        ∀ q ∈ (s.calls BLOCK_SIZE cs).queue_positions, q < ((n + cs.length : Nat) : Int) := by
  induction cs with
  | nil =>
    intro s n _ hok hnd hb
    exact ⟨hok, hnd, hb⟩
  | cons c rest ih =>
    intro s n hn hok hnd hb
    simp only [List.length_cons] at hn
    obtain ⟨h1, h2, h3⟩ := session_impl.call_positions BLOCK_SIZE s c n (by omega) hok hnd hb
    have h4 := ih (s.call BLOCK_SIZE c) (n + 1) (by omega) h1 h2 h3
    have h5 : n + 1 + rest.length = n + (c :: rest).length := by
      simp only [List.length_cons]
      omega
    rw [h5] at h4
    exact h4

/-! ## Properties of the queue positions -/

/-- C24, as stated, fails: the queue position is an `int`. In a session whose map holds
transfers at positions 5 and 2147483647, `add_transfer` gives the new transfer the
position -2147483648, which is below both; a second `add_transfer` (of a hash that
sorts after the others) computes -2147483648 again, so two transfers of the map share
a queue position. -/
theorem add_transfer_queue_position_counterexample :
    transfer_map.ok example_last_position_session.m_transfers ∧
    example_last_position_session.queue_positions = [5, 2147483647] ∧
    example_last_position_session.queue_positions.Nodup ∧
    (example_last_position_session.add_transfer 194560 { file_hash := 0, file_size := 7 }
      error_code.no_error).handle.m_transfer.map (fun t => t.queue_position) =
        some (-2147483648) ∧
    (example_last_position_session.calls 194560
      [session_call.add_transfer { file_hash := 0, file_size := 7 },
       session_call.add_transfer { file_hash := 3, file_size := 7 }]).queue_positions =
        [-2147483648, 5, 2147483647, -2147483648] ∧
    ¬ (example_last_position_session.calls 194560
      [session_call.add_transfer { file_hash := 0, file_size := 7 },
       session_call.add_transfer { file_hash := 3, file_size := 7 }]).queue_positions.Nodup := by
  decide

/-- C24, amended: when `add_transfer` creates a transfer in a map whose queue positions
are all below 2147483647, the largest `int`, the queue position of the new transfer is
strictly greater than the queue position of every transfer in the map, and 0 if the map
is empty; the new transfer is filed under its hash. Hence from a session whose queue
positions are pairwise distinct and below `n`, they stay pairwise distinct under every
sequence `cs` of `add_transfer`, `remove_transfer` and `connect_new_peers` with
`n + cs.length ≤ 2147483647`, in particular in every state reached from the empty
session by at most 2147483647 calls. -/
theorem add_transfer_queue_position (BLOCK_SIZE : Nat) :
    (∀ (s : session_impl) (params : add_transfer_params) (ec : error_code),
      s.is_aborted = false → transfer_map.find s.m_transfers params.file_hash = none →
      (∀ e ∈ s.m_transfers, e.2.queue_position < 2147483647) →
      ∃ t, (s.add_transfer BLOCK_SIZE params ec).handle.m_transfer = some t ∧
        (∀ e ∈ s.m_transfers, e.2.queue_position < t.queue_position) ∧
        (s.m_transfers = [] → t.queue_position = 0) ∧
        (transfer_map.ok s.m_transfers →
          (params.file_hash, t) ∈ (s.add_transfer BLOCK_SIZE params ec).ses.m_transfers)) ∧
    (∀ (s : session_impl) (cs : List session_call) (n : Nat),
      transfer_map.ok s.m_transfers → s.queue_positions.Nodup →
      (∀ q ∈ s.queue_positions, q < (n : Int)) → n + cs.length ≤ 2147483647 →
      (s.calls BLOCK_SIZE cs).queue_positions.Nodup) ∧
    (∀ cs : List session_call, cs.length ≤ 2147483647 →
      (({} : session_impl).calls BLOCK_SIZE cs).queue_positions.Nodup) := by
  refine ⟨?_, ?_, ?_⟩
  · intro s params ec hs hf hb
    obtain ⟨t, h1, h2, h3⟩ := session_impl.add_transfer_new BLOCK_SIZE s params ec hs hf
    refine ⟨t, h1, ?_, ?_, ?_⟩
    · intro e he
      rw [h2]
      exact (queue_pos_fold s.m_transfers 0 2147483647 (le_refl _) (by omega) (le_refl _)
        hb).2.2 e he
    · intro h0
      rw [h2, h0]
      rfl
    · intro hok
      rw [h3]
      rcases transfer_map.insert_perm hok params.file_hash t with ⟨h4, _⟩ | ⟨_, h4⟩
      · obtain ⟨t0, ht0⟩ := transfer_map.find_of_mem_keys h4
        rw [hf] at ht0
        exact absurd ht0 (by simp)
      · exact h4.mem_iff.mpr (List.mem_cons_self _ _)
  · intro s cs n hok hnd hb hn
    exact (session_impl.calls_positions BLOCK_SIZE cs s n hn hok hnd hb).2.1
  · intro cs hn
    exact (session_impl.calls_positions BLOCK_SIZE cs {} 0 (by omega)
      (by simp [transfer_map.ok]) (by simp [session_impl.queue_positions])
      (by simp [session_impl.queue_positions])).2.1

theorem add_transfer_queue_position_witness :
    (({} : session_impl).calls 194560 example_calls).queue_positions = [2, 1] ∧
    (({} : session_impl).calls 194560 example_calls).queue_positions.Nodup ∧
    ∃ t, ((({} : session_impl).calls 194560 example_calls).add_transfer 194560
        { file_hash := 5, file_size := 7 } error_code.no_error).handle.m_transfer = some t ∧
      (∀ e ∈ (({} : session_impl).calls 194560 example_calls).m_transfers,
        e.2.queue_position < t.queue_position) ∧
      t.queue_position = 3 :=
  ⟨by decide, (add_transfer_queue_position 194560).2.2 example_calls (by decide),
    (((add_transfer_queue_position 194560).1 (({} : session_impl).calls 194560 example_calls)
      { file_hash := 5, file_size := 7 } error_code.no_error (by decide) (by decide)
      (by decide)).imp
      (fun t h => ⟨h.1, h.2.1, by
        have h1 := h.1
        have h2 : ((({} : session_impl).calls 194560 example_calls).add_transfer 194560
          { file_hash := 5, file_size := 7 } error_code.no_error).handle.m_transfer.map
            (fun x => x.queue_position) = some 3 := by decide
        rw [h1] at h2
        simpa using h2⟩))⟩

/-! ## Properties of the connection scheduler: termination and stalls -/

theorem List.append_singleton_split {α : Type} {xs A B : List α} {e : α}
    (h : xs ++ [e] = A ++ B) : B = [] ∨ ∃ B1, B = B1 ++ [e] ∧ xs = A ++ B1 := by
  rcases List.eq_nil_or_concat B with hB | ⟨B1, b, hB⟩
  · exact Or.inl hB
  · right
    rw [hB, List.concat_eq_append, ← List.append_assoc] at h
    obtain ⟨h1, h2⟩ := List.append_inj' h (by simp)
    simp only [List.cons.injEq, and_true] at h2
    exact ⟨B1, by rw [hB, h2, List.concat_eq_append], h1⟩

/-- C25: `connect_new_peers` returns from every session whose cursor is `end()` or points
at a transfer of the map, whatever the transfers want and whatever fails. With `N`
transfers its loop body runs at most `22 * N + 21` times: at most 10 steps are
successful attempts, and no more than `2 * N + 1` consecutive steps are without one. -/
theorem connect_new_peers_terminates (fates : List connect_fate) (s : session_impl)
    (hcur : ∀ k, s.m_next_connect_transfer.m_current = some k →
      k ∈ transfer_map.keys s.m_transfers) :
    ∃ l, s.connect_new_peers fates = connect_outcome.returned l ∧
      connect_successes l.steps ≤ 10 ∧
      l.steps.length ≤ 22 * s.m_transfers.length + 21 ∧
      (∀ A B C : List connect_step, l.steps = A ++ B ++ C →
        (∀ e ∈ B, e.attempt ≠ some try_result.connected) →
        B.length ≤ 2 * s.m_transfers.length + 1) := by
  rcases session_impl.connect_new_peers_run fates s hcur with ⟨_, h⟩ | ⟨_, l3, h, hrun⟩
  · refine ⟨_, h, by simp [connect_successes], by simp, ?_⟩
    intro A B C hsplit _
    have : B = [] := by
      have h1 := congrArg List.length hsplit
      simp only [List.length_nil, List.length_append] at h1
      exact List.eq_nil_of_length_eq_zero (by omega)
    simp [this]
  · refine ⟨l3, h, ?_⟩
    refine session_impl.connect_loop_run_induct (s.m_transfers.length : Int)
      (fun l => ∃ c : Nat, l.steps_since_last_connect = (c : Int) ∧
        c ≤ 2 * s.m_transfers.length ∧
        l.max_connections_per_second = 10 - (connect_successes l.steps : Int) ∧
        1 ≤ l.max_connections_per_second ∧
        l.steps.length ≤ connect_successes l.steps * (2 * s.m_transfers.length + 2) + c ∧
        (∀ A B : List connect_step, l.steps = A ++ B →
          (∀ e ∈ B, e.attempt ≠ some try_result.connected) → B.length ≤ c) ∧
        (∀ A B C : List connect_step, l.steps = A ++ B ++ C →
          (∀ e ∈ B, e.attempt ≠ some try_result.connected) →
          B.length ≤ 2 * s.m_transfers.length + 1))
      (fun l => connect_successes l.steps ≤ 10 ∧
        l.steps.length ≤ 22 * s.m_transfers.length + 21 ∧
        (∀ A B C : List connect_step, l.steps = A ++ B ++ C →
          (∀ e ∈ B, e.attempt ≠ some try_result.connected) →
          B.length ≤ 2 * s.m_transfers.length + 1)) ?_ _ _ l3 ?_ hrun
    · intro l l2 brk hI hbody
      obtain ⟨c, hc, hc2, hmax, hpos, hlen, hT, hG⟩ := hI
      obtain ⟨k, t, a, l2', _, _, hbody', hsteps, _, hmax2, _, hsince2, _⟩ :=
        session_impl.connect_body_spec _ l (session_impl.connect_body_valid hbody)
      rw [hbody'] at hbody
      simp only [Option.some.injEq, Prod.mk.injEq] at hbody
      obtain ⟨rfl, hbrk⟩ := hbody
      have hsucc := connect_successes_append l.steps ⟨k, t.want_more_connections l.ses, a⟩
      simp only at hsucc
      rw [← hsteps] at hsucc
      -- the facts after the step, with the new count `c2` of steps since the last success
      have hstep : ∃ c2 : Nat, l2'.steps_since_last_connect = (c2 : Int) ∧
          c2 ≤ 2 * s.m_transfers.length + 1 ∧
          l2'.max_connections_per_second = 10 - (connect_successes l2'.steps : Int) ∧
          0 ≤ l2'.max_connections_per_second ∧
          l2'.steps.length ≤
            connect_successes l2'.steps * (2 * s.m_transfers.length + 2) + c2 ∧
          (∀ A B : List connect_step, l2'.steps = A ++ B →
            (∀ e ∈ B, e.attempt ≠ some try_result.connected) → B.length ≤ c2) := by
        by_cases ha : a = some try_result.connected
        · rw [if_pos ha] at hmax2 hsince2 hsucc
          refine ⟨1, by rw [hsince2]; rfl, by omega, ?_, by omega, ?_, ?_⟩
          · rw [hmax2, hmax, hsucc]
            push_cast
            ring
          · rw [hsucc, hsteps, List.length_append, List.length_singleton, Nat.add_mul,
              Nat.one_mul]
            omega
          · intro A B hsplit hfail
            rw [hsteps] at hsplit
            rcases List.append_singleton_split hsplit with hB | ⟨B1, hB, _⟩
            · simp [hB]
            · exact absurd ha (hfail ⟨k, t.want_more_connections l.ses, a⟩ (by rw [hB]; simp))
        · rw [if_neg ha] at hmax2 hsince2 hsucc
          rw [Nat.add_zero] at hsucc
          refine ⟨c + 1, by rw [hsince2, hc]; push_cast; ring, by omega, ?_, by omega, ?_, ?_⟩
          · rw [hmax2, hmax, hsucc]
          · rw [hsucc, hsteps, List.length_append, List.length_singleton]
            omega
          · intro A B hsplit hfail
            rw [hsteps] at hsplit
            rcases List.append_singleton_split hsplit with hB | ⟨B1, hB, hA⟩
            · simp [hB]
            · have := hT A B1 hA (fun e he => hfail e (by rw [hB]; simp [he]))
              rw [hB, List.length_append, List.length_singleton]
              omega
      obtain ⟨c2, hc3, hc4, hmax3, hpos3, hlen3, hT3⟩ := hstep
      have hG3 : ∀ A B C : List connect_step, l2'.steps = A ++ B ++ C →
          (∀ e ∈ B, e.attempt ≠ some try_result.connected) →
          B.length ≤ 2 * s.m_transfers.length + 1 := by
        intro A B C hsplit hfail
        rcases List.eq_nil_or_concat C with hC | ⟨C1, x, hC⟩
        · rw [hC, List.append_nil] at hsplit
          have := hT3 A B hsplit hfail
          omega
        · rw [hsteps, hC, List.concat_eq_append, ← List.append_assoc] at hsplit
          obtain ⟨h1, _⟩ := List.append_inj' hsplit (by simp)
          exact hG A B C1 h1 hfail
      constructor
      · intro hb
        rw [hb] at hbrk
        simp only [Bool.or_eq_false_iff, decide_eq_false_iff_not] at hbrk
        obtain ⟨⟨⟨h1, _⟩, h3⟩, _⟩ := hbrk
        rw [hc3] at h1
        exact ⟨c2, hc3, by omega, hmax3, by omega, hlen3, hT3, hG3⟩
      · intro _
        have hle : connect_successes l2'.steps ≤ 10 := by omega
        have hmul := Nat.mul_le_mul_right (2 * s.m_transfers.length + 2) hle
        exact ⟨hle, by omega, hG3⟩
    · refine ⟨0, rfl, by omega, by simp [connect_successes], by simp, by simp, ?_, ?_⟩
      · intro A B hsplit _
        have h1 := congrArg List.length hsplit
        simp only [List.length_nil, List.length_append] at h1
        omega
      · intro A B C hsplit _
        have h1 := congrArg List.length hsplit
        simp only [List.length_nil, List.length_append] at h1
        omega

theorem connect_new_peers_terminates_witness :
    (∀ k, example_stalled_session.m_next_connect_transfer.m_current = some k →
      k ∈ transfer_map.keys example_stalled_session.m_transfers) ∧
    ∃ l, example_stalled_session.connect_new_peers [] = connect_outcome.returned l ∧
      connect_successes l.steps ≤ 10 ∧
      l.steps.length ≤ 22 * example_stalled_session.m_transfers.length + 21 ∧
      (∀ A B C : List connect_step, l.steps = A ++ B ++ C →
        (∀ e ∈ B, e.attempt ≠ some try_result.connected) →
        B.length ≤ 2 * example_stalled_session.m_transfers.length + 1) :=
  ⟨fun k h => Option.noConfusion (h : (none : Option md4_hash) = some k),
    connect_new_peers_terminates [] example_stalled_session
      (fun k h => Option.noConfusion (h : (none : Option md4_hash) = some k))⟩

/-- C26, as stated, fails: in a session of two transfers without connect candidates, with
no limit in reach, the loop does not stop after one rotation (2 steps); it makes 5
steps, two rotations and one more, none of them a successful attempt. -/
theorem connect_new_peers_stall_counterexample :
    example_stalled_session.m_transfers.length = 2 ∧
    example_stalled_session.m_half_open.free_slots = 2147483647 ∧
    example_stalled_session.num_connections = 0 ∧
    example_stalled_session.m_max_connections = 200 ∧
    ((example_stalled_session.connect_new_peers []).result.map
      (fun l => (l.steps.map (fun e => (e.hash, e.attempt)), connect_successes l.steps))) =
        some ([(1, none), (2, none), (1, none), (2, none), (1, none)], 0) := by
  decide

/-- C26 (amended): stall detection. When `connect_new_peers` is entered with capacity
left (transfers in the map, free slots above `-limit`, connections below the cap,
session not closing) and no call of `try_connect_peer` succeeds, the loop stops after
exactly `2 * N + 1` steps for `N` transfers, that is when more than two full rotations
have elapsed without a successful connection; it stops earlier only when a
`std::bad_alloc` lowered the connection cap to the number of connections. -/
theorem connect_new_peers_stall (fates : List connect_fate) (s : session_impl)
    (hcur : ∀ k, s.m_next_connect_transfer.m_current = some k →
      k ∈ transfer_map.keys s.m_transfers)
    (hne : s.m_transfers ≠ [])
    (hfree : - s.m_half_open.limit < s.m_half_open.free_slots)
    (hcap : s.num_connections < s.m_max_connections) (habort : s.m_abort = false) :
    ∃ l, s.connect_new_peers fates = connect_outcome.returned l ∧
      (connect_successes l.steps = 0 →
        l.steps.length = 2 * s.m_transfers.length + 1 ∨
        (l.ses.m_max_connections ≤ l.ses.num_connections ∧
          ∃ e ∈ l.steps, e.attempt = some try_result.threw_bad_alloc)) := by
  rcases session_impl.connect_new_peers_run fates s hcur with ⟨hskip, _⟩ | ⟨_, l3, h, hrun⟩
  · rcases hskip with h1 | h1 | h1 | h1
    · exact absurd h1 hne
    · omega
    · omega
    · rw [habort] at h1
      exact absurd h1 (by decide)
  · refine ⟨l3, h, ?_⟩
    refine session_impl.connect_loop_run_induct (s.m_transfers.length : Int)
      (fun l => ∃ c : Nat, l.steps_since_last_connect = (c : Int) ∧
        c ≤ 2 * s.m_transfers.length ∧
        l.ses.num_connections < l.ses.m_max_connections ∧
        l.ses.m_half_open.limit = s.m_half_open.limit ∧
        (connect_successes l.steps = 0 →
          l.steps.length = c ∧ l.free_slots = s.m_half_open.free_slots ∧
          l.max_connections_per_second = 10 ∧
          l.ses.num_connections = s.num_connections ∧
          (l.ses.m_max_connections = s.m_max_connections ∨
            ∃ e ∈ l.steps, e.attempt = some try_result.threw_bad_alloc)))
      (fun l => connect_successes l.steps = 0 →
        l.steps.length = 2 * s.m_transfers.length + 1 ∨
        (l.ses.m_max_connections ≤ l.ses.num_connections ∧
          ∃ e ∈ l.steps, e.attempt = some try_result.threw_bad_alloc)) ?_ _ _ l3 ?_ hrun
    · intro l l2 brk hI hbody
      obtain ⟨c, hc, hc2, hlt, hlim, hzero⟩ := hI
      obtain ⟨k, t, a, l2', _, _, hbody', hsteps, hmax2, hfree2, hsince2, _, hlim2, hnum, hcap2,
        _⟩ := session_impl.connect_body_full _ l (session_impl.connect_body_valid hbody)
      rw [hbody'] at hbody
      simp only [Option.some.injEq, Prod.mk.injEq] at hbody
      obtain ⟨rfl, hbrk⟩ := hbody
      have hsucc := connect_successes_append l.steps ⟨k, t.want_more_connections l.ses, a⟩
      simp only at hsucc
      rw [← hsteps] at hsucc
      by_cases ha : a = some try_result.connected
      · rw [if_pos ha] at hsucc hsince2
        constructor
        · intro hb
          rw [hb] at hbrk
          simp only [Bool.or_eq_false_iff, decide_eq_false_iff_not] at hbrk
          refine ⟨1, by rw [hsince2]; rfl, ?_, by omega, by rw [hlim2, hlim],
            fun h0 => by omega⟩
          have := List.length_pos.mpr hne
          omega
        · intro _ h0
          omega
      · rw [if_neg ha] at hsucc hsince2 hmax2 hfree2 hnum
        rw [Nat.add_zero] at hsucc
        rw [add_zero] at hnum
        -- without a success so far, the counters are those of the entry
        have hkeep : connect_successes l2'.steps = 0 →
            l2'.steps.length = c + 1 ∧ l2'.free_slots = s.m_half_open.free_slots ∧
            l2'.max_connections_per_second = 10 ∧
            l2'.ses.num_connections = s.num_connections ∧
            (l2'.ses.m_max_connections = s.m_max_connections ∨
              ∃ e ∈ l2'.steps, e.attempt = some try_result.threw_bad_alloc) := by
          intro h0
          obtain ⟨z1, z2, z3, z4, z5⟩ := hzero (by omega)
          refine ⟨by rw [hsteps, List.length_append, List.length_singleton, z1],
            by rw [hfree2, z2], by rw [hmax2, z3], by rw [hnum, z4], ?_⟩
          by_cases hb : a = some try_result.threw_bad_alloc
          · right
            exact ⟨⟨k, t.want_more_connections l.ses, a⟩, by rw [hsteps]; simp, hb⟩
          · rw [hcap2, if_neg hb]
            rcases z5 with z5 | ⟨e, he, hea⟩
            · exact Or.inl z5
            · right
              exact ⟨e, by rw [hsteps]; simp [he], hea⟩
        constructor
        · intro hb
          rw [hb] at hbrk
          simp only [Bool.or_eq_false_iff, decide_eq_false_iff_not] at hbrk
          obtain ⟨⟨⟨h1, _⟩, _⟩, h4⟩ := hbrk
          rw [hsince2, hc] at h1
          exact ⟨c + 1, by rw [hsince2, hc]; push_cast; ring, by omega, by omega,
            by rw [hlim2, hlim], hkeep⟩
        · intro hb h0
          rw [hb] at hbrk
          obtain ⟨z1, z2, z3, z4, z5⟩ := hkeep h0
          by_cases hfull : c + 1 = 2 * s.m_transfers.length + 1
          · left
            rw [z1, hfull]
          · right
            have e1 : decide (l2'.steps_since_last_connect >
                (s.m_transfers.length : Int) * 2) = false := by
              simp only [decide_eq_false_iff_not, hsince2, hc]
              omega
            have e2 : decide (l2'.free_slots ≤ - l.ses.m_half_open.limit) = false := by
              simp only [decide_eq_false_iff_not, z2, hlim]
              omega
            have e3 : decide (l2'.max_connections_per_second = 0) = false := by
              simp only [decide_eq_false_iff_not, z3]
              omega
            rw [e1, e2, e3] at hbrk
            simp only [Bool.or_false, Bool.false_or, decide_eq_true_eq] at hbrk
            refine ⟨hbrk, ?_⟩
            rcases z5 with z5 | z5
            · rw [z5, z4] at hbrk
              omega
            · exact z5
    · exact ⟨0, rfl, by omega, hcap, rfl, fun _ => ⟨rfl, rfl, rfl, rfl, Or.inl rfl⟩⟩

theorem connect_new_peers_stall_witness :
    (∀ k, example_stalled_session.m_next_connect_transfer.m_current = some k →
      k ∈ transfer_map.keys example_stalled_session.m_transfers) ∧
    example_stalled_session.m_transfers ≠ [] ∧
    ∃ l, example_stalled_session.connect_new_peers [] = connect_outcome.returned l ∧
      (connect_successes l.steps = 0 →
        l.steps.length = 2 * example_stalled_session.m_transfers.length + 1 ∨
        (l.ses.m_max_connections ≤ l.ses.num_connections ∧
          ∃ e ∈ l.steps, e.attempt = some try_result.threw_bad_alloc)) :=
  ⟨fun k h => Option.noConfusion (h : (none : Option md4_hash) = some k), by decide,
    connect_new_peers_stall [] example_stalled_session
      (fun k h => Option.noConfusion (h : (none : Option md4_hash) = some k))
      (by decide) (by decide) (by decide) (by decide)⟩

/-- C27: `connect_new_peers` does nothing at all when the transfer map is empty, or the
free slots are at or below `-limit`, or the number of connections has reached the cap,
or the session is aborting: it returns without an iteration of its loop, so without a
call of `try_connect_peer`, and the session, with its cursor and its connection cap, is
as before. -/
theorem connect_new_peers_skipped (fates : List connect_fate) (s : session_impl)
    (h : s.m_transfers = [] ∨ s.m_half_open.free_slots ≤ - s.m_half_open.limit ∨
      s.num_connections ≥ s.m_max_connections ∨ s.m_abort = true) :
    ∃ l, s.connect_new_peers fates = connect_outcome.returned l ∧
      l.steps = [] ∧ l.fates = fates ∧ l.ses = s ∧
      l.ses.m_next_connect_transfer = s.m_next_connect_transfer ∧
      l.ses.m_max_connections = s.m_max_connections := by
  have hg : (!s.m_transfers.isEmpty &&
      decide (s.m_half_open.free_slots > - s.m_half_open.limit) &&
      decide (s.num_connections < s.m_max_connections) && !s.m_abort) = false := by
    rcases h with h | h | h | h
    · simp [h]
    · have : decide (s.m_half_open.free_slots > - s.m_half_open.limit) = false := by
        simp only [decide_eq_false_iff_not]
        omega
      simp [this]
    · have : decide (s.num_connections < s.m_max_connections) = false := by
        simp only [decide_eq_false_iff_not]
        omega
      simp [this]
    · simp [h]
  refine ⟨{ ses := s, max_connections_per_second := 10, free_slots := s.m_half_open.free_slots, steps_since_last_connect := 0, fates := fates, steps := [] }, ?_, rfl, rfl, rfl, rfl, rfl⟩
  unfold session_impl.connect_new_peers
  simp only [hg, Bool.false_eq_true, if_false]

theorem connect_new_peers_skipped_witness :
    example_closing_session.m_abort = true ∧
    ∃ l, example_closing_session.connect_new_peers [] = connect_outcome.returned l ∧
      l.steps = [] ∧ l.fates = [] ∧ l.ses = example_closing_session ∧
      l.ses.m_next_connect_transfer = example_closing_session.m_next_connect_transfer ∧
      l.ses.m_max_connections = example_closing_session.m_max_connections :=
  ⟨by decide,
    connect_new_peers_skipped [] example_closing_session (Or.inr (Or.inr (Or.inr (by decide))))⟩

/-! ## Properties of the periodic tick -/

/-- C28 fails on the code: the loop of `transfer::second_tick` steps its iterator after
the body, and the `catch` block disconnects the failing peer, which erases it from
`m_connections`. With two attached peers of which the first raises an exception, the
failing peer is disconnected and erased, and the loop then steps an iterator to the
erased element: the behaviour is undefined, and the other peer is not ticked. Without
an exception both peers are ticked once and nothing else changes. -/
theorem second_tick_erases_under_iterator :
    example_tick_transfer.second_tick (fun _ => false) example_tick_session =
      tick_outcome.returned example_tick_transfer example_tick_session [3, 4] false ∧
    ((({ m_id := 3 } : peer_connection).disconnect error_code.no_error example_tick_transfer
      example_tick_session).1.m_connections.map (fun x => x.m_id)) = [4] ∧
    connections_next (({ m_id := 3 } : peer_connection).disconnect error_code.no_error
      example_tick_transfer example_tick_session).1.m_connections 3 = none ∧
    example_tick_transfer.second_tick (fun id => id == 3) example_tick_session =
      tick_outcome.invalid_iterator ∧
    example_tick_transfer.second_tick (fun id => id == 4) example_tick_session =
      tick_outcome.invalid_iterator := by
  decide

/-! ## Properties of the piece layout -/

theorem transfer.set_state_picker (t : transfer) (s : session_impl) (st : state_t) :
    (t.set_state s st).1.m_picker = t.m_picker := by
  obtain ⟨a, ha⟩ := transfer.set_state_shape t s st
  rw [ha]

theorem transfer.init_picker (BLOCK_SIZE : Nat) (t : transfer) (s : session_impl)
    (p : piece_picker) (hp : t.m_picker = some p) :
    (t.init BLOCK_SIZE s).1.m_picker =
      some (p.init (div_ceil PIECE_SIZE BLOCK_SIZE)
        (div_ceil (t.m_filesize % PIECE_SIZE) BLOCK_SIZE) t.num_pieces) := by
  unfold transfer.init
  simp only [hp]
  split
  · rw [transfer.set_state_picker]
    rfl
  · rfl

/-- For a file size that is not a multiple of the piece size, the number of blocks that
`init` computes for the last piece is the one of the spec, between 1 and the number of
blocks of a full piece. -/
theorem div_ceil_last_piece (BLOCK_SIZE file_size : Nat) (hB : 0 < BLOCK_SIZE)
    (hr : file_size % PIECE_SIZE ≠ 0) :
    div_ceil (file_size % PIECE_SIZE) BLOCK_SIZE = spec_blocks_in_last_piece BLOCK_SIZE file_size ∧
    1 ≤ div_ceil (file_size % PIECE_SIZE) BLOCK_SIZE ∧
    div_ceil (file_size % PIECE_SIZE) BLOCK_SIZE ≤ div_ceil PIECE_SIZE BLOCK_SIZE := by
  have hlast : file_size - (div_ceil file_size PIECE_SIZE - 1) * PIECE_SIZE =
      file_size % PIECE_SIZE := by
    unfold div_ceil PIECE_SIZE at *
    omega
  refine ⟨by rw [spec_blocks_in_last_piece, hlast], ?_, ?_⟩
  · unfold div_ceil
    exact Nat.div_pos (by omega) hB
  · unfold div_ceil
    apply Nat.div_le_div_right
    have := Nat.mod_lt file_size (by decide : 0 < PIECE_SIZE)
    omega

/-- C29 fails on the code: `init` computes the blocks of the last piece from
`m_filesize % PIECE_SIZE`, which is 0 when the file size is an exact multiple of the
piece size. For a file of exactly two pieces the picker is handed 0 blocks for the last
piece, where the last piece is a full piece of 50 blocks. -/
theorem init_blocks_in_last_piece_exact_multiple :
    example_whole_pieces_params.file_size = 2 * PIECE_SIZE ∧
    (((transfer.ctor 0 example_whole_pieces_params).start 194560 {}).1.m_picker.map
      (fun p => (p.m_blocks_per_piece, p.m_blocks_in_last_piece, p.num_pieces))) =
        some (50, 0, 2) ∧
    div_ceil (example_whole_pieces_params.file_size % PIECE_SIZE) 194560 = 0 ∧
    spec_blocks_in_last_piece 194560 example_whole_pieces_params.file_size = 50 ∧
    ((({} : session_impl).add_transfer 194560 example_whole_pieces_params
        error_code.no_error).ses.m_transfers.map
      (fun e => e.2.m_picker.map (fun p => p.m_blocks_in_last_piece))) = [some 0] := by
  decide

/-! ## Properties of the endpoint encoding -/

/-- C30: for every IPv4 endpoint (address below 2^32, port below 2^16) `write_endpoint`
appends exactly 6 bytes to the output, the 4 bytes of the address followed by the 2
bytes of the port, and `read_v4_endpoint` applied to these bytes, whatever follows
them, returns the endpoint and leaves the input right behind the 6 bytes. -/
theorem endpoint_wire_round_trip (e : tcp_endpoint) (out rest : List Nat)
    (ha : e.address < 4294967296) (hp : e.port < 65536) :
    detail.write_endpoint e out =
      out ++ [e.address / 16777216 % 256, e.address / 65536 % 256, e.address / 256 % 256,
        e.address % 256] ++ [e.port / 256 % 256, e.port % 256] ∧
    (detail.write_endpoint e []).length = 6 ∧
    (∀ b ∈ detail.write_endpoint e [], b < 256) ∧
    detail.read_v4_endpoint (detail.write_endpoint e [] ++ rest) = some (e, rest) := by
  obtain ⟨a, p⟩ := e
  simp only at ha hp
  refine ⟨rfl, rfl, ?_, ?_⟩
  · intro b hb
    simp only [detail.write_endpoint, detail.write_uint16, detail.write_address,
      detail.write_uint32, List.nil_append, List.cons_append, List.mem_cons,
      List.mem_singleton, List.not_mem_nil, or_false] at hb
    omega
  · simp only [detail.write_endpoint, detail.write_uint16, detail.write_address,
      detail.write_uint32, List.nil_append, List.cons_append, detail.read_v4_endpoint,
      detail.read_v4_address, detail.read_uint32, detail.read_uint16, Option.some.injEq,
      Prod.mk.injEq, tcp_endpoint.mk.injEq, and_true]
    omega

theorem endpoint_wire_round_trip_witness :
    (3232235521 : Nat) < 4294967296 ∧ (4662 : Nat) < 65536 ∧
    detail.write_endpoint { address := 3232235521, port := 4662 } [] =
      [192, 168, 0, 1, 18, 54] ∧
    detail.read_v4_endpoint
      (detail.write_endpoint { address := 3232235521, port := 4662 } [] ++ [7]) =
        some ({ address := 3232235521, port := 4662 }, [7]) :=
  ⟨by decide, by decide, by decide,
    (endpoint_wire_round_trip { address := 3232235521, port := 4662 } [] [7]
      (by decide) (by decide)).2.2.2⟩

end libed2k
